import Mathlib

/-!
# Comic search services: ranking, index snapshot and ingestion

A shallow embedding of the search core (`search/core/service.go`, task6) and of
the ingestion core (`update/core/service.go`, task5), with the properties of the
specification proved about it.  The later revision of the ingestion core, which
publishes `db.updated`, is known from its tests only and is modelled from the
specification (`UpdateNotify`, `DropNotify`).  The storage adapter
(`update/adapters/db/storage.go`, task4), the normalizer and its gRPC operation
(`words/words/words.go`, `words/main.go`, task3) and the middleware `Auth` of
the gateway (`api/adapters/rest/middleware/auth.go`, task7) follow.

Conventions of the embedding.

* Go `int` is `Int`; counters that only ever grow from zero are `Nat`.
* A Go `map` is an association list with pairwise distinct keys (`GoMap`); the
  iteration order of a Go map is unspecified, the list order stands for one
  admissible order.
* A collaborator behind an interface (`Words`, `DB`, `XKCD`) is a field of an
  environment record returning `Except GoError _`; every call made to a
  collaborator is recorded in the `calls` field of the returned record.
* A nil slice is `none`, a non-nil slice `some l`.
* Functions of third-party libraries are parameters (`Snowball`) or, where the
  code fixes their argument, small models of what they compute for it
  (`FindAllString` for the pattern `[A-Za-z0-9]+`).
* `float64(matches) / float64(len(c.Words))` is kept as the exact fraction
  `matches / len` (`Frac`).  The comparator reads `ratio` only for two entries
  with the same `matches`; for equal numerators the rounded quotients compare
  exactly as the fractions do whenever both lengths are below `2^51`.
-/

/-- Go `error` values that matter to the services: the two sentinel errors and
the errors handed back by collaborators. -/
inductive GoError where
  | ErrBadArguments
  | ErrAlreadyExists
  | Canceled
  | upstream (code : Nat)
deriving DecidableEq, Repr

/-! ## Go maps -/

/-- Association-list model of a Go map. -/
abbrev GoMap (κ : Type) (ν : Type) := List (κ × ν)

namespace GoMap

variable {κ ν : Type} [DecidableEq κ]

/-- The read `v, ok := m[k]`. -/
def lookup : GoMap κ ν → κ → Option ν
  | [], _ => none
  | (k', v) :: m, k => if k' = k then some v else lookup m k

/-- The write `m[k] = v`. -/
def store : GoMap κ ν → κ → ν → GoMap κ ν
  | [], k, v => [(k, v)]
  | (k', v') :: m, k, v => if k' = k then (k, v) :: m else (k', v') :: store m k v

/-- The keys, in list order. -/
def keys (m : GoMap κ ν) : List κ := m.map Prod.fst

end GoMap

/-- Model of `cmp.Compare` on an ordered type. -/
def cmpCompare {α : Type} [LT α] [DecidableRel (fun (a b : α) => a < b)] (x y : α) : Int :=
  if x < y then -1 else if y < x then 1 else 0

/-- Model of `slices.SortFunc`: a sort by the comparator, `cmp a b ≤ 0` reading
"`a` may stand before `b`" (Go runs this insertion sort on short slices).  Go
leaves the order of entries that compare equal unspecified; here they keep
their input order. -/
def SortFunc {α : Type} (cmp : α → α → Int) (l : List α) : List α :=
  l.insertionSort (fun a b => cmp a b ≤ 0)

/-- Exact value of a quotient of two counters. -/
structure Frac where
  num : Nat
  den : Nat
deriving DecidableEq, Repr

namespace Frac

/-- Strict comparison of two quotients, by cross multiplication. -/
def lt (a b : Frac) : Prop := a.num * b.den < b.num * a.den

instance : LT Frac := ⟨Frac.lt⟩

instance : DecidableRel (fun (a b : Frac) => a < b) :=
  fun a b => inferInstanceAs (Decidable (a.num * b.den < b.num * a.den))

/-- The test `a != b` on quotient values. -/
def differs (a b : Frac) : Prop := a.num * b.den ≠ b.num * a.den

instance (a b : Frac) : Decidable (Frac.differs a b) :=
  inferInstanceAs (Decidable (a.num * b.den ≠ b.num * a.den))

end Frac

namespace SearchService

/-- The struct `core.Comic` as the search service reads it from storage. -/
structure Comic where
  ID : Int
  URL : String
  Words : List String
deriving DecidableEq, Repr

/-- The local struct `scored` of `Search` and `IndexSearch`; its field `matches`
is spelled `nmatches` here. -/
structure scored where
  comic : Comic
  nmatches : Nat
  ratio : Frac
deriving DecidableEq, Repr

/-- The collaborators of the search service: `s.words.Norm` and `s.db.Search`. -/
structure Env where
  Norm : String → Except GoError (List String)
  dbSearch : Except GoError (List Comic)

/-- A call made to a collaborator. -/
inductive Call where
  | Norm (phrase : String)
  | dbSearch
deriving DecidableEq, Repr

/-- What `Search` and `IndexSearch` return, with the collaborator calls made
on the way. -/
structure Return where
  res : Option (List Comic)
  err : Option GoError
  calls : List Call
deriving DecidableEq, Repr

/-- The comics of a returned slice, nil read as the empty list. -/
def Return.comics (r : Return) : List Comic := r.res.getD []

/-- The loop `for _, w := range qwords { qset[w] = true }`. -/
def buildQset (qwords : List String) : GoMap String Bool :=
  qwords.foldl (fun m w => GoMap.store m w true) []

/-- The read `qset[w]` (false for an absent key). -/
def qsetHas (qset : GoMap String Bool) (w : String) : Bool :=
  (GoMap.lookup qset w).getD false

/-- The inner loop of `Search` counting `matches` for one comic. -/
def countMatches (qset : GoMap String Bool) (words : List String) : Nat :=
  words.foldl (fun m w => if qsetHas qset w then m + 1 else m) 0

/-- One iteration of the scoring loop of `Search`. -/
def scoreStep (qset : GoMap String Bool) (acc : List scored) (c : Comic) : List scored :=
  if c.Words.length = 0 then acc
  else
    let m := countMatches qset c.Words
    if m = 0 then acc
    else acc ++ [{ comic := c, nmatches := m, ratio := ⟨m, c.Words.length⟩ }]

/-- The scoring loop of `Search` over the comics of the database. -/
def scoreComics (qset : GoMap String Bool) (comics : List Comic) : List scored :=
  comics.foldl (scoreStep qset) []

/-- The comparator handed to `slices.SortFunc`. -/
def cmpScored (a b : scored) : Int :=
  if a.nmatches ≠ b.nmatches then cmpCompare b.nmatches a.nmatches
  else if Frac.differs a.ratio b.ratio then cmpCompare b.ratio a.ratio
  else cmpCompare a.comic.ID b.comic.ID

/-- The tail of `Search` and `IndexSearch`: clamp `limit` to the length and copy
the first `limit` comics. -/
def truncate (limit : Int) (scoredList : List scored) : List Comic :=
  let limit' : Int := if limit > scoredList.length then (scoredList.length : Int) else limit
  (scoredList.take limit'.toNat).map (fun sc => sc.comic)

/-- The method `Service.Search`. -/
def Search (env : Env) (phrase : String) (limit : Int) : Return :=
  if phrase = "" ∨ limit ≤ 0 then
    { res := none, err := some GoError.ErrBadArguments, calls := [] }
  else
    match env.Norm phrase with
    | .error e => { res := none, err := some e, calls := [Call.Norm phrase] }
    | .ok qwords =>
      if qwords.length = 0 then
        { res := none, err := none, calls := [Call.Norm phrase] }
      else
        let qset := buildQset qwords
        match env.dbSearch with
        | .error e => { res := none, err := some e, calls := [Call.Norm phrase, Call.dbSearch] }
        | .ok comics =>
          { res := some (truncate limit (SortFunc cmpScored (scoreComics qset comics)))
            err := none
            calls := [Call.Norm phrase, Call.dbSearch] }

/-- The two maps of the service guarded by `mu`: `s.index` and `s.comics`. -/
structure Snapshot where
  index : GoMap String (List Int)
  comics : GoMap Int Comic
deriving DecidableEq, Repr

/-- The statement `newIndex[w] = append(newIndex[w], comic.ID)`. -/
def indexStep (id : Int) (ix : GoMap String (List Int)) (w : String) : GoMap String (List Int) :=
  GoMap.store ix w ((GoMap.lookup ix w).getD [] ++ [id])

/-- One iteration of the loop of `RebuildIndex` over the comics. -/
def rebuildStep (s : Snapshot) (comic : Comic) : Snapshot :=
  { comics := GoMap.store s.comics comic.ID comic
    index := comic.Words.foldl (indexStep comic.ID) s.index }

/-- The maps `newIndex` and `newComics` that `RebuildIndex` builds from the rows. -/
def buildSnapshot (comics : List Comic) : Snapshot :=
  comics.foldl rebuildStep { index := [], comics := [] }

/-- What `RebuildIndex` returns, the snapshot it leaves and the calls it made. -/
structure RebuildReturn where
  err : Option GoError
  snapshot : Snapshot
  calls : List Call
deriving DecidableEq, Repr

/-- The method `Service.RebuildIndex`, run on the snapshot `s`. -/
def RebuildIndex (env : Env) (s : Snapshot) : RebuildReturn :=
  match env.dbSearch with
  | .error e => { err := some e, snapshot := s, calls := [Call.dbSearch] }
  | .ok comics => { err := none, snapshot := buildSnapshot comics, calls := [Call.dbSearch] }

/-- The body of the inner loop of `IndexSearch` for one id of `s.index[qword]`:
find or create the entry of `byId`, then `sc.matches++`. -/
def bump (comics : GoMap Int Comic) (byId : GoMap Int scored) (id : Int) : GoMap Int scored :=
  match GoMap.lookup byId id with
  | some sc => GoMap.store byId id { sc with nmatches := sc.nmatches + 1 }
  | none =>
    match GoMap.lookup comics id with
    | none => byId
    | some c => GoMap.store byId id { comic := c, nmatches := 1, ratio := ⟨0, 1⟩ }

/-- The accumulation loop of `IndexSearch` over the query words. -/
def accumulate (s : Snapshot) (qwords : List String) : GoMap Int scored :=
  qwords.foldl (fun byId qword => ((GoMap.lookup s.index qword).getD []).foldl (bump s.comics) byId) []

/-- One iteration of the loop `for _, sc := range byId` of `IndexSearch`. -/
def collectStep (acc : List scored) (e : Int × scored) : List scored :=
  let wordCount := e.2.comic.Words.length
  if wordCount = 0 then acc
  else acc ++ [{ e.2 with ratio := ⟨e.2.nmatches, wordCount⟩ }]

/-- The method `Service.IndexSearch`, run on the snapshot `s`. -/
def IndexSearch (env : Env) (s : Snapshot) (phrase : String) (limit : Int) : Return :=
  if phrase = "" ∨ limit ≤ 0 then
    { res := none, err := some GoError.ErrBadArguments, calls := [] }
  else
    match env.Norm phrase with
    | .error e => { res := none, err := some e, calls := [Call.Norm phrase] }
    | .ok qwords =>
      if qwords.length = 0 then
        { res := none, err := none, calls := [Call.Norm phrase] }
      else if s.index.length = 0 ∨ s.comics.length = 0 then
        { res := none, err := none, calls := [Call.Norm phrase] }
      else
        let byId := accumulate s qwords
        if byId.length = 0 then
          { res := none, err := none, calls := [Call.Norm phrase] }
        else
          let scoredList := byId.foldl collectStep []
          if scoredList.length = 0 then
            { res := none, err := none, calls := [Call.Norm phrase] }
          else
            { res := some (truncate limit (SortFunc cmpScored scoredList))
              err := none
              calls := [Call.Norm phrase] }

end SearchService

namespace UpdateService

/-- The struct `core.XKCDInfo` returned by `xkcd.Get`. -/
structure XKCDInfo where
  ID : Int
  URL : String
  Title : String
  Description : String
deriving DecidableEq, Repr

/-- The struct `core.Comics` handed to `db.Add`. -/
structure Comics where
  ID : Int
  URL : String
  Title : String
  Description : String
  Words : List String
deriving DecidableEq, Repr

/-- The collaborators of the update service: `s.xkcd`, `s.db`, `s.words`, and the
event publisher of the later revision of the service. -/
structure Env where
  LastID : Except GoError Int
  IDs : Except GoError (List Int)
  Get : Int → Except GoError XKCDInfo
  Norm : String → Except GoError (List String)
  Add : Comics → Option GoError
  NotifyDBChanged : Option GoError

/-- A call made to a collaborator. -/
inductive Call where
  | LastID
  | IDs
  | Get (id : Int)
  | Norm (phrase : String)
  | Add (c : Comics)
  | NotifyDBChanged
deriving DecidableEq, Repr

/-- The `context.Context` of a call, as far as the feeding loop of `Update` can
see it: `doneFrom = some k` says the context is done when the `select` of
iteration `k` (counted from 0) is reached, and stays done; `none` says it is
never done.  `Err` is what `ctx.Err()` then returns. -/
structure Ctx where
  doneFrom : Option Nat
  Err : GoError
deriving DecidableEq, Repr

/-- Whether `<-ctx.Done()` is ready at iteration `k`. -/
def Ctx.doneAt (ctx : Ctx) (k : Nat) : Bool :=
  match ctx.doneFrom with
  | none => false
  | some d => decide (d ≤ k)

/-- The type `ServiceStatus`. -/
inductive ServiceStatus where
  | StatusIdle
  | StatusRunning
deriving DecidableEq, Repr

/-- The method `lockRun`: `CompareAndSwap(false, true)` on the flag `running`;
returns the error and the flag afterwards. -/
def lockRun (running : Bool) : Option GoError × Bool :=
  if running = false then (none, true) else (some GoError.ErrAlreadyExists, running)

/-- The method `unlockRun`: `running.Store(false)`. -/
def unlockRun (_running : Bool) : Bool := false

/-- The method `Status`. -/
def Status (running : Bool) : ServiceStatus :=
  if running then ServiceStatus.StatusRunning else ServiceStatus.StatusIdle

/-- The body of the loop of `worker` for one id: the calls it makes. -/
def workerJob (env : Env) (id : Int) : List Call :=
  match env.Get id with
  | .error _ => [Call.Get id]
  | .ok info =>
    let phrase := info.Title ++ " " ++ info.Description
    match env.Norm phrase with
    | .error _ => [Call.Get id, Call.Norm phrase]
    | .ok norm =>
      [Call.Get id, Call.Norm phrase,
        Call.Add { ID := info.ID, URL := info.URL, Title := info.Title,
                   Description := info.Description, Words := norm }]

/-- The method `worker` on the ids it receives from the channel: whatever `Get`,
`Norm` or `Add` answer for one id, the loop goes on to the next. -/
def worker (env : Env) : List Int → List Call
  | [] => []
  | id :: jobs => workerJob env id ++ worker env jobs

/-- The loop `for _, id := range have { haveSet[id] = true }`. -/
def buildHaveSet (have_ : List Int) : GoMap Int Bool :=
  have_.foldl (fun m id => GoMap.store m id true) []

/-- One iteration of the loop `for id := 1; id <= last; id++` of `Update`. -/
def missingStep (haveSet : GoMap Int Bool) (missing : List Int) (i : Nat) : List Int :=
  let id : Int := (i : Int) + 1
  if id = 404 then missing
  else if (GoMap.lookup haveSet id).getD false = false then missing ++ [id]
  else missing

/-- The slice `missing` of `Update` for `0 ≤ last`. -/
def missing (last : Int) (haveSet : GoMap Int Bool) : List Int :=
  (List.range last.toNat).foldl (missingStep haveSet) []

/-- The feeding loop of `Update`: the ids sent on `jobs`, and whether the loop
left through the branch `<-ctx.Done()`.  `sel k` resolves the `select` of
iteration `k` when the context is done: `true` takes `<-ctx.Done()` (the only
ready branch when the channel is full, one of two otherwise), `false` sends. -/
def feed (ctx : Ctx) (sel : Nat → Bool) : Nat → List Int → List Int × Bool
  | _, [] => ([], false)
  | k, id :: rest =>
    if ctx.doneAt k && sel k then ([], true)
    else ((id :: (feed ctx sel (k + 1) rest).1), (feed ctx sel (k + 1) rest).2)

/-- What `Update` returns: the error, whether it left by a panic, the flag
`running` afterwards, the collaborator calls in order, and the ids sent on the
channel `jobs`. -/
structure UpdateReturn where
  err : Option GoError
  panicked : Bool
  running : Bool
  calls : List Call
  jobs : List Int
deriving DecidableEq, Repr

/-- The bound `maxAlloc` of the Go runtime on the bytes of one allocation, on a
64-bit platform with 48 address bits (linux/amd64): `1 << 48`. -/
def maxAlloc : Int := 2 ^ 48

/-- The size in bytes of a Go `int` on a 64-bit platform. -/
def intSize : Int := 8

/-- Whether `make([]int, 0, cap)` panics.  The runtime function `makeslice`
panics ("cap out of range") when the capacity is negative or when its size in
bytes, `intSize * cap`, overflows or exceeds `maxAlloc`; with `cap` a 64-bit
`int` that is `cap < 0` or `maxAlloc < intSize * cap`.  An allocation that
passes this check is taken to succeed: the machine has the memory. -/
def makeslicePanics (cap : Int) : Bool :=
  decide (cap < 0 ∨ maxAlloc < intSize * cap)

/-- The method `Service.Update` of a service built by `NewService` (so with at
least one worker), entered with the flag `running`.  The calls of the workers
are listed id by id in the order of the channel, which is the order of
execution with one worker; with more workers they interleave, all of them
between the start of the pool and the return of `wg.Wait()`.  When
`make([]int, 0, last)` panics (a negative `last`, or one whose slice exceeds
`maxAlloc`) nothing is sent to the pool; the deferred `unlockRun` still
runs. -/
def Update (env : Env) (ctx : Ctx) (sel : Nat → Bool) (running : Bool) : UpdateReturn :=
  match lockRun running with
  | (some e, r) => { err := some e, panicked := false, running := r, calls := [], jobs := [] }
  | (none, r) =>
    match env.LastID with
    | .error e =>
      { err := some e, panicked := false, running := unlockRun r, calls := [Call.LastID], jobs := [] }
    | .ok last =>
      match env.IDs with
      | .error e =>
        { err := some e, panicked := false, running := unlockRun r
          calls := [Call.LastID, Call.IDs], jobs := [] }
      | .ok have_ =>
        let haveSet := buildHaveSet have_
        if makeslicePanics last then
          { err := none, panicked := true, running := unlockRun r
            calls := [Call.LastID, Call.IDs], jobs := [] }
        else
          let missing := missing last haveSet
          if missing.length = 0 then
            { err := none, panicked := false, running := unlockRun r
              calls := [Call.LastID, Call.IDs], jobs := [] }
          else
            let fed := feed ctx sel 0 missing
            if fed.2 then
              { err := some ctx.Err, panicked := false, running := unlockRun r
                calls := [Call.LastID, Call.IDs] ++ worker env fed.1, jobs := fed.1 }
            else
              { err := none, panicked := false, running := unlockRun r
                calls := [Call.LastID, Call.IDs] ++ worker env fed.1, jobs := fed.1 }

/-- Modelled from the spec: the revision of `Service.Update` that holds an event
publisher (the one the tests of task9 build with `NewService(..., events)`); its
source file is not part of the sources at hand.  It follows the steps of
`Update` above with the publication of the spec added (the spec names no bound
on the last id; of the allocation of `missing` only the panic on a negative
one is kept): "After the worker pool drains normally (not on
cancel), call `bus.NotifyDBChanged(ctx)`.  A failure here is returned as the
`Update` result", and "If `missing` is empty, return success without
publishing an event". -/
def UpdateNotify (env : Env) (ctx : Ctx) (sel : Nat → Bool) (running : Bool) : UpdateReturn :=
  match lockRun running with
  | (some e, r) => { err := some e, panicked := false, running := r, calls := [], jobs := [] }
  | (none, r) =>
    match env.LastID with
    | .error e =>
      { err := some e, panicked := false, running := unlockRun r, calls := [Call.LastID], jobs := [] }
    | .ok last =>
      match env.IDs with
      | .error e =>
        { err := some e, panicked := false, running := unlockRun r
          calls := [Call.LastID, Call.IDs], jobs := [] }
      | .ok have_ =>
        let haveSet := buildHaveSet have_
        if last < 0 then
          { err := none, panicked := true, running := unlockRun r
            calls := [Call.LastID, Call.IDs], jobs := [] }
        else
          let missing := missing last haveSet
          if missing.length = 0 then
            { err := none, panicked := false, running := unlockRun r
              calls := [Call.LastID, Call.IDs], jobs := [] }
          else
            let fed := feed ctx sel 0 missing
            if fed.2 then
              { err := some ctx.Err, panicked := false, running := unlockRun r
                calls := [Call.LastID, Call.IDs] ++ worker env fed.1, jobs := fed.1 }
            else
              { err := env.NotifyDBChanged, panicked := false, running := unlockRun r
                calls := [Call.LastID, Call.IDs] ++ worker env fed.1 ++ [Call.NotifyDBChanged]
                jobs := fed.1 }

end UpdateService

/-! ## The vocabulary of the specification -/

namespace SearchService

/-- The number `matches(c)` of the specification: how many words of `c` are in
the query stem list `Q`. -/
def matchesOf (Q : List String) (c : Comic) : Nat :=
  c.Words.countP (fun w => decide (w ∈ Q))

/-- The number `ratio(c) = matches(c) / |c.words|` of the specification. -/
def ratioOf (Q : List String) (c : Comic) : ℚ :=
  (matchesOf Q c : ℚ) / (c.Words.length : ℚ)

/-- The order of the results: more matches first, then the larger ratio, then
the smaller id. -/
def RankedBefore (Q : List String) (a b : Comic) : Prop :=
  matchesOf Q a > matchesOf Q b ∨
  (matchesOf Q a = matchesOf Q b ∧ ratioOf Q a > ratioOf Q b) ∨
  (matchesOf Q a = matchesOf Q b ∧ ratioOf Q a = ratioOf Q b ∧ a.ID ≤ b.ID)

/-- A comic that the query `Q` hits: it has words, and one of them is in `Q`. -/
def IsHit (Q : List String) (c : Comic) : Prop :=
  c.Words ≠ [] ∧ ∃ w ∈ c.Words, w ∈ Q

instance (Q : List String) (c : Comic) : Decidable (IsHit Q c) := by
  unfold IsHit
  exact inferInstance

/-- The entry of `scoredList` that the scoring loop of `Search` makes for a hit. -/
def mkScored (Q : List String) (c : Comic) : scored :=
  { comic := c, nmatches := matchesOf Q c, ratio := ⟨matchesOf Q c, c.Words.length⟩ }

/-- The invariant of the map `byId` of `IndexSearch`: its keys are pairwise
distinct and the entry under `id` holds the comic `comics[id]`. -/
def ByIdOK (comics : GoMap Int Comic) (byId : GoMap Int scored) : Prop :=
  (GoMap.keys byId).Nodup ∧
    ∀ id sc, GoMap.lookup byId id = some sc → GoMap.lookup comics id = some sc.comic

/-- The rows of the ranking scenario of the specification. -/
def scenarioRows : List Comic :=
  [⟨1, "u1", ["foo", "baz"]⟩, ⟨2, "u2", ["foo"]⟩, ⟨3, "u3", ["foo", "bar"]⟩, ⟨4, "u4", []⟩,
   ⟨5, "u5", ["baz"]⟩, ⟨6, "u6", ["foo", "bar", "x"]⟩, ⟨7, "u7", ["foo"]⟩]

/-- The collaborators of the ranking scenario: every phrase normalizes to
`foo`, `bar`, and the database returns `scenarioRows`. -/
def scenarioEnv : Env :=
  { Norm := fun _ => .ok ["foo", "bar"], dbSearch := .ok scenarioRows }

/-- Collaborators whose normalizer leaves no stem. -/
def stopWordEnv : Env :=
  { Norm := fun _ => .ok [], dbSearch := .ok scenarioRows }

end SearchService

namespace UpdateService

/-- The collaborators of the ingestion scenario of the specification: remote
last id 5, local ids 2 and 3, every fetch, normalization, write and
publication succeeds. -/
def scenarioEnv : Env :=
  { LastID := .ok 5
    IDs := .ok [2, 3]
    Get := fun id => .ok { ID := id, URL := "http://example.com", Title := "title",
                           Description := "desc" }
    Norm := fun _ => .ok ["token"]
    Add := fun _ => none
    NotifyDBChanged := none }

/-- A context that is never done. -/
def background : Ctx := { doneFrom := none, Err := GoError.Canceled }

end UpdateService

/-! ## Statistics and erasure of the update service -/

namespace UpdateService

/-- The struct `core.DBStats` returned by `db.Stats`. -/
structure DBStats where
  WordsTotal : Int
  WordsUnique : Int
  ComicsFetched : Int
deriving DecidableEq, Repr

/-- The struct `core.ServiceStats`: the embedded `DBStats` and `ComicsTotal`. -/
structure ServiceStats where
  DBStats : DBStats
  ComicsTotal : Int
deriving DecidableEq, Repr

/-- The collaborators that `Stats` and `Drop` talk to: `s.db.Stats`,
`s.xkcd.LastID`, `s.db.Drop`, and the event publisher of the later revision. -/
structure AdminEnv where
  Stats : Except GoError DBStats
  LastID : Except GoError Int
  Drop : Option GoError
  NotifyDBChanged : Option GoError

/-- A call made by `Stats` or `Drop` to a collaborator. -/
inductive AdminCall where
  | Stats
  | LastID
  | Drop
  | NotifyDBChanged
deriving DecidableEq, Repr

/-- What `Stats` returns, with the collaborator calls made on the way. -/
structure StatsReturn where
  stats : ServiceStats
  err : Option GoError
  calls : List AdminCall
deriving DecidableEq, Repr

/-- The zero value `ServiceStats{}`. -/
def ServiceStats.zero : ServiceStats :=
  { DBStats := { WordsTotal := 0, WordsUnique := 0, ComicsFetched := 0 }, ComicsTotal := 0 }

/-- The method `Service.Stats`. -/
def Stats (env : AdminEnv) : StatsReturn :=
  match env.Stats with
  | .error e => { stats := ServiceStats.zero, err := some e, calls := [AdminCall.Stats] }
  | .ok dbStat =>
    match env.LastID with
    | .error e =>
      { stats := ServiceStats.zero, err := some e, calls := [AdminCall.Stats, AdminCall.LastID] }
    | .ok last =>
      let holes : Int := if last ≥ 404 then 1 else 0
      { stats := { DBStats := dbStat, ComicsTotal := last - holes }
        err := none
        calls := [AdminCall.Stats, AdminCall.LastID] }

/-- What `Drop` returns, with the collaborator calls made on the way. -/
structure DropReturn where
  err : Option GoError
  calls : List AdminCall
deriving DecidableEq, Repr

/-- The method `Service.Drop` of the sources at hand: `return s.db.Drop(ctx)`. -/
def Drop (env : AdminEnv) : DropReturn :=
  { err := env.Drop, calls := [AdminCall.Drop] }

/-- Modelled from the spec: the revision of `Service.Drop` that holds an event
publisher (the one the tests of task9 build with `NewService(..., events)`); its
source file is not part of the sources at hand.  "Truncates all three tables
(comics, words, comic_words) and publishes `db.updated`.  Notify failure
surfaces as Drop's error"; a failed `db.Drop` is returned before anything is
published, as `TestServiceDrop_DBError` requires. -/
def DropNotify (env : AdminEnv) : DropReturn :=
  match env.Drop with
  | some e => { err := some e, calls := [AdminCall.Drop] }
  | none => { err := env.NotifyDBChanged, calls := [AdminCall.Drop, AdminCall.NotifyDBChanged] }

/-- Collaborators whose remote last id is negative. -/
def negativeEnv : Env :=
  { LastID := .ok (-1)
    IDs := .ok []
    Get := fun id => .ok { ID := id, URL := "u", Title := "t", Description := "d" }
    Norm := fun _ => .ok ["w"]
    Add := fun _ => none
    NotifyDBChanged := none }

/-- Collaborators whose remote last id is the largest 64-bit `int`, with
nothing stored. -/
def hugeEnv : Env :=
  { LastID := .ok 9223372036854775807
    IDs := .ok []
    Get := fun id => .ok { ID := id, URL := "u", Title := "t", Description := "d" }
    Norm := fun _ => .ok ["w"]
    Add := fun _ => none
    NotifyDBChanged := none }

/-- Collaborators whose remote range spans id 404: remote last id 405, nothing
stored, every fetch answered with a comic of the requested id. -/
def spanningEnv : Env :=
  { LastID := .ok 405
    IDs := .ok []
    Get := fun id => .ok { ID := id, URL := "u", Title := "t", Description := "d" }
    Norm := fun _ => .ok ["w"]
    Add := fun _ => none
    NotifyDBChanged := none }

/-- Collaborators with one remote comic, whose fetcher answers the request for
id 1 with a comic numbered 404. -/
def renumberingEnv : Env :=
  { LastID := .ok 1
    IDs := .ok []
    Get := fun _ => .ok { ID := 404, URL := "u", Title := "t", Description := "d" }
    Norm := fun _ => .ok ["w"]
    Add := fun _ => none
    NotifyDBChanged := none }

/-- Collaborators with one remote comic and nothing stored. -/
def oneComicEnv : Env :=
  { LastID := .ok 1
    IDs := .ok []
    Get := fun id => .ok { ID := id, URL := "u", Title := "t", Description := "d" }
    Norm := fun _ => .ok ["w"]
    Add := fun _ => none
    NotifyDBChanged := none }

/-- Collaborators with three remote comics, all stored. -/
def upToDateEnv : Env :=
  { LastID := .ok 3
    IDs := .ok [1, 2, 3]
    Get := fun id => .ok { ID := id, URL := "u", Title := "t", Description := "d" }
    Norm := fun _ => .ok ["w"]
    Add := fun _ => none
    NotifyDBChanged := none }

/-- Collaborators with one remote comic whose publisher fails. -/
def failingNotifyEnv : Env :=
  { LastID := .ok 1
    IDs := .ok []
    Get := fun id => .ok { ID := id, URL := "u", Title := "t", Description := "d" }
    Norm := fun _ => .ok ["w"]
    Add := fun _ => none
    NotifyDBChanged := some (GoError.upstream 7) }

/-- A context that is already cancelled when `Update` is called. -/
def cancelled : Ctx := { doneFrom := some 0, Err := GoError.Canceled }

/-- The collaborators of the statistics tests: 50 comics stored, remote last id
405. -/
def statsEnv : AdminEnv :=
  { Stats := .ok { WordsTotal := 200, WordsUnique := 40, ComicsFetched := 50 }
    LastID := .ok 405
    Drop := none
    NotifyDBChanged := none }

/-- Collaborators whose `db.Drop` fails. -/
def failingDropEnv : AdminEnv :=
  { Stats := .error (GoError.upstream 1)
    LastID := .ok 405
    Drop := some (GoError.upstream 2)
    NotifyDBChanged := none }

end UpdateService

/-! ## The storage adapter of the update service (`update/adapters/db/storage.go`) -/

namespace UpdateDB

/-- The error of one transaction attempt, as `isRetryable` sees it: a
`*pgconn.PgError` with its SQL code, or any other error. -/
inductive AttemptError where
  | pg (code : String)
  | other (tag : Nat)
deriving DecidableEq, Repr

/-- The function `isRetryable`. -/
def isRetryable (err : AttemptError) (codes : List String) : Bool :=
  match err with
  | .other _ => false
  | .pg code => codes.any (fun c => decide (code = c))

/-- The constant `maxAttempts` of `Add`. -/
def maxAttempts : Nat := 5

/-- What `Add` does besides writing: it runs attempt number `n`, or sleeps for
`ms` milliseconds. -/
inductive AddEvent where
  | attempt (n : Nat)
  | sleep (ms : Nat)
deriving DecidableEq, Repr

/-- What `Add` returns, with the attempts and sleeps in order. -/
structure AddReturn where
  err : Option AttemptError
  events : List AddEvent
deriving DecidableEq, Repr

/-- The loop `for attempt := 1; attempt <= maxAttempts; attempt++` of `Add`,
entered at `attempt` with `todo = maxAttempts + 1 - attempt` iterations left;
`runAttempt n` is the outcome of the `n`-th call of the closure `runAttempt`
(`none` is the nil error). -/
def retryLoop (runAttempt : Nat → Option AttemptError) :
    Nat → Nat → Option AttemptError → AddReturn
  | 0, _, lastErr => { err := lastErr, events := [] }
  | todo + 1, attempt, _ =>
    match runAttempt attempt with
    | none => { err := none, events := [AddEvent.attempt attempt] }
    | some err =>
      if isRetryable err ["40P01"] then
        { err := (retryLoop runAttempt todo (attempt + 1) (some err)).err
          events := [AddEvent.attempt attempt, AddEvent.sleep (attempt * 150)] ++
            (retryLoop runAttempt todo (attempt + 1) (some err)).events }
      else { err := some err, events := [AddEvent.attempt attempt] }

/-- The method `DB.Add` from `const maxAttempts = 5` on.  The deduplication of
`comics.Words` that precedes it decides what one attempt writes, not how the
attempts are retried. -/
def Add (runAttempt : Nat → Option AttemptError) : AddReturn :=
  retryLoop runAttempt maxAttempts 1 none

/-- The deadlock error of PostgreSQL. -/
def deadlock : AttemptError := AttemptError.pg "40P01"

/-- The events of the failed deadlock attempts `from`, ..., `from + n - 1`:
each attempt followed by its sleep of `attempt × 150` ms. -/
def deadlockRounds : Nat → Nat → List AddEvent
  | 0, _ => []
  | n + 1, start => [AddEvent.attempt start, AddEvent.sleep (start * 150)] ++
      deadlockRounds n (start + 1)

/-- Two deadlocks, then success. -/
def twoDeadlocks (n : Nat) : Option AttemptError :=
  if n ≤ 2 then some deadlock else none

/-- One deadlock, then a unique-violation error. -/
def deadlockThenViolation (n : Nat) : Option AttemptError :=
  if n ≤ 1 then some deadlock else some (AttemptError.pg "23505")

/-- Nothing but deadlocks. -/
def alwaysDeadlock (_n : Nat) : Option AttemptError := some deadlock

end UpdateDB

/-! ## The normalizer (`words/words/words.go`) -/

namespace Words

/-- The two functions of the snowball library that `Normalize` calls:
`english.IsStopWord`, and `snowball.Stem(w, "english", true)` with its result
and whether its error is non-nil. -/
structure Snowball where
  IsStopWord : String → Bool
  Stem : String → String × Bool

/-- The character class `[A-Za-z0-9]` of `availableCharacters`. -/
def isAvailable (c : Char) : Bool :=
  (decide ('A' ≤ c) && decide (c ≤ 'Z')) || (decide ('a' ≤ c) && decide (c ≤ 'z')) ||
    (decide ('0' ≤ c) && decide (c ≤ '9'))

/-- One character of the scan for `[A-Za-z0-9]+`: the matches found so far and
the match being read. -/
def scanStep (st : List String × List Char) (c : Char) : List String × List Char :=
  if isAvailable c then (st.1, st.2 ++ [c])
  else if st.2 = [] then (st.1, [])
  else (st.1 ++ [String.mk st.2], [])

/-- The end of the scan: a match being read is a match. -/
def scanEnd (st : List String × List Char) : List String :=
  if st.2 = [] then st.1 else st.1 ++ [String.mk st.2]

/-- Model of `availableCharacters.FindAllString(phrase, -1)`: the maximal runs
of characters of `[A-Za-z0-9]`, from left to right. -/
def FindAllString (phrase : String) : List String :=
  scanEnd (phrase.toList.foldl scanStep ([], []))

/-- Model of `strings.ToLower` on a match of `[A-Za-z0-9]+` (ASCII only). -/
def ToLower (word : String) : String := String.mk (word.toList.map Char.toLower)

/-- The function `isDigits`, on lowercased matches of `[A-Za-z0-9]+`, where
`unicode.IsDigit` is the test for `0`..`9`. -/
def isDigits (s : String) : Bool := s.toList.all Char.isDigit

/-- The stem `Normalize` keeps for a word that is not a stop word: the result
of `snowball.Stem`, or the word when that fails with an empty result. -/
def stemOf (sb : Snowball) (w : String) : String :=
  if (sb.Stem w).2 = true ∧ (sb.Stem w).1 = "" then w else (sb.Stem w).1

/-- One iteration of the loop of `Normalize` over the matches: the slice `out`
and the map `seen`. -/
def normStep (sb : Snowball) (st : List String × GoMap String Bool) (word : String) :
    List String × GoMap String Bool :=
  let w := ToLower word
  if isDigits w then
    if (GoMap.lookup st.2 w).getD false = false then (st.1 ++ [w], GoMap.store st.2 w true)
    else st
  else if sb.IsStopWord w then st
  else
    let stem := stemOf sb w
    if (GoMap.lookup st.2 stem).getD false = false then
      (st.1 ++ [stem], GoMap.store st.2 stem true)
    else st

/-- The function `Normalize`. -/
def Normalize (sb : Snowball) (phrase : String) : List String :=
  if phrase = "" then []
  else
    let raw := FindAllString phrase
    if raw.length = 0 then []
    else (raw.foldl (normStep sb) ([], [])).1

/-- Model of `strings.Join`. -/
def Join : List String → String → String
  | [], _ => ""
  | [s], _ => s
  | s :: t, sep => s ++ sep ++ Join t sep

/-- What `Normalize` would append for one match, if it were the first of its
kind: the number itself, nothing for a stop word, the stem otherwise. -/
def keyOf (sb : Snowball) (word : String) : Option String :=
  if isDigits (ToLower word) then some (ToLower word)
  else if sb.IsStopWord (ToLower word) then none
  else some (stemOf sb (ToLower word))

/-- The first occurrences of a list: every element once, in the order in which
the elements first occur. -/
def firstOccurrences : List String → List String
  | [] => []
  | a :: l => a :: (firstOccurrences l).filter (fun b => decide (b ≠ a))

/-- A word of lowercase ASCII letters and digits, not empty. -/
def IsLowerWord (s : String) : Prop :=
  s.toList ≠ [] ∧ ∀ c ∈ s.toList, isAvailable c = true ∧ c.toLower = c

instance (s : String) : Decidable (IsLowerWord s) := by
  unfold IsLowerWord
  exact inferInstance

/-- A stem that `Normalize` maps to itself: a number, or a word that is not a
stop word and is its own stem. -/
def IsFixed (sb : Snowball) (s : String) : Prop :=
  IsLowerWord s ∧ (isDigits s = true ∨ (sb.IsStopWord s = false ∧ stemOf sb s = s))

/-- A stemmer that knows the words of the tests of the repository, and that
`wills` stems to the stop word `will`. -/
def sampleSnowball : Snowball :=
  { IsStopWord := fun w =>
      decide (w ∈ ["i", "and", "you", "or", "me", "them", "who", "will", "your", "that", "it"])
    Stem := fun w =>
      if w = "simple" then ("simpl", false)
      else if w = "followers" then ("follow", false)
      else if w = "shouted" then ("shout", false)
      else if w = "wills" then ("will", false)
      else (w, false) }

end Words

/-! ## The gRPC operation `Norm` of the words service (`words/main.go`) -/

namespace Words

/-- The constant `maxPhraseLen = 4 << 10`. -/
def maxPhraseLen : Nat := 4 <<< 10

/-- The gRPC status codes that the services of the repository return. -/
inductive Code where
  | InvalidArgument
  | ResourceExhausted
  | AlreadyExists
  | Internal
deriving DecidableEq, Repr

/-- The error `status.Error(code, message)`. -/
structure Status where
  code : Code
  message : String
deriving DecidableEq, Repr

/-- The method `server.Norm`; `len(phrase)` is the length in bytes. -/
def Norm (sb : Snowball) (phrase : String) : Except Status (List String) :=
  if phrase.utf8ByteSize > maxPhraseLen then
    .error { code := Code.ResourceExhausted, message := "phrase too large" }
  else .ok (Normalize sb phrase)

end Words

/-! ## The middleware `Auth` of the gateway (`api/adapters/rest/middleware/auth.go`) -/

namespace Middleware

/-- The constant `prefix` of the middleware (here under another name). -/
def tokenScheme : String := "Token "

/-- Model of `strings.HasPrefix`. -/
def HasPrefix (s : String) (p : String) : Bool :=
  decide (s.toList.take p.length = p.toList)

/-- Model of `unicode.IsSpace`: the characters with the property White_Space. -/
def isSpace (c : Char) : Bool :=
  let n := c.toNat
  (9 ≤ n && n ≤ 13) || n = 32 || n = 133 || n = 160 || n = 5760 || (8192 ≤ n && n ≤ 8202) ||
    n = 8232 || n = 8233 || n = 8239 || n = 8287 || n = 12288

/-- Model of `strings.TrimSpace`. -/
def TrimSpace (s : String) : String :=
  String.mk ((s.toList.dropWhile isSpace).reverse.dropWhile isSpace).reverse

/-- What the handler returned by `Auth` did with one request: the status it
wrote itself, whether it called the wrapped handler `next`, and the tokens it
handed to `verifier.Verify`. -/
structure AuthReturn where
  status : Option Nat
  nextCalled : Bool
  verified : List String
deriving DecidableEq, Repr

/-- The answer `http.Error(w, "Unauthorized", http.StatusUnauthorized)`, after
the calls `verified` of `Verify`. -/
def unauthorized (verified : List String) : AuthReturn :=
  { status := some 401, nextCalled := false, verified := verified }

/-- The handler that `Auth(next, verifier)` returns, run on a request whose
`r.Header.Get("Authorization")` is `authHeader` (empty when the header is
missing); `Verify token` is the error of `verifier.Verify`, `none` for nil.
The slice `authHeader[len(prefix):]` is taken where the header starts with the
ASCII constant, so it drops as many characters as bytes. -/
def Auth (Verify : String → Option GoError) (authHeader : String) : AuthReturn :=
  if HasPrefix authHeader tokenScheme = false then unauthorized []
  else
    let tokenString := TrimSpace (String.mk (authHeader.toList.drop tokenScheme.length))
    if tokenString = "" then unauthorized []
    else
      match Verify tokenString with
      | some _ => unauthorized [tokenString]
      | none => { status := none, nextCalled := true, verified := [tokenString] }

/-- A verifier that accepts the one token `abc`. -/
def sampleVerify (token : String) : Option GoError :=
  if token = "abc" then none else some (GoError.upstream 401)

end Middleware

/-! ## The words that `Add` writes -/

namespace UpdateDB

/-- One iteration of the deduplication loop of `Add`: the map `seen` and the
slice `uniq`. -/
def dedupStep (st : GoMap String Bool × List String) (w : String) :
    GoMap String Bool × List String :=
  if (GoMap.lookup st.1 w).getD false = true then st
  else (GoMap.store st.1 w true, st.2 ++ [w])

/-- Model of `sort.Strings`: ascending in the order of Go strings, which
compares byte by byte; on UTF-8 text that is the order of the character
lists. -/
def SortStrings (l : List String) : List String :=
  l.insertionSort (fun a b => a.toList ≤ b.toList)

/-- The head of `Add`: the value of `comics.Words` that the attempts write,
deduplicated and sorted when the list has more than one word. -/
def prepareWords (words : List String) : List String :=
  if words.length > 1 then SortStrings (words.foldl dedupStep ([], [])).2
  else words

end UpdateDB

namespace SearchService

/-- The counter `matches` that the map `byId` of `IndexSearch` holds for `id`,
zero when it has no entry. -/
def hitsOf (byId : GoMap Int scored) (id : Int) : Nat :=
  match GoMap.lookup byId id with
  | some sc => sc.nmatches
  | none => 0

/-- Rows with distinct ids, one of them with a repeated word. -/
def repeatedWordRows : List Comic :=
  [⟨1, "u1", ["foo", "foo"]⟩, ⟨2, "u2", ["foo", "bar"]⟩, ⟨3, "u3", ["bar", "bar", "x"]⟩]

/-- The collaborators for `repeatedWordRows`. -/
def repeatedWordEnv : Env :=
  { Norm := fun _ => .ok ["foo", "bar"], dbSearch := .ok repeatedWordRows }

/-- Collaborators whose `db.Search` fails. -/
def failingDbEnv : Env :=
  { Norm := fun _ => .ok ["foo"], dbSearch := .error (GoError.upstream 3) }

/-- A snapshot whose index mentions the id 9 that `comics` does not hold, and
whose comic 1 has no words. -/
def staleSnapshot : Snapshot :=
  { index := [("foo", [1, 2, 9])]
    comics := [(1, ⟨1, "u1", []⟩), (2, ⟨2, "u2", ["foo"]⟩)] }

end SearchService

namespace UpdateService

/-- The ids that a list of calls hands to `xkcd.Get`, in order. -/
def getIds : List Call → List Int
  | [] => []
  | Call.Get id :: cs => id :: getIds cs
  | _ :: cs => getIds cs

/-- Collaborators whose fetcher fails on id 2 and whose normalizer fails on the
text of id 3. -/
def flakyEnv : Env :=
  { LastID := .ok 4
    IDs := .ok []
    Get := fun id =>
      if id = 2 then .error (GoError.upstream 500)
      else if id = 3 then .ok { ID := 3, URL := "u", Title := "bad", Description := "text" }
      else .ok { ID := id, URL := "u", Title := "t", Description := "d" }
    Norm := fun phrase => if phrase = "bad text" then .error (GoError.upstream 8) else .ok ["w"]
    Add := fun _ => some (GoError.upstream 9)
    NotifyDBChanged := none }

end UpdateService

/-! ## Go maps: reads after writes -/

namespace GoMap

variable {κ ν : Type} [DecidableEq κ]

theorem lookup_store_self (m : GoMap κ ν) (k : κ) (v : ν) :
    lookup (store m k v) k = some v := by
  induction m with
  | nil => simp [store, lookup]
  | cons e m ih =>
    obtain ⟨k', v'⟩ := e
    by_cases h : k' = k
    · simp [store, lookup, h]
    · simp [store, lookup, h, ih]

theorem lookup_store_ne (m : GoMap κ ν) {k k' : κ} (v : ν) (h : k' ≠ k) :
    lookup (store m k v) k' = lookup m k' := by
  induction m with
  | nil => simp [store, lookup, Ne.symm h]
  | cons e m ih =>
    obtain ⟨k₀, v₀⟩ := e
    by_cases h₀ : k₀ = k
    · subst h₀
      simp [store, lookup, Ne.symm h]
    · by_cases h₁ : k₀ = k'
      · subst h₁
        simp [store, lookup, h₀]
      · simp [store, lookup, h₀, h₁, ih]

theorem lookup_isSome_iff (m : GoMap κ ν) (k : κ) :
    (lookup m k).isSome = true ↔ k ∈ keys m := by
  induction m with
  | nil => simp [lookup, keys]
  | cons e m ih =>
    obtain ⟨k', v'⟩ := e
    by_cases h : k' = k
    · simp [lookup, keys, h]
    · have h' : ¬ k = k' := fun e => h e.symm
      simpa [lookup, keys, h, h'] using ih

theorem lookup_eq_none_iff (m : GoMap κ ν) (k : κ) :
    lookup m k = none ↔ k ∉ keys m := by
  rw [← lookup_isSome_iff]
  cases lookup m k <;> simp

theorem keys_store (m : GoMap κ ν) (k : κ) (v : ν) :
    keys (store m k v) = if k ∈ keys m then keys m else keys m ++ [k] := by
  induction m with
  | nil => simp [store, keys]
  | cons e m ih =>
    obtain ⟨k', v'⟩ := e
    by_cases h : k' = k
    · simp [store, keys, h]
    · have h' : ¬ k = k' := fun e => h e.symm
      have ih' := ih
      simp only [keys] at ih'
      simp only [store, keys, h, if_false, List.map_cons, List.mem_cons, h', false_or, ih']
      split_ifs <;> simp

theorem nodup_keys_store (m : GoMap κ ν) (k : κ) (v : ν) (h : (keys m).Nodup) :
    (keys (store m k v)).Nodup := by
  rw [keys_store]
  split_ifs with hk
  · exact h
  · exact List.Nodup.append h (List.nodup_singleton k) (by simpa using hk)

theorem mem_keys_store (m : GoMap κ ν) (k k' : κ) (v : ν) :
    k' ∈ keys (store m k v) ↔ k' = k ∨ k' ∈ keys m := by
  rw [keys_store]
  split_ifs with hk
  · constructor
    · exact Or.inr
    · rintro (rfl | h)
      · exact hk
      · exact h
  · simp [or_comm]

theorem mem_iff_lookup (m : GoMap κ ν) (h : (keys m).Nodup) (k : κ) (v : ν) :
    (k, v) ∈ m ↔ lookup m k = some v := by
  induction m with
  | nil => simp [lookup]
  | cons e m ih =>
    obtain ⟨k', v'⟩ := e
    have hnd : k' ∉ keys m ∧ (keys m).Nodup := by simpa [keys] using h
    by_cases hk : k' = k
    · subst hk
      have : ∀ w, (k', w) ∉ m := fun w hw => hnd.1 (List.mem_map.mpr ⟨(k', w), hw, rfl⟩)
      simp [lookup, this, eq_comm]
    · have hk' : ¬ k = k' := fun e => hk e.symm
      simp [lookup, hk, hk', ih hnd.2]

theorem length_store_le (m : GoMap κ ν) (k : κ) (v : ν) :
    m.length ≤ (store m k v).length := by
  have h := congrArg List.length (keys_store m k v)
  simp only [keys, List.length_map] at h
  rw [h]
  split_ifs <;> simp

theorem lookup_foldl_store_true (l : List κ) (m : GoMap κ Bool) (k : κ) :
    lookup (l.foldl (fun m x => store m x true) m) k =
      if k ∈ l then some true else lookup m k := by
  induction l generalizing m with
  | nil => simp
  | cons q l ih =>
    rw [List.foldl_cons, ih]
    by_cases hl : k ∈ l
    · simp [hl]
    · by_cases hq : k = q
      · subst hq
        simp [hl, lookup_store_self]
      · simp [hl, hq, lookup_store_ne _ _ hq]

theorem length_store_le_succ (m : GoMap κ ν) (k : κ) (v : ν) :
    (store m k v).length ≤ m.length + 1 := by
  have h := congrArg List.length (keys_store m k v)
  simp only [keys, List.length_map] at h
  rw [h]
  split_ifs <;> simp

end GoMap

/-! ## Sorting -/

theorem pairwise_orderedInsert_on {α : Type} (r : α → α → Prop) [DecidableRel r] (P : α → Prop)
    (htot : ∀ a b, P a → P b → r a b ∨ r b a)
    (htr : ∀ a b c, P a → P b → P c → r a b → r b c → r a c)
    (a : α) (ha : P a) :
    ∀ l : List α, (∀ x ∈ l, P x) → l.Pairwise r → (l.orderedInsert r a).Pairwise r := by
  intro l
  induction l with
  | nil => intro _ _; simp
  | cons b l ih =>
    intro hP hl
    have hb : P b := hP b (List.mem_cons_self _ _)
    have hPl : ∀ x ∈ l, P x := fun x hx => hP x (List.mem_cons_of_mem _ hx)
    rw [List.pairwise_cons] at hl
    by_cases hab : r a b
    · rw [List.orderedInsert, if_pos hab]
      refine List.Pairwise.cons ?_ (List.Pairwise.cons hl.1 hl.2)
      intro x hx
      rcases List.mem_cons.mp hx with rfl | hx
      · exact hab
      · exact htr a b x ha hb (hPl x hx) hab (hl.1 x hx)
    · rw [List.orderedInsert, if_neg hab]
      have hba : r b a := (htot a b ha hb).resolve_left hab
      refine List.Pairwise.cons ?_ (ih hPl hl.2)
      intro x hx
      rcases (List.mem_orderedInsert r).mp hx with rfl | hx
      · exact hba
      · exact hl.1 x hx

theorem pairwise_insertionSort_on {α : Type} (r : α → α → Prop) [DecidableRel r] (P : α → Prop)
    (htot : ∀ a b, P a → P b → r a b ∨ r b a)
    (htr : ∀ a b c, P a → P b → P c → r a b → r b c → r a c) :
    ∀ l : List α, (∀ x ∈ l, P x) → (l.insertionSort r).Pairwise r := by
  intro l
  induction l with
  | nil => intro _; simp
  | cons a l ih =>
    intro hP
    have hPl : ∀ x ∈ l, P x := fun x hx => hP x (List.mem_cons_of_mem _ hx)
    rw [List.insertionSort]
    refine pairwise_orderedInsert_on r P htot htr a (hP a (List.mem_cons_self _ _)) _ ?_ (ih hPl)
    intro x hx
    exact hPl x ((List.perm_insertionSort r l).mem_iff.mp hx)

theorem mem_SortFunc {α : Type} (cmp : α → α → Int) (l : List α) (x : α) :
    x ∈ SortFunc cmp l ↔ x ∈ l :=
  (List.perm_insertionSort _ l).mem_iff

theorem length_SortFunc {α : Type} (cmp : α → α → Int) (l : List α) :
    (SortFunc cmp l).length = l.length :=
  (List.perm_insertionSort _ l).length_eq

/-! ## The scan searcher -/

namespace SearchService

theorem qsetHas_buildQset (Q : List String) (w : String) :
    qsetHas (buildQset Q) w = decide (w ∈ Q) := by
  unfold qsetHas buildQset
  rw [GoMap.lookup_foldl_store_true]
  by_cases h : w ∈ Q <;> simp [h, GoMap.lookup]

theorem foldl_count (p : String → Bool) (ws : List String) (n : Nat) :
    ws.foldl (fun m w => if p w then m + 1 else m) n = n + ws.countP p := by
  induction ws generalizing n with
  | nil => simp
  | cons w ws ih =>
    rw [List.foldl_cons, ih, List.countP_cons]
    by_cases h : p w
    · simp [h]
      omega
    · simp [h]

theorem countMatches_buildQset (Q : List String) (c : Comic) :
    countMatches (buildQset Q) c.Words = matchesOf Q c := by
  unfold countMatches matchesOf
  rw [foldl_count, Nat.zero_add]
  congr 1
  funext w
  exact qsetHas_buildQset Q w

theorem matchesOf_pos_iff (Q : List String) (c : Comic) :
    matchesOf Q c ≠ 0 ↔ ∃ w ∈ c.Words, w ∈ Q := by
  unfold matchesOf
  rw [← Nat.pos_iff_ne_zero, List.countP_pos_iff]
  simp

theorem isHit_iff (Q : List String) (c : Comic) :
    IsHit Q c ↔ c.Words.length ≠ 0 ∧ matchesOf Q c ≠ 0 := by
  unfold IsHit
  rw [matchesOf_pos_iff]
  simp

theorem scoreStep_buildQset (Q : List String) (acc : List scored) (c : Comic) :
    scoreStep (buildQset Q) acc c = if IsHit Q c then acc ++ [mkScored Q c] else acc := by
  unfold scoreStep
  simp only [countMatches_buildQset]
  by_cases h1 : c.Words.length = 0
  · have : ¬ IsHit Q c := fun h => ((isHit_iff Q c).mp h).1 h1
    simp [h1, this]
  · by_cases h2 : matchesOf Q c = 0
    · have : ¬ IsHit Q c := fun h => ((isHit_iff Q c).mp h).2 h2
      simp [h1, h2, this]
    · have : IsHit Q c := (isHit_iff Q c).mpr ⟨h1, h2⟩
      simp [h1, h2, this, mkScored]

theorem foldl_scoreStep (Q : List String) (comics : List Comic) (acc : List scored) :
    comics.foldl (scoreStep (buildQset Q)) acc =
      acc ++ (comics.filter (fun c => decide (IsHit Q c))).map (mkScored Q) := by
  induction comics generalizing acc with
  | nil => simp
  | cons c comics ih =>
    rw [List.foldl_cons, ih, scoreStep_buildQset]
    by_cases h : IsHit Q c <;> simp [h, List.filter_cons]

theorem scoreComics_buildQset (Q : List String) (comics : List Comic) :
    scoreComics (buildQset Q) comics =
      (comics.filter (fun c => decide (IsHit Q c))).map (mkScored Q) := by
  unfold scoreComics
  rw [foldl_scoreStep, List.nil_append]


theorem frac_lt_iff (a b : Frac) : a < b ↔ a.num * b.den < b.num * a.den := Iff.rfl

theorem cmpScored_le_iff (a b : scored) :
    cmpScored a b ≤ 0 ↔
      b.nmatches < a.nmatches ∨
      (a.nmatches = b.nmatches ∧
        (b.ratio.num * a.ratio.den < a.ratio.num * b.ratio.den ∨
          (a.ratio.num * b.ratio.den = b.ratio.num * a.ratio.den ∧
            a.comic.ID ≤ b.comic.ID))) := by
  unfold cmpScored cmpCompare Frac.differs
  simp only [frac_lt_iff]
  split_ifs <;> omega

theorem frac_lt_iff_div (a b : Frac) (ha : 0 < a.den) (hb : 0 < b.den) :
    b.num * a.den < a.num * b.den ↔ (b.num : ℚ) / (b.den : ℚ) < (a.num : ℚ) / (a.den : ℚ) := by
  have ha' : (0 : ℚ) < (a.den : ℚ) := by exact_mod_cast ha
  have hb' : (0 : ℚ) < (b.den : ℚ) := by exact_mod_cast hb
  rw [div_lt_div_iff₀ hb' ha']
  exact_mod_cast Iff.rfl

theorem frac_eq_iff_div (a b : Frac) (ha : 0 < a.den) (hb : 0 < b.den) :
    a.num * b.den = b.num * a.den ↔ (a.num : ℚ) / (a.den : ℚ) = (b.num : ℚ) / (b.den : ℚ) := by
  have ha' : (a.den : ℚ) ≠ 0 := by exact_mod_cast ha.ne'
  have hb' : (b.den : ℚ) ≠ 0 := by exact_mod_cast hb.ne'
  rw [div_eq_div_iff ha' hb']
  exact_mod_cast Iff.rfl

theorem cmpScored_le_iff_div (a b : scored) (ha : 0 < a.ratio.den) (hb : 0 < b.ratio.den) :
    cmpScored a b ≤ 0 ↔
      b.nmatches < a.nmatches ∨
      (a.nmatches = b.nmatches ∧
        ((b.ratio.num : ℚ) / (b.ratio.den : ℚ) < (a.ratio.num : ℚ) / (a.ratio.den : ℚ) ∨
          ((a.ratio.num : ℚ) / (a.ratio.den : ℚ) = (b.ratio.num : ℚ) / (b.ratio.den : ℚ) ∧
            a.comic.ID ≤ b.comic.ID))) := by
  rw [cmpScored_le_iff, frac_lt_iff_div a.ratio b.ratio ha hb,
    frac_eq_iff_div a.ratio b.ratio ha hb]

theorem cmpScored_total (a b : scored) (ha : 0 < a.ratio.den) (hb : 0 < b.ratio.den) :
    cmpScored a b ≤ 0 ∨ cmpScored b a ≤ 0 := by
  rw [cmpScored_le_iff_div a b ha hb, cmpScored_le_iff_div b a hb ha]
  rcases lt_trichotomy a.nmatches b.nmatches with h | h | h
  · exact Or.inr (Or.inl h)
  · rcases lt_trichotomy ((a.ratio.num : ℚ) / (a.ratio.den : ℚ))
      ((b.ratio.num : ℚ) / (b.ratio.den : ℚ)) with g | g | g
    · exact Or.inr (Or.inr ⟨h.symm, Or.inl g⟩)
    · rcases le_total a.comic.ID b.comic.ID with i | i
      · exact Or.inl (Or.inr ⟨h, Or.inr ⟨g, i⟩⟩)
      · exact Or.inr (Or.inr ⟨h.symm, Or.inr ⟨g.symm, i⟩⟩)
    · exact Or.inl (Or.inr ⟨h, Or.inl g⟩)
  · exact Or.inl (Or.inl h)

theorem cmpScored_trans (a b c : scored) (ha : 0 < a.ratio.den) (hb : 0 < b.ratio.den)
    (hc : 0 < c.ratio.den) (hab : cmpScored a b ≤ 0) (hbc : cmpScored b c ≤ 0) :
    cmpScored a c ≤ 0 := by
  rw [cmpScored_le_iff_div a b ha hb] at hab
  rw [cmpScored_le_iff_div b c hb hc] at hbc
  rw [cmpScored_le_iff_div a c ha hc]
  rcases hab with h | ⟨h, g | ⟨g, i⟩⟩ <;> rcases hbc with h' | ⟨h', g' | ⟨g', i'⟩⟩
  · exact Or.inl (by omega)
  · exact Or.inl (by omega)
  · exact Or.inl (by omega)
  · exact Or.inl (by omega)
  · exact Or.inr ⟨by omega, Or.inl (lt_trans g' g)⟩
  · exact Or.inr ⟨by omega, Or.inl (by rw [← g']; exact g)⟩
  · exact Or.inl (by omega)
  · exact Or.inr ⟨by omega, Or.inl (by rw [g]; exact g')⟩
  · exact Or.inr ⟨by omega, Or.inr ⟨g.trans g', le_trans i i'⟩⟩

theorem pairwise_SortFunc_cmpScored (l : List scored) (h : ∀ x ∈ l, 0 < x.ratio.den) :
    (SortFunc cmpScored l).Pairwise (fun a b => cmpScored a b ≤ 0) :=
  pairwise_insertionSort_on (fun a b => cmpScored a b ≤ 0) (fun x => 0 < x.ratio.den)
    cmpScored_total cmpScored_trans l h

theorem isHit_length_pos {Q : List String} {c : Comic} (h : IsHit Q c) : 0 < c.Words.length :=
  List.length_pos.mpr h.1

theorem rankedBefore_of_cmp (Q : List String) (a b : Comic) (ha : IsHit Q a) (hb : IsHit Q b)
    (h : cmpScored (mkScored Q a) (mkScored Q b) ≤ 0) : RankedBefore Q a b := by
  rw [cmpScored_le_iff_div _ _ (isHit_length_pos ha) (isHit_length_pos hb)] at h
  unfold RankedBefore ratioOf
  simp only [mkScored] at h
  rcases h with h | ⟨h, g | ⟨g, i⟩⟩
  · exact Or.inl h
  · exact Or.inr (Or.inl ⟨h, g⟩)
  · exact Or.inr (Or.inr ⟨h, g, i⟩)

theorem mem_ranked (Q : List String) (comics : List Comic) (x : scored) :
    x ∈ SortFunc cmpScored (scoreComics (buildQset Q) comics) ↔
      ∃ c, c ∈ comics ∧ IsHit Q c ∧ x = mkScored Q c := by
  rw [mem_SortFunc, scoreComics_buildQset, List.mem_map]
  constructor
  · rintro ⟨c, hc, rfl⟩
    rw [List.mem_filter] at hc
    exact ⟨c, hc.1, of_decide_eq_true hc.2, rfl⟩
  · rintro ⟨c, hc, hh, rfl⟩
    exact ⟨c, List.mem_filter.mpr ⟨hc, decide_eq_true hh⟩, rfl⟩

theorem pairwise_ranked (Q : List String) (comics : List Comic) (limit : Int) :
    (truncate limit (SortFunc cmpScored (scoreComics (buildQset Q) comics))).Pairwise
      (RankedBefore Q) := by
  have hden : ∀ x ∈ scoreComics (buildQset Q) comics, 0 < x.ratio.den := by
    intro x hx
    obtain ⟨c, -, hh, rfl⟩ := (mem_ranked Q comics x).mp ((mem_SortFunc _ _ x).mpr hx)
    exact isHit_length_pos hh
  have hs := pairwise_SortFunc_cmpScored _ hden
  unfold truncate
  rw [List.pairwise_map]
  refine List.Pairwise.imp_of_mem ?_ (hs.sublist (List.take_sublist _ _))
  intro a b ha hb hab
  obtain ⟨ca, -, hha, rfl⟩ := (mem_ranked Q comics a).mp (List.mem_of_mem_take ha)
  obtain ⟨cb, -, hhb, rfl⟩ := (mem_ranked Q comics b).mp (List.mem_of_mem_take hb)
  exact rankedBefore_of_cmp Q ca cb hha hhb hab


theorem Search_ok (env : Env) (phrase : String) (limit : Int) (Q : List String)
    (comics : List Comic) (hp : phrase ≠ "") (hl : 0 < limit) (hQ : env.Norm phrase = .ok Q)
    (hne : Q ≠ []) (hdb : env.dbSearch = .ok comics) :
    Search env phrase limit =
      { res := some (truncate limit (SortFunc cmpScored (scoreComics (buildQset Q) comics)))
        err := none
        calls := [Call.Norm phrase, Call.dbSearch] } := by
  have hl' : ¬ limit ≤ 0 := not_le.mpr hl
  have hlen : ¬ Q.length = 0 := fun h => hne (List.length_eq_zero.mp h)
  unfold Search
  simp only [hp, hl', or_self, if_false, hQ, hlen, hdb]

theorem length_truncate (limit : Int) (l : List scored) (hl : 0 < limit) :
    ((truncate limit l).length : Int) = min limit (l.length : Int) := by
  unfold truncate
  simp only [List.length_map, List.length_take]
  split_ifs with h
  · rw [Int.toNat_ofNat, Nat.min_self, min_eq_right (le_of_lt h)]
  · have h' : limit ≤ (l.length : Int) := not_lt.mp h
    rw [min_eq_left h']
    have : limit.toNat ≤ l.length := by omega
    rw [Nat.min_eq_left this]
    omega

theorem mem_truncate_of_le (limit : Int) (l : List scored) (h : (l.length : Int) ≤ limit)
    (c : Comic) : c ∈ truncate limit l ↔ ∃ x ∈ l, x.comic = c := by
  unfold truncate
  have : l.length ≤ (if limit > (l.length : Int) then (l.length : Int) else limit).toNat := by
    split_ifs <;> omega
  simp only [List.take_of_length_le this, List.mem_map]

/-- C1: the list returned by `Search` for the stems `Q` is ordered: of two
results, the earlier one has more matches, or the same matches and a larger
ratio, or the same matches and ratio and an id that is not larger. -/
theorem Search_ranked (env : Env) (phrase : String) (limit : Int) (Q : List String)
    (hQ : env.Norm phrase = .ok Q) :
    (Search env phrase limit).comics.Pairwise (RankedBefore Q) := by
  unfold Search
  split_ifs with h1
  · simp [Return.comics]
  · rw [hQ]
    simp only
    split_ifs with h2
    · simp [Return.comics]
    · cases hdb : env.dbSearch with
      | error e => simp [Return.comics]
      | ok comics =>
        simp only [Return.comics, Option.getD_some]
        exact pairwise_ranked Q comics limit

theorem Search_ranked_witness :
    scenarioEnv.Norm "foo bar" = .ok ["foo", "bar"] ∧
      (Search scenarioEnv "foo bar" 3).comics.Pairwise (RankedBefore ["foo", "bar"]) :=
  ⟨rfl, Search_ranked scenarioEnv "foo bar" 3 ["foo", "bar"] rfl⟩

/-- C4: with an empty phrase or a non-positive limit, `Search` and `IndexSearch`
both return `ErrBadArguments` and a nil slice, and call no collaborator. -/
theorem bad_arguments (env : Env) (s : Snapshot) (phrase : String) (limit : Int)
    (h : phrase = "" ∨ limit ≤ 0) :
    Search env phrase limit =
        { res := none, err := some GoError.ErrBadArguments, calls := [] } ∧
      IndexSearch env s phrase limit =
        { res := none, err := some GoError.ErrBadArguments, calls := [] } := by
  unfold Search IndexSearch
  simp only [h, if_true, and_self]

theorem bad_arguments_witness :
    ("foo" = "" ∨ (0 : Int) ≤ 0) ∧
      Search scenarioEnv "foo" 0 =
        { res := none, err := some GoError.ErrBadArguments, calls := [] } ∧
      IndexSearch scenarioEnv (buildSnapshot scenarioRows) "foo" 0 =
        { res := none, err := some GoError.ErrBadArguments, calls := [] } :=
  ⟨Or.inr (le_refl 0),
    bad_arguments scenarioEnv (buildSnapshot scenarioRows) "foo" 0 (Or.inr (le_refl 0))⟩

/-- C5: for a non-empty stem list `Q` and a positive limit, `Search` returns
`min(limit, n)` comics, `n` being the number of rows with a non-empty word list
and a word in `Q`; so never more than `limit`. -/
theorem Search_length (env : Env) (phrase : String) (limit : Int) (Q : List String)
    (comics : List Comic) (hp : phrase ≠ "") (hl : 0 < limit) (hQ : env.Norm phrase = .ok Q)
    (hne : Q ≠ []) (hdb : env.dbSearch = .ok comics) :
    ((Search env phrase limit).comics.length : Int) =
        min limit ((comics.filter (fun c => decide (IsHit Q c))).length : Int) ∧
      ((Search env phrase limit).comics.length : Int) ≤ limit := by
  rw [Search_ok env phrase limit Q comics hp hl hQ hne hdb]
  simp only [Return.comics, Option.getD_some]
  rw [length_truncate _ _ hl, length_SortFunc, scoreComics_buildQset, List.length_map]
  exact ⟨rfl, min_le_left _ _⟩

theorem Search_length_witness :
    "foo bar" ≠ "" ∧ (0 : Int) < 3 ∧ scenarioEnv.Norm "foo bar" = .ok ["foo", "bar"] ∧
      ["foo", "bar"] ≠ [] ∧ scenarioEnv.dbSearch = .ok scenarioRows ∧
      (((Search scenarioEnv "foo bar" 3).comics.length : Int) =
          min 3 ((scenarioRows.filter
            (fun c => decide (IsHit ["foo", "bar"] c))).length : Int) ∧
        ((Search scenarioEnv "foo bar" 3).comics.length : Int) ≤ 3) :=
  ⟨by decide, by decide, rfl, by decide, rfl,
    Search_length scenarioEnv "foo bar" 3 ["foo", "bar"] scenarioRows (by decide) (by decide)
      rfl (by decide) rfl⟩

theorem mem_Search_of_pos (env : Env) (phrase : String) (limit : Int) (Q : List String)
    (comics : List Comic) (hp : phrase ≠ "") (hl : 0 < limit) (hQ : env.Norm phrase = .ok Q)
    (hne : Q ≠ []) (hdb : env.dbSearch = .ok comics) (hlim : (comics.length : Int) ≤ limit)
    (c : Comic) :
    c ∈ (Search env phrase limit).comics ↔ c ∈ comics ∧ IsHit Q c := by
  rw [Search_ok env phrase limit Q comics hp hl hQ hne hdb]
  simp only [Return.comics, Option.getD_some]
  have hlen : ((SortFunc cmpScored (scoreComics (buildQset Q) comics)).length : Int) ≤ limit := by
    rw [length_SortFunc, scoreComics_buildQset, List.length_map]
    have := List.length_filter_le (fun c => decide (IsHit Q c)) comics
    omega
  rw [mem_truncate_of_le _ _ hlen]
  constructor
  · rintro ⟨x, hx, rfl⟩
    obtain ⟨c, hc, hh, rfl⟩ := (mem_ranked Q comics x).mp hx
    exact ⟨hc, hh⟩
  · rintro ⟨hc, hh⟩
    exact ⟨mkScored Q c, (mem_ranked Q comics _).mpr ⟨c, hc, hh, rfl⟩, rfl⟩

/-- C6: with a non-empty stem list `Q` and a limit that is at least the number
of rows, the comics `Search` returns are exactly the rows with a non-empty word
list and a word in `Q`; a row without words or without a match is not returned. -/
theorem Search_mem_iff (env : Env) (phrase : String) (limit : Int) (Q : List String)
    (comics : List Comic) (hp : phrase ≠ "") (hQ : env.Norm phrase = .ok Q) (hne : Q ≠ [])
    (hdb : env.dbSearch = .ok comics) (hlim : (comics.length : Int) ≤ limit) (c : Comic) :
    c ∈ (Search env phrase limit).comics ↔ c ∈ comics ∧ c.Words ≠ [] ∧ ∃ w ∈ c.Words, w ∈ Q := by
  by_cases hl : 0 < limit
  · exact mem_Search_of_pos env phrase limit Q comics hp hl hQ hne hdb hlim c
  · have h0 : comics = [] := by
      apply List.length_eq_zero.mp
      omega
    have hbad : phrase = "" ∨ limit ≤ 0 := Or.inr (not_lt.mp hl)
    subst h0
    unfold Search
    simp [hbad, Return.comics]

theorem Search_mem_iff_witness :
    "foo bar" ≠ "" ∧ scenarioEnv.Norm "foo bar" = .ok ["foo", "bar"] ∧
      ["foo", "bar"] ≠ [] ∧ scenarioEnv.dbSearch = .ok scenarioRows ∧
      ((scenarioRows.length : Int) ≤ 7) ∧
      ((⟨5, "u5", ["baz"]⟩ : Comic) ∈ (Search scenarioEnv "foo bar" 7).comics ↔
        (⟨5, "u5", ["baz"]⟩ : Comic) ∈ scenarioRows ∧ (["baz"] : List String) ≠ [] ∧
          ∃ w ∈ (["baz"] : List String), w ∈ ["foo", "bar"]) :=
  ⟨by decide, rfl, by decide, rfl, by decide,
    Search_mem_iff scenarioEnv "foo bar" 7 ["foo", "bar"] scenarioRows (by decide) rfl
      (by decide) rfl (by decide) ⟨5, "u5", ["baz"]⟩⟩

/-- C7: when the normalizer returns no stem (and no error) for a non-empty
phrase and a positive limit, `Search` and `IndexSearch` both return an empty
result (the nil slice) and no error. -/
theorem empty_query (env : Env) (s : Snapshot) (phrase : String) (limit : Int)
    (hp : phrase ≠ "") (hl : 0 < limit) (hQ : env.Norm phrase = .ok []) :
    ((Search env phrase limit).comics = [] ∧ (Search env phrase limit).err = none) ∧
      ((IndexSearch env s phrase limit).comics = [] ∧
        (IndexSearch env s phrase limit).err = none) := by
  have hl' : ¬ limit ≤ 0 := not_le.mpr hl
  unfold Search IndexSearch
  simp [hp, hl', hQ, Return.comics]

theorem empty_query_witness :
    "the" ≠ "" ∧ (0 : Int) < 10 ∧ stopWordEnv.Norm "the" = .ok [] ∧
      ((Search stopWordEnv "the" 10).comics = [] ∧ (Search stopWordEnv "the" 10).err = none) ∧
      ((IndexSearch stopWordEnv (buildSnapshot scenarioRows) "the" 10).comics = [] ∧
        (IndexSearch stopWordEnv (buildSnapshot scenarioRows) "the" 10).err = none) :=
  ⟨by decide, by decide, rfl,
    empty_query stopWordEnv (buildSnapshot scenarioRows) "the" 10 (by decide) (by decide) rfl⟩

end SearchService

/-! ## The index snapshot -/

namespace SearchService

theorem buildSnapshot_append (cs : List Comic) (c : Comic) :
    buildSnapshot (cs ++ [c]) = rebuildStep (buildSnapshot cs) c := by
  unfold buildSnapshot
  rw [List.foldl_append]
  rfl

theorem eq_of_mem_of_ID_eq {cs : List Comic} (hd : (cs.map (fun c => c.ID)).Nodup)
    {a b : Comic} (ha : a ∈ cs) (hb : b ∈ cs) (h : a.ID = b.ID) : a = b :=
  List.inj_on_of_nodup_map hd ha hb h

theorem lookup_comics_buildSnapshot (cs : List Comic) (hd : (cs.map (fun c => c.ID)).Nodup)
    (id : Int) (x : Comic) :
    GoMap.lookup (buildSnapshot cs).comics id = some x ↔ x ∈ cs ∧ x.ID = id := by
  induction cs using List.reverseRecOn with
  | nil => simp [buildSnapshot, GoMap.lookup]
  | append_singleton l a ih =>
    rw [List.map_append, List.nodup_append] at hd
    obtain ⟨hdl, -, hdisj⟩ := hd
    have hnot : ∀ y ∈ l, y.ID ≠ a.ID := by
      intro y hy he
      exact hdisj (List.mem_map.mpr ⟨y, hy, he⟩) (by simp)
    rw [buildSnapshot_append]
    simp only [rebuildStep]
    by_cases h : id = a.ID
    · subst h
      rw [GoMap.lookup_store_self]
      constructor
      · intro hx
        cases hx
        exact ⟨by simp, rfl⟩
      · rintro ⟨hx, hid⟩
        rcases List.mem_append.mp hx with hx | hx
        · exact absurd hid (hnot x hx)
        · rw [List.mem_singleton.mp hx]
    · rw [GoMap.lookup_store_ne _ _ h, ih hdl]
      constructor
      · rintro ⟨hx, hid⟩
        exact ⟨List.mem_append_left _ hx, hid⟩
      · rintro ⟨hx, hid⟩
        rcases List.mem_append.mp hx with hx | hx
        · exact ⟨hx, hid⟩
        · rw [List.mem_singleton.mp hx] at hid
          exact absurd hid.symm h

theorem length_comics_buildSnapshot (cs : List Comic) :
    (buildSnapshot cs).comics.length ≤ cs.length := by
  induction cs using List.reverseRecOn with
  | nil => simp [buildSnapshot]
  | append_singleton l a ih =>
    rw [buildSnapshot_append]
    simp only [rebuildStep, List.length_append, List.length_singleton]
    exact le_trans (GoMap.length_store_le_succ _ _ _) (Nat.succ_le_succ ih)

theorem lookup_indexStep (id : Int) (ix : GoMap String (List Int)) (w₀ w : String) :
    GoMap.lookup (indexStep id ix w₀) w =
      if w = w₀ then some ((GoMap.lookup ix w₀).getD [] ++ [id]) else GoMap.lookup ix w := by
  unfold indexStep
  by_cases h : w = w₀
  · subst h
    simp [GoMap.lookup_store_self]
  · simp [h, GoMap.lookup_store_ne _ _ h]

theorem mem_index_foldl (id : Int) (ws : List String) (ix : GoMap String (List Int))
    (w : String) (i : Int) :
    i ∈ (GoMap.lookup (ws.foldl (indexStep id) ix) w).getD [] ↔
      i ∈ (GoMap.lookup ix w).getD [] ∨ (i = id ∧ w ∈ ws) := by
  induction ws generalizing ix with
  | nil => simp
  | cons w₀ ws ih =>
    rw [List.foldl_cons, ih, lookup_indexStep]
    by_cases h : w = w₀
    · subst h
      simp only [if_true, Option.getD_some, List.mem_append, List.mem_singleton,
        List.mem_cons, true_or, and_true]
      tauto
    · simp only [h, if_false, List.mem_cons, false_or]

theorem mem_index_buildSnapshot (cs : List Comic) (w : String) (i : Int) :
    i ∈ (GoMap.lookup (buildSnapshot cs).index w).getD [] ↔
      ∃ c ∈ cs, c.ID = i ∧ w ∈ c.Words := by
  induction cs using List.reverseRecOn with
  | nil => simp [buildSnapshot, GoMap.lookup]
  | append_singleton l a ih =>
    rw [buildSnapshot_append]
    simp only [rebuildStep]
    rw [mem_index_foldl, ih]
    constructor
    · rintro (⟨c, hc, h⟩ | ⟨rfl, hw⟩)
      · exact ⟨c, List.mem_append_left _ hc, h⟩
      · exact ⟨a, by simp, rfl, hw⟩
    · rintro ⟨c, hc, hid, hw⟩
      rcases List.mem_append.mp hc with hc | hc
      · exact Or.inl ⟨c, hc, hid, hw⟩
      · rw [List.mem_singleton.mp hc] at hid hw
        exact Or.inr ⟨hid.symm, hw⟩

end SearchService

/-! ## The indexed searcher -/

namespace SearchService

theorem mem_keys_bump (comics : GoMap Int Comic) (byId : GoMap Int scored) (id k : Int) :
    k ∈ GoMap.keys (bump comics byId id) ↔
      k ∈ GoMap.keys byId ∨ (k = id ∧ (GoMap.lookup comics id).isSome = true) := by
  unfold bump
  cases h1 : GoMap.lookup byId id with
  | some sc =>
    have hid : id ∈ GoMap.keys byId := by
      rw [← GoMap.lookup_isSome_iff, h1]
      rfl
    simp only [GoMap.mem_keys_store]
    constructor
    · rintro (rfl | h)
      · exact Or.inl hid
      · exact Or.inl h
    · rintro (h | ⟨rfl, -⟩)
      · exact Or.inr h
      · exact Or.inr hid
  | none =>
    cases h2 : GoMap.lookup comics id with
    | none => simp
    | some c =>
      simp only [GoMap.mem_keys_store, Option.isSome_some, and_true]
      tauto

theorem bump_ok (comics : GoMap Int Comic) (byId : GoMap Int scored) (id : Int)
    (h : ByIdOK comics byId) : ByIdOK comics (bump comics byId id) := by
  unfold bump
  cases h1 : GoMap.lookup byId id with
  | some sc =>
    refine ⟨GoMap.nodup_keys_store _ _ _ h.1, ?_⟩
    intro k sc' hk
    by_cases hki : k = id
    · subst hki
      rw [GoMap.lookup_store_self] at hk
      cases hk
      exact h.2 k sc h1
    · rw [GoMap.lookup_store_ne _ _ hki] at hk
      exact h.2 k sc' hk
  | none =>
    cases h2 : GoMap.lookup comics id with
    | none => exact h
    | some c =>
      refine ⟨GoMap.nodup_keys_store _ _ _ h.1, ?_⟩
      intro k sc' hk
      by_cases hki : k = id
      · subst hki
        rw [GoMap.lookup_store_self] at hk
        cases hk
        exact h2
      · rw [GoMap.lookup_store_ne _ _ hki] at hk
        exact h.2 k sc' hk

theorem foldl_bump_ok (comics : GoMap Int Comic) (ids : List Int) (byId : GoMap Int scored)
    (h : ByIdOK comics byId) : ByIdOK comics (ids.foldl (bump comics) byId) := by
  induction ids generalizing byId with
  | nil => exact h
  | cons id ids ih => exact ih _ (bump_ok comics byId id h)

theorem mem_keys_foldl_bump (comics : GoMap Int Comic) (ids : List Int)
    (byId : GoMap Int scored) (k : Int) :
    k ∈ GoMap.keys (ids.foldl (bump comics) byId) ↔
      k ∈ GoMap.keys byId ∨ (k ∈ ids ∧ (GoMap.lookup comics k).isSome = true) := by
  induction ids generalizing byId with
  | nil => simp
  | cons id ids ih =>
    rw [List.foldl_cons, ih, mem_keys_bump, List.mem_cons]
    constructor
    · rintro ((h | ⟨rfl, h⟩) | ⟨h, h'⟩)
      · exact Or.inl h
      · exact Or.inr ⟨Or.inl rfl, h⟩
      · exact Or.inr ⟨Or.inr h, h'⟩
    · rintro (h | ⟨rfl | h, h'⟩)
      · exact Or.inl (Or.inl h)
      · exact Or.inl (Or.inr ⟨rfl, h'⟩)
      · exact Or.inr ⟨h, h'⟩

theorem foldl_accumulate_ok (s : Snapshot) (Q : List String) (byId : GoMap Int scored)
    (h : ByIdOK s.comics byId) :
    ByIdOK s.comics
      (Q.foldl (fun byId qword =>
        ((GoMap.lookup s.index qword).getD []).foldl (bump s.comics) byId) byId) := by
  induction Q generalizing byId with
  | nil => exact h
  | cons q Q ih => exact ih _ (foldl_bump_ok _ _ _ h)

theorem mem_keys_foldl_accumulate (s : Snapshot) (Q : List String) (byId : GoMap Int scored)
    (k : Int) :
    k ∈ GoMap.keys (Q.foldl (fun byId qword =>
        ((GoMap.lookup s.index qword).getD []).foldl (bump s.comics) byId) byId) ↔
      k ∈ GoMap.keys byId ∨
        ((∃ q ∈ Q, k ∈ (GoMap.lookup s.index q).getD []) ∧
          (GoMap.lookup s.comics k).isSome = true) := by
  induction Q generalizing byId with
  | nil => simp
  | cons q Q ih =>
    rw [List.foldl_cons, ih, mem_keys_foldl_bump]
    simp only [List.mem_cons, exists_eq_or_imp]
    tauto

theorem accumulate_ok (s : Snapshot) (Q : List String) : ByIdOK s.comics (accumulate s Q) :=
  foldl_accumulate_ok s Q [] ⟨List.nodup_nil, fun _ _ h => by simp [GoMap.lookup] at h⟩

theorem mem_keys_accumulate (s : Snapshot) (Q : List String) (k : Int) :
    k ∈ GoMap.keys (accumulate s Q) ↔
      (∃ q ∈ Q, k ∈ (GoMap.lookup s.index q).getD []) ∧
        (GoMap.lookup s.comics k).isSome = true := by
  unfold accumulate
  rw [mem_keys_foldl_accumulate]
  simp [GoMap.keys]

theorem accumulate_eq_nil (s : Snapshot) (Q : List String)
    (h : s.index.length = 0 ∨ s.comics.length = 0) : accumulate s Q = [] := by
  have hk : GoMap.keys (accumulate s Q) = [] := by
    apply List.eq_nil_iff_forall_not_mem.mpr
    intro k hk
    rw [mem_keys_accumulate] at hk
    obtain ⟨⟨q, -, hq⟩, hc⟩ := hk
    rcases h with h | h
    · rw [List.length_eq_zero.mp h] at hq
      simp [GoMap.lookup] at hq
    · rw [List.length_eq_zero.mp h] at hc
      simp [GoMap.lookup] at hc
  exact List.map_eq_nil_iff.mp hk

theorem foldl_collectStep (byId : GoMap Int scored) (acc : List scored) :
    byId.foldl collectStep acc =
      acc ++ (byId.filter (fun e => decide (e.2.comic.Words.length ≠ 0))).map
        (fun e => { e.2 with ratio := ⟨e.2.nmatches, e.2.comic.Words.length⟩ }) := by
  induction byId generalizing acc with
  | nil => simp
  | cons e byId ih =>
    rw [List.foldl_cons, ih]
    unfold collectStep
    by_cases h : e.2.comic.Words.length = 0
    · have h' : e.2.comic.Words = [] := List.length_eq_zero.mp h
      simp [h, h', List.filter_cons]
    · have h' : ¬ e.2.comic.Words = [] := fun h0 => h (List.length_eq_zero.mpr h0)
      simp [h, h', List.filter_cons]

theorem mem_collect (byId : GoMap Int scored) (c : Comic) :
    (∃ x ∈ byId.foldl collectStep [], x.comic = c) ↔
      ∃ e ∈ byId, e.2.comic = c ∧ c.Words ≠ [] := by
  rw [foldl_collectStep, List.nil_append]
  constructor
  · rintro ⟨x, hx, rfl⟩
    obtain ⟨e, he, rfl⟩ := List.mem_map.mp hx
    rw [List.mem_filter] at he
    refine ⟨e, he.1, rfl, ?_⟩
    have := of_decide_eq_true he.2
    intro h0
    exact this (List.length_eq_zero.mpr h0)
  · rintro ⟨e, he, rfl, hw⟩
    refine ⟨_, List.mem_map.mpr ⟨e, List.mem_filter.mpr ⟨he, ?_⟩, rfl⟩, rfl⟩
    exact decide_eq_true (fun h0 => hw (List.length_eq_zero.mp h0))

theorem length_collect_le (byId : GoMap Int scored) :
    (byId.foldl collectStep []).length ≤ byId.length := by
  rw [foldl_collectStep, List.nil_append, List.length_map]
  exact List.length_filter_le _ _

theorem mem_IndexSearch (env : Env) (s : Snapshot) (phrase : String) (limit : Int)
    (Q : List String) (hp : phrase ≠ "") (hl : 0 < limit) (hQ : env.Norm phrase = .ok Q)
    (hne : Q ≠ []) (hlen : ((accumulate s Q).length : Int) ≤ limit) (c : Comic) :
    c ∈ (IndexSearch env s phrase limit).comics ↔
      ∃ e ∈ accumulate s Q, e.2.comic = c ∧ c.Words ≠ [] := by
  have hl' : ¬ limit ≤ 0 := not_le.mpr hl
  have hQlen : ¬ Q.length = 0 := fun h => hne (List.length_eq_zero.mp h)
  rw [← mem_collect]
  unfold IndexSearch
  simp only [hp, hl', or_self, if_false, hQ, hQlen]
  split_ifs with h1 h2 h3
  · rw [accumulate_eq_nil s Q h1]
    simp [Return.comics]
  · rw [List.length_eq_zero.mp h2]
    simp [Return.comics]
  · rw [List.length_eq_zero.mp h3]
    simp [Return.comics]
  · simp only [Return.comics, Option.getD_some]
    have hlen' : ((SortFunc cmpScored ((accumulate s Q).foldl collectStep [])).length : Int)
        ≤ limit := by
      rw [length_SortFunc]
      have := length_collect_le (accumulate s Q)
      omega
    rw [mem_truncate_of_le _ _ hlen']
    simp only [mem_SortFunc]


theorem length_accumulate_le (cs : List Comic) (Q : List String) :
    (accumulate (buildSnapshot cs) Q).length ≤ cs.length := by
  have hsub : GoMap.keys (accumulate (buildSnapshot cs) Q) ⊆
      GoMap.keys (buildSnapshot cs).comics := by
    intro k hk
    rw [mem_keys_accumulate] at hk
    exact (GoMap.lookup_isSome_iff _ k).mp hk.2
  have h := (List.subperm_of_subset (accumulate_ok (buildSnapshot cs) Q).1 hsub).length_le
  simp only [GoMap.keys, List.length_map] at h
  exact le_trans h (length_comics_buildSnapshot cs)

theorem mem_accumulate_buildSnapshot (cs : List Comic) (hd : (cs.map (fun c => c.ID)).Nodup)
    (Q : List String) (c : Comic) :
    (∃ e ∈ accumulate (buildSnapshot cs) Q, e.2.comic = c ∧ c.Words ≠ []) ↔
      c ∈ cs ∧ c.Words ≠ [] ∧ ∃ w ∈ c.Words, w ∈ Q := by
  have hok := accumulate_ok (buildSnapshot cs) Q
  constructor
  · rintro ⟨⟨id, sc⟩, he, rfl, hw⟩
    have hlk : GoMap.lookup (accumulate (buildSnapshot cs) Q) id = some sc :=
      (GoMap.mem_iff_lookup _ hok.1 id sc).mp he
    have hc := (lookup_comics_buildSnapshot cs hd id sc.comic).mp (hok.2 id sc hlk)
    have hk : id ∈ GoMap.keys (accumulate (buildSnapshot cs) Q) :=
      List.mem_map.mpr ⟨(id, sc), he, rfl⟩
    obtain ⟨⟨q, hq, hidx⟩, -⟩ := (mem_keys_accumulate _ Q id).mp hk
    obtain ⟨c', hc', hid', hqw⟩ := (mem_index_buildSnapshot cs q id).mp hidx
    have : c' = sc.comic := eq_of_mem_of_ID_eq hd hc' hc.1 (hid'.trans hc.2.symm)
    subst this
    exact ⟨hc.1, hw, q, hqw, hq⟩
  · rintro ⟨hc, hw, w, hwc, hwQ⟩
    have hidx : c.ID ∈ (GoMap.lookup (buildSnapshot cs).index w).getD [] :=
      (mem_index_buildSnapshot cs w c.ID).mpr ⟨c, hc, rfl, hwc⟩
    have hlc : GoMap.lookup (buildSnapshot cs).comics c.ID = some c :=
      (lookup_comics_buildSnapshot cs hd c.ID c).mpr ⟨hc, rfl⟩
    have hk : c.ID ∈ GoMap.keys (accumulate (buildSnapshot cs) Q) :=
      (mem_keys_accumulate _ Q c.ID).mpr ⟨⟨w, hwQ, hidx⟩, by rw [hlc]; rfl⟩
    obtain ⟨⟨id, sc⟩, he, hid⟩ := List.mem_map.mp hk
    simp only at hid
    subst hid
    have hlk := (GoMap.mem_iff_lookup _ hok.1 c.ID sc).mp he
    have hsc := hok.2 c.ID sc hlk
    rw [hlc] at hsc
    exact ⟨(c.ID, sc), he, (Option.some.inj hsc).symm, hw⟩

/-- C2: when the rows have pairwise distinct ids and the snapshot was built by
`RebuildIndex` from the rows that `db.Search` returns, then for every phrase
and every limit that is at least the number of rows, `Search` and
`IndexSearch` return the same set of comics. -/
theorem Search_IndexSearch_same_set (env : Env) (s₀ : Snapshot) (comics : List Comic)
    (phrase : String) (limit : Int) (hd : (comics.map (fun c => c.ID)).Nodup)
    (hdb : env.dbSearch = .ok comics) (hlim : (comics.length : Int) ≤ limit) (c : Comic) :
    c ∈ (Search env phrase limit).comics ↔
      c ∈ (IndexSearch env (RebuildIndex env s₀).snapshot phrase limit).comics := by
  have hsnap : (RebuildIndex env s₀).snapshot = buildSnapshot comics := by
    unfold RebuildIndex
    rw [hdb]
  rw [hsnap]
  by_cases hbad : phrase = "" ∨ limit ≤ 0
  · unfold Search IndexSearch
    simp [hbad, Return.comics]
  · have hp : phrase ≠ "" := fun h => hbad (Or.inl h)
    have hl : 0 < limit := not_le.mp (fun h => hbad (Or.inr h))
    cases hN : env.Norm phrase with
    | error e =>
      unfold Search IndexSearch
      simp [hbad, hN, Return.comics]
    | ok Q =>
      by_cases hQ : Q = []
      · subst hQ
        unfold Search IndexSearch
        simp [hbad, hN, Return.comics]
      · have hlen : ((accumulate (buildSnapshot comics) Q).length : Int) ≤ limit := by
          have := length_accumulate_le comics Q
          omega
        rw [mem_Search_of_pos env phrase limit Q comics hp hl hN hQ hdb hlim c,
          mem_IndexSearch env (buildSnapshot comics) phrase limit Q hp hl hN hQ hlen c,
          mem_accumulate_buildSnapshot comics hd Q c]
        rfl

theorem Search_IndexSearch_same_set_witness :
    (scenarioRows.map (fun c => c.ID)).Nodup ∧ scenarioEnv.dbSearch = .ok scenarioRows ∧
      (scenarioRows.length : Int) ≤ 7 ∧
      ((⟨6, "u6", ["foo", "bar", "x"]⟩ : Comic) ∈ (Search scenarioEnv "foo bar" 7).comics ↔
        (⟨6, "u6", ["foo", "bar", "x"]⟩ : Comic) ∈
          (IndexSearch scenarioEnv
            (RebuildIndex scenarioEnv { index := [], comics := [] }).snapshot
            "foo bar" 7).comics) :=
  ⟨by decide, rfl, by decide,
    Search_IndexSearch_same_set scenarioEnv { index := [], comics := [] } scenarioRows
      "foo bar" 7 (by decide) rfl (by decide) ⟨6, "u6", ["foo", "bar", "x"]⟩⟩

/-! ### The ranking scenario of the specification, run on the model -/

theorem scenario_Search :
    (Search scenarioEnv "foo bar" 3).comics.map (fun c => c.ID) = [3, 6, 2] := by decide

theorem scenario_IndexSearch :
    (IndexSearch scenarioEnv (RebuildIndex scenarioEnv { index := [], comics := [] }).snapshot
      "foo bar" 3).comics.map (fun c => c.ID) = [3, 6, 2] := by decide

end SearchService

/-! ## The ingestion engine -/

namespace UpdateService

theorem foldl_missingStep (hs : GoMap Int Bool) (l : List Nat) (acc : List Int) :
    l.foldl (missingStep hs) acc =
      acc ++ (l.map (fun i : Nat => (i : Int) + 1)).filter
        (fun id => decide (id ≠ 404 ∧ (GoMap.lookup hs id).getD false = false)) := by
  induction l generalizing acc with
  | nil => simp
  | cons i l ih =>
    rw [List.foldl_cons, ih]
    unfold missingStep
    by_cases h1 : (i : Int) + 1 = 404
    · simp [h1, List.filter_cons]
    · by_cases h2 : (GoMap.lookup hs ((i : Int) + 1)).getD false = false
      · simp [h1, h2, List.filter_cons]
      · simp [h1, h2, List.filter_cons]

theorem haveSet_getD (H : List Int) (id : Int) :
    (GoMap.lookup (buildHaveSet H) id).getD false = decide (id ∈ H) := by
  unfold buildHaveSet
  rw [GoMap.lookup_foldl_store_true]
  by_cases h : id ∈ H <;> simp [h, GoMap.lookup]

theorem missing_eq (L : Int) (H : List Int) :
    missing L (buildHaveSet H) =
      ((List.range L.toNat).map (fun i : Nat => (i : Int) + 1)).filter
        (fun id => decide (id ≠ 404 ∧ id ∉ H)) := by
  unfold missing
  rw [foldl_missingStep, List.nil_append]
  congr 1
  funext id
  rw [haveSet_getD]
  by_cases h : id ∈ H <;> simp [h]

theorem mem_missing (L : Int) (H : List Int) (i : Int) :
    i ∈ missing L (buildHaveSet H) ↔ 1 ≤ i ∧ i ≤ L ∧ i ∉ H ∧ i ≠ 404 := by
  rw [missing_eq, List.mem_filter, List.mem_map]
  simp only [List.mem_range, decide_eq_true_eq]
  constructor
  · rintro ⟨⟨n, hn, rfl⟩, h404, hH⟩
    exact ⟨by omega, by omega, hH, h404⟩
  · rintro ⟨h1, h2, hH, h404⟩
    exact ⟨⟨(i - 1).toNat, by omega, by omega⟩, h404, hH⟩

theorem sorted_missing (L : Int) (H : List Int) :
    (missing L (buildHaveSet H)).Sorted (fun a b => a < b) := by
  rw [missing_eq]
  apply List.Pairwise.filter
  rw [List.pairwise_map]
  exact (List.pairwise_lt_range L.toNat).imp (fun h => by omega)

theorem feed_never_done (err : GoError) (sel : Nat → Bool) (l : List Int) (k : Nat) :
    feed { doneFrom := none, Err := err } sel k l = (l, false) := by
  induction l generalizing k with
  | nil => rfl
  | cons id l ih => simp [feed, Ctx.doneAt, ih]

theorem feed_complete (ctx : Ctx) (sel : Nat → Bool) (l : List Int) (k : Nat)
    (h : (feed ctx sel k l).2 = false) : (feed ctx sel k l).1 = l := by
  induction l generalizing k with
  | nil => rfl
  | cons id l ih =>
    unfold feed at h ⊢
    by_cases hc : (ctx.doneAt k && sel k) = true
    · simp [hc] at h
    · simp only [hc] at h ⊢
      simp only [Bool.false_eq_true, if_false] at h ⊢
      rw [ih (k + 1) h]

theorem feed_append (ctx : Ctx) (sel : Nat → Bool) (l : List Int) (k : Nat) :
    ∃ t, (feed ctx sel k l).1 ++ t = l := by
  induction l generalizing k with
  | nil => exact ⟨[], rfl⟩
  | cons id l ih =>
    unfold feed
    by_cases hc : (ctx.doneAt k && sel k) = true
    · exact ⟨id :: l, by simp [hc]⟩
    · obtain ⟨t, ht⟩ := ih (k + 1)
      refine ⟨t, ?_⟩
      simp only [hc]
      simp only [Bool.false_eq_true, if_false, List.cons_append, ht]

theorem count_notify_workerJob (env : Env) (id : Int) :
    (workerJob env id).count Call.NotifyDBChanged = 0 := by
  unfold workerJob
  cases env.Get id with
  | error e => simp
  | ok info =>
    simp only
    cases env.Norm (info.Title ++ " " ++ info.Description) with
    | error e => simp
    | ok norm => simp

theorem count_notify_worker (env : Env) (jobs : List Int) :
    (worker env jobs).count Call.NotifyDBChanged = 0 := by
  induction jobs with
  | nil => simp [worker]
  | cons id jobs ih => simp [worker, List.count_append, count_notify_workerJob, ih]

theorem makeslicePanics_iff (cap : Int) :
    makeslicePanics cap = true ↔ cap < 0 ∨ 35184372088832 < cap := by
  unfold makeslicePanics maxAlloc intSize
  rw [decide_eq_true_iff]
  constructor
  · rintro (h | h)
    · exact Or.inl h
    · exact Or.inr (by omega)
  · rintro (h | h)
    · exact Or.inl h
    · exact Or.inr (by omega)

theorem makeslicePanics_eq_false (cap : Int) (h0 : 0 ≤ cap) (hcap : intSize * cap ≤ maxAlloc) :
    makeslicePanics cap = false := by
  unfold makeslicePanics
  rw [decide_eq_false_iff_not]
  rintro (h | h)
  · exact absurd h0 (not_le.mpr h)
  · exact absurd hcap (not_le.mpr h)

theorem Update_panics (env : Env) (ctx : Ctx) (sel : Nat → Bool) (L : Int) (H : List Int)
    (hL : env.LastID = .ok L) (hH : env.IDs = .ok H) (hp : makeslicePanics L = true) :
    Update env ctx sel false =
      { err := none, panicked := true, running := false
        calls := [Call.LastID, Call.IDs], jobs := [] } := by
  unfold Update
  simp only [lockRun, if_true, hL, hH, hp, unlockRun]

/-- C3, as stated, fails: with the remote last id `2^63 - 1` (which is `≥ 0`)
and nothing stored, `make([]int, 0, last)` panics with a capacity out of range,
so `Update` hands the pool no id at all, although the id 1 is one of the
integers `i` with `1 ≤ i ≤ L`, `i ∉ H` and `i ≠ 404`. -/
theorem Update_huge_last_panics :
    hugeEnv.LastID = .ok 9223372036854775807 ∧ hugeEnv.IDs = .ok [] ∧
      (0 : Int) ≤ 9223372036854775807 ∧
      ((1 : Int) ≤ 1 ∧ (1 : Int) ≤ 9223372036854775807 ∧ (1 : Int) ∉ ([] : List Int) ∧
        (1 : Int) ≠ 404) ∧
      (Update hugeEnv background (fun _ => false) false).panicked = true ∧
      (Update hugeEnv background (fun _ => false) false).jobs = [] ∧
      (Update hugeEnv background (fun _ => false) false).calls = [Call.LastID, Call.IDs] := by
  have hp : makeslicePanics 9223372036854775807 = true :=
    (makeslicePanics_iff _).mpr (Or.inr (by decide))
  have h := Update_panics hugeEnv background (fun _ => false) 9223372036854775807 [] rfl rfl hp
  refine ⟨rfl, rfl, by decide, by decide, ?_, ?_, ?_⟩
  · rw [h]
  · rw [h]
  · rw [h]

/-- C3, amended: for a remote last id `L` with `0 ≤ L` and
`intSize * L ≤ maxAlloc` (so `L ≤ 2^45`: the capacities that
`make([]int, 0, L)` accepts) and stored ids `H`, the slice `missing` whose ids
`Update` sends to the worker pool holds exactly the `i` with `1 ≤ i ≤ L`,
`i ∉ H` and `i ≠ 404`, strictly ascending and without repetition.  `Update`
sends them in that order, none skipped or repeated: all of them when its
context is never done, an initial part when the feeding loop leaves through
`<-ctx.Done()`. -/
theorem missing_exact (L : Int) (H : List Int) (hL : 0 ≤ L) (hcap : intSize * L ≤ maxAlloc) :
    (∀ i : Int, i ∈ missing L (buildHaveSet H) ↔ 1 ≤ i ∧ i ≤ L ∧ i ∉ H ∧ i ≠ 404) ∧
      (missing L (buildHaveSet H)).Sorted (fun a b => a < b) ∧
      (missing L (buildHaveSet H)).Nodup ∧
      ∀ (env : Env) (sel : Nat → Bool), env.LastID = .ok L → env.IDs = .ok H →
        (∀ err : GoError, (Update env { doneFrom := none, Err := err } sel false).jobs =
            missing L (buildHaveSet H)) ∧
          ∀ ctx : Ctx, ∃ t, (Update env ctx sel false).jobs ++ t = missing L (buildHaveSet H) := by
  refine ⟨mem_missing L H, sorted_missing L H, (sorted_missing L H).imp (fun h => ne_of_lt h), ?_⟩
  intro env sel h1 h2
  have hp : makeslicePanics L = false := makeslicePanics_eq_false L hL hcap
  constructor
  · intro err
    unfold Update
    simp only [lockRun, h1, h2, hp, Bool.false_eq_true, if_true, if_false, feed_never_done]
    split_ifs with h
    all_goals first
      | rfl
      | exact (List.length_eq_zero.mp h).symm
  · intro ctx
    unfold Update
    simp only [lockRun, h1, h2, hp, Bool.false_eq_true, if_true, if_false]
    split_ifs with h
    all_goals first
      | exact feed_append ctx sel _ 0
      | exact ⟨missing L (buildHaveSet H), rfl⟩

theorem missing_exact_witness :
    (0 : Int) ≤ 5 ∧ intSize * 5 ≤ maxAlloc ∧
      ((∀ i : Int, i ∈ missing 5 (buildHaveSet [2, 3]) ↔
          1 ≤ i ∧ i ≤ 5 ∧ i ∉ ([2, 3] : List Int) ∧ i ≠ 404) ∧
        (missing 5 (buildHaveSet [2, 3])).Sorted (fun a b => a < b) ∧
        (missing 5 (buildHaveSet [2, 3])).Nodup ∧
        ∀ (env : Env) (sel : Nat → Bool), env.LastID = .ok 5 → env.IDs = .ok [2, 3] →
          (∀ err : GoError, (Update env { doneFrom := none, Err := err } sel false).jobs =
              missing 5 (buildHaveSet [2, 3])) ∧
            ∀ ctx : Ctx, ∃ t,
              (Update env ctx sel false).jobs ++ t = missing 5 (buildHaveSet [2, 3])) :=
  ⟨by decide, by decide, missing_exact 5 [2, 3] (by decide) (by decide)⟩

/-- C8: an `Update` entered while the flag `running` is set returns
`ErrAlreadyExists` at once: it calls no collaborator (not `LastID`, `IDs`,
`Get`, `Norm` or `Add`) and sends no id to the pool. -/
theorem Update_already_running (env : Env) (ctx : Ctx) (sel : Nat → Bool) :
    (Update env ctx sel true).err = some GoError.ErrAlreadyExists ∧
      (Update env ctx sel true).calls = [] ∧ (Update env ctx sel true).jobs = [] := by
  unfold Update
  simp [lockRun]

/-- C9: an `Update` that acquired the flag leaves it false on every way out
(error of `LastID`, error of `IDs`, nothing missing, completion, cancellation,
and the panic of `make([]int, 0, last)`), so `Status` then reports idle; and
`Status` reports running exactly when the flag is set. -/
theorem Update_clears_flag (env : Env) (ctx : Ctx) (sel : Nat → Bool) :
    (Update env ctx sel false).running = false ∧
      Status (Update env ctx sel false).running = ServiceStatus.StatusIdle ∧
      ∀ running : Bool, Status running = ServiceStatus.StatusRunning ↔ running = true := by
  have h : (Update env ctx sel false).running = false := by
    unfold Update
    simp only [lockRun, if_true]
    cases env.LastID with
    | error e => rfl
    | ok last =>
      cases env.IDs with
      | error e => rfl
      | ok have_ =>
        simp only
        split_ifs <;> rfl
  refine ⟨h, ?_, ?_⟩
  · rw [h]; rfl
  · intro running
    cases running <;> simp [Status]

theorem Update_no_publication (env : Env) (ctx : Ctx) (sel : Nat → Bool) (running : Bool) :
    (Update env ctx sel running).calls.count Call.NotifyDBChanged = 0 := by
  unfold Update
  cases running
  · simp only [lockRun, if_true]
    cases env.LastID with
    | error e => simp
    | ok last =>
      cases env.IDs with
      | error e => simp
      | ok have_ =>
        simp only
        split_ifs <;> simp [List.count_append, count_notify_worker]
  · simp [lockRun]

theorem UpdateNotify_count_le (env : Env) (ctx : Ctx) (sel : Nat → Bool) (running : Bool) :
    (UpdateNotify env ctx sel running).calls.count Call.NotifyDBChanged ≤ 1 := by
  unfold UpdateNotify
  cases running
  · simp only [lockRun, if_true]
    cases env.LastID with
    | error e => simp
    | ok last =>
      cases env.IDs with
      | error e => simp
      | ok have_ =>
        simp only
        split_ifs <;> simp [List.count_append, count_notify_worker]
  · simp [lockRun]

/-- C10: in the revision of `Update` with an event publisher, an `Update` that
returns no error and had a non-empty `missing` sent every missing id to the
pool and called `NotifyDBChanged` exactly once, as its last call, after all the
calls of the workers; and no `Update` calls it more than once. -/
theorem UpdateNotify_publishes_once (env : Env) (ctx : Ctx) (sel : Nat → Bool) (running : Bool)
    (L : Int) (H : List Int) (hL : env.LastID = .ok L) (hH : env.IDs = .ok H)
    (hm : missing L (buildHaveSet H) ≠ [])
    (herr : (UpdateNotify env ctx sel running).err = none) :
    ((UpdateNotify env ctx sel running).jobs = missing L (buildHaveSet H) ∧
        (UpdateNotify env ctx sel running).calls =
          [Call.LastID, Call.IDs] ++ worker env (missing L (buildHaveSet H)) ++
            [Call.NotifyDBChanged] ∧
        ([Call.LastID, Call.IDs] ++ worker env (missing L (buildHaveSet H))).count
            Call.NotifyDBChanged = 0 ∧
        (UpdateNotify env ctx sel running).calls.count Call.NotifyDBChanged = 1) ∧
      ∀ (env' : Env) (ctx' : Ctx) (sel' : Nat → Bool) (running' : Bool),
        (UpdateNotify env' ctx' sel' running').calls.count Call.NotifyDBChanged ≤ 1 := by
  refine ⟨?_, UpdateNotify_count_le⟩
  have hlen : ¬ (missing L (buildHaveSet H)).length = 0 := fun h => hm (List.length_eq_zero.mp h)
  cases running
  · unfold UpdateNotify at herr ⊢
    simp only [lockRun, if_true, hL, hH, hlen, if_false] at herr ⊢
    by_cases hneg : L < 0
    · exfalso
      apply hm
      unfold missing
      rw [Int.toNat_eq_zero.mpr (le_of_lt hneg)]
      rfl
    · simp only [hneg, if_false] at herr ⊢
      cases hfed : (feed ctx sel 0 (missing L (buildHaveSet H))).2 with
      | true =>
        simp [hfed] at herr
      | false =>
        have hall : (feed ctx sel 0 (missing L (buildHaveSet H))).1 =
            missing L (buildHaveSet H) := feed_complete ctx sel _ 0 hfed
        simp [hall, List.count_append, count_notify_worker]
  · unfold UpdateNotify at herr
    simp [lockRun] at herr

theorem UpdateNotify_publishes_once_witness :
    scenarioEnv.LastID = .ok 5 ∧ scenarioEnv.IDs = .ok [2, 3] ∧
      missing 5 (buildHaveSet [2, 3]) ≠ [] ∧
      (UpdateNotify scenarioEnv background (fun _ => false) false).err = none ∧
      (((UpdateNotify scenarioEnv background (fun _ => false) false).jobs =
            missing 5 (buildHaveSet [2, 3]) ∧
          (UpdateNotify scenarioEnv background (fun _ => false) false).calls =
            [Call.LastID, Call.IDs] ++ worker scenarioEnv (missing 5 (buildHaveSet [2, 3])) ++
              [Call.NotifyDBChanged] ∧
          ([Call.LastID, Call.IDs] ++ worker scenarioEnv (missing 5 (buildHaveSet [2, 3]))).count
              Call.NotifyDBChanged = 0 ∧
          (UpdateNotify scenarioEnv background (fun _ => false) false).calls.count
              Call.NotifyDBChanged = 1) ∧
        ∀ (env' : Env) (ctx' : Ctx) (sel' : Nat → Bool) (running' : Bool),
          (UpdateNotify env' ctx' sel' running').calls.count Call.NotifyDBChanged ≤ 1) :=
  ⟨rfl, rfl, by decide, by decide,
    UpdateNotify_publishes_once scenarioEnv background (fun _ => false) false 5 [2, 3] rfl rfl
      (by decide) (by decide)⟩

/-! ### The scenarios of the specification, run on the model -/

theorem scenario_missing : missing 5 (buildHaveSet [2, 3]) = [1, 4, 5] := by decide

theorem not_mem_missing_404 (L : Int) (H : List Int) : (404 : Int) ∉ missing L (buildHaveSet H) := by
  intro h
  exact ((mem_missing L H 404).mp h).2.2.2 rfl

theorem scenario_Update :
    (Update scenarioEnv background (fun _ => false) false).jobs = [1, 4, 5] ∧
      (Update scenarioEnv background (fun _ => false) false).err = none ∧
      (UpdateNotify scenarioEnv background (fun _ => false) false).calls.count
        Call.NotifyDBChanged = 1 := by decide

end UpdateService

/-! ## The ingestion engine: nothing missing, publication errors, id 404, cancellation -/

namespace UpdateService

theorem missing_eq_nil (L : Int) (H : List Int)
    (hall : ∀ i : Int, 1 ≤ i → i ≤ L → i ≠ 404 → i ∈ H) : missing L (buildHaveSet H) = [] := by
  apply List.eq_nil_iff_forall_not_mem.mpr
  intro i hi
  obtain ⟨h1, h2, h3, h4⟩ := (mem_missing L H i).mp hi
  exact h3 (hall i h1 h2 h4)

theorem missing_of_neg (L : Int) (hs : GoMap Int Bool) (h : L < 0) : missing L hs = [] := by
  unfold missing
  rw [Int.toNat_eq_zero.mpr (le_of_lt h)]
  rfl

theorem UpdateNotify_nothing_missing (env : Env) (ctx : Ctx) (sel : Nat → Bool) (L : Int)
    (H : List Int) (hL : env.LastID = .ok L) (hH : env.IDs = .ok H) (h0 : 0 ≤ L)
    (hall : ∀ i : Int, 1 ≤ i → i ≤ L → i ≠ 404 → i ∈ H) :
    UpdateNotify env ctx sel false =
      { err := none, panicked := false, running := false
        calls := [Call.LastID, Call.IDs], jobs := [] } := by
  have hneg : ¬ L < 0 := not_lt.mpr h0
  unfold UpdateNotify
  simp only [lockRun, if_true, hL, hH, hneg, if_false, missing_eq_nil L H hall,
    List.length_nil, unlockRun]

/-- C11, as stated, fails: with the remote last id `-1` no id of `[1, L]` is
absent, and `Update` leaves by the panic of `make([]int, 0, last)` instead of
returning success. -/
theorem Update_negative_last_panics :
    negativeEnv.LastID = .ok (-1) ∧ negativeEnv.IDs = .ok [] ∧
      (∀ i : Int, 1 ≤ i → i ≤ -1 → i ≠ 404 → i ∈ ([] : List Int)) ∧
      (Update negativeEnv background (fun _ => false) false).panicked = true := by
  refine ⟨rfl, rfl, ?_, by decide⟩
  intro i h1 h2
  omega

/-- C11, amended: for every `L` with `0 ≤ L` and `intSize * L ≤ maxAlloc` (so
`L ≤ 2^45`: the capacities that `make([]int, 0, L)` accepts) and every `H`
such that no id of `[1, L]` other than 404 is absent from `H` (also `L = 0`),
`Update` returns success having called `LastID` and `IDs` only: no `Get`, no
`Norm`, no `Add`, no publication; and it sends no id to the pool. -/
theorem Update_nothing_missing (env : Env) (ctx : Ctx) (sel : Nat → Bool) (L : Int)
    (H : List Int) (hL : env.LastID = .ok L) (hH : env.IDs = .ok H) (h0 : 0 ≤ L)
    (hcap : intSize * L ≤ maxAlloc)
    (hall : ∀ i : Int, 1 ≤ i → i ≤ L → i ≠ 404 → i ∈ H) :
    Update env ctx sel false =
      { err := none, panicked := false, running := false
        calls := [Call.LastID, Call.IDs], jobs := [] } := by
  have hp : makeslicePanics L = false := makeslicePanics_eq_false L h0 hcap
  have hm : missing L (buildHaveSet H) = [] := missing_eq_nil L H hall
  unfold Update
  simp only [lockRun, if_true, hL, hH, hp, Bool.false_eq_true, if_false, hm, List.length_nil,
    unlockRun]

theorem Update_nothing_missing_witness :
    upToDateEnv.LastID = .ok 3 ∧ upToDateEnv.IDs = .ok [1, 2, 3] ∧ (0 : Int) ≤ 3 ∧
      intSize * 3 ≤ maxAlloc ∧
      (∀ i : Int, 1 ≤ i → i ≤ 3 → i ≠ 404 → i ∈ ([1, 2, 3] : List Int)) ∧
      Update upToDateEnv background (fun _ => false) false =
        { err := none, panicked := false, running := false
          calls := [Call.LastID, Call.IDs], jobs := [] } :=
  have hall : ∀ i : Int, 1 ≤ i → i ≤ 3 → i ≠ 404 → i ∈ ([1, 2, 3] : List Int) := by
    intro i h1 h2 _
    have : i = 1 ∨ i = 2 ∨ i = 3 := by omega
    rcases this with rfl | rfl | rfl <;> decide
  ⟨rfl, rfl, by decide, by decide, hall,
    Update_nothing_missing upToDateEnv background (fun _ => false) 3 [1, 2, 3] rfl rfl
      (by decide) (by decide) hall⟩

/-- C12: in the revision of `Update` with an event publisher, when the pool
was started and the feeding loop was not left through `<-ctx.Done()`, a failing
`NotifyDBChanged` is what `Update` returns. -/
theorem UpdateNotify_returns_notify_error (env : Env) (ctx : Ctx) (sel : Nat → Bool) (L : Int)
    (H : List Int) (e : GoError) (hL : env.LastID = .ok L) (hH : env.IDs = .ok H)
    (hm : missing L (buildHaveSet H) ≠ [])
    (hfed : (feed ctx sel 0 (missing L (buildHaveSet H))).2 = false)
    (hn : env.NotifyDBChanged = some e) :
    (UpdateNotify env ctx sel false).err = some e ∧
      (UpdateNotify env ctx sel false).calls =
        [Call.LastID, Call.IDs] ++ worker env (missing L (buildHaveSet H)) ++
          [Call.NotifyDBChanged] := by
  have hlen : ¬ (missing L (buildHaveSet H)).length = 0 := fun h => hm (List.length_eq_zero.mp h)
  have hneg : ¬ L < 0 := fun h => hm (missing_of_neg L _ h)
  have hall := feed_complete ctx sel _ 0 hfed
  unfold UpdateNotify
  simp only [lockRun, if_true, hL, hH, hneg, if_false, hlen, hfed, hall, hn]
  simp

theorem UpdateNotify_returns_notify_error_witness :
    failingNotifyEnv.LastID = .ok 1 ∧ failingNotifyEnv.IDs = .ok [] ∧
      missing 1 (buildHaveSet []) ≠ [] ∧
      (feed background (fun _ => false) 0 (missing 1 (buildHaveSet []))).2 = false ∧
      failingNotifyEnv.NotifyDBChanged = some (GoError.upstream 7) ∧
      ((UpdateNotify failingNotifyEnv background (fun _ => false) false).err =
          some (GoError.upstream 7) ∧
        (UpdateNotify failingNotifyEnv background (fun _ => false) false).calls =
          [Call.LastID, Call.IDs] ++ worker failingNotifyEnv (missing 1 (buildHaveSet [])) ++
            [Call.NotifyDBChanged]) :=
  ⟨rfl, rfl, by decide, by decide, rfl,
    UpdateNotify_returns_notify_error failingNotifyEnv background (fun _ => false) 1 []
      (GoError.upstream 7) rfl rfl (by decide) (by decide) rfl⟩

theorem mem_workerJob (env : Env) (id : Int) (c : Call) (hc : c ∈ workerJob env id) :
    c = Call.Get id ∨ (∃ phrase, c = Call.Norm phrase) ∨
      ∃ info norm, env.Get id = .ok info ∧
        c = Call.Add { ID := info.ID, URL := info.URL, Title := info.Title,
                       Description := info.Description, Words := norm } := by
  unfold workerJob at hc
  cases hg : env.Get id with
  | error e =>
    rw [hg] at hc
    simp only [List.mem_singleton] at hc
    exact Or.inl hc
  | ok info =>
    rw [hg] at hc
    simp only at hc
    cases hn : env.Norm (info.Title ++ " " ++ info.Description) with
    | error e =>
      rw [hn] at hc
      simp only [List.mem_cons, List.mem_singleton, List.not_mem_nil, or_false] at hc
      rcases hc with h | h
      · exact Or.inl h
      · exact Or.inr (Or.inl ⟨_, h⟩)
    | ok norm =>
      rw [hn] at hc
      simp only [List.mem_cons, List.mem_singleton, List.not_mem_nil, or_false] at hc
      rcases hc with h | h | h
      · exact Or.inl h
      · exact Or.inr (Or.inl ⟨_, h⟩)
      · exact Or.inr (Or.inr ⟨info, norm, rfl, h⟩)

theorem mem_worker (env : Env) (jobs : List Int) (c : Call) (hc : c ∈ worker env jobs) :
    ∃ id ∈ jobs, c ∈ workerJob env id := by
  induction jobs with
  | nil => simp [worker] at hc
  | cons id jobs ih =>
    simp only [worker, List.mem_append] at hc
    rcases hc with h | h
    · exact ⟨id, List.mem_cons_self _ _, h⟩
    · obtain ⟨j, hj, hcj⟩ := ih h
      exact ⟨j, List.mem_cons_of_mem _ hj, hcj⟩

theorem mem_feed (ctx : Ctx) (sel : Nat → Bool) (l : List Int) (k : Nat) (i : Int)
    (h : i ∈ (feed ctx sel k l).1) : i ∈ l := by
  obtain ⟨t, ht⟩ := feed_append ctx sel l k
  rw [← ht]
  exact List.mem_append_left _ h

theorem mem_calls_Update (env : Env) (ctx : Ctx) (sel : Nat → Bool) (running : Bool) (c : Call)
    (hc : c ∈ (Update env ctx sel running).calls) :
    c = Call.LastID ∨ c = Call.IDs ∨
      ∃ L H, env.LastID = .ok L ∧ env.IDs = .ok H ∧
        ∃ id ∈ missing L (buildHaveSet H), c ∈ workerJob env id := by
  unfold Update at hc
  cases running
  · simp only [lockRun, if_true] at hc
    cases hL : env.LastID with
    | error e =>
      rw [hL] at hc
      simp only [List.mem_singleton] at hc
      exact Or.inl hc
    | ok last =>
      rw [hL] at hc
      simp only at hc
      cases hH : env.IDs with
      | error e =>
        rw [hH] at hc
        simp only [List.mem_cons, List.mem_singleton, List.not_mem_nil, or_false] at hc
        rcases hc with h | h
        · exact Or.inl h
        · exact Or.inr (Or.inl h)
      | ok have_ =>
        rw [hH] at hc
        simp only at hc
        have key : c ∈ [Call.LastID, Call.IDs] ∨
            c ∈ worker env (feed ctx sel 0 (missing last (buildHaveSet have_))).1 := by
          split_ifs at hc
          all_goals first
            | exact Or.inl hc
            | exact List.mem_append.mp hc
        rcases key with h | h
        · simp only [List.mem_cons, List.mem_singleton, List.not_mem_nil, or_false] at h
          rcases h with h | h
          · exact Or.inl h
          · exact Or.inr (Or.inl h)
        · obtain ⟨id, hid, hcj⟩ := mem_worker env _ c h
          exact Or.inr (Or.inr ⟨last, have_, rfl, rfl, id, mem_feed ctx sel _ 0 id hid, hcj⟩)
  · simp [lockRun] at hc

/-- C13, as stated, fails: the worker hands `db.Add` the id of the answer of
`xkcd.Get`, not the id it asked for; a fetcher that answers the request for
id 1 with a comic numbered 404 makes `Update` call `db.Add` with id 404. -/
theorem Update_adds_404 :
    Call.Add { ID := 404, URL := "u", Title := "t", Description := "d", Words := ["w"] } ∈
      (Update renumberingEnv background (fun _ => false) false).calls := by
  decide

theorem get_mem_workerJob (env : Env) (id : Int) : Call.Get id ∈ workerJob env id := by
  unfold workerJob
  cases env.Get id with
  | error e => exact List.mem_singleton_self _
  | ok info =>
    simp only
    cases env.Norm (info.Title ++ " " ++ info.Description) with
    | error e => exact List.mem_cons_self _ _
    | ok norm => exact List.mem_cons_self _ _

theorem get_mem_worker (env : Env) (jobs : List Int) (id : Int) (h : id ∈ jobs) :
    Call.Get id ∈ worker env jobs := by
  induction jobs with
  | nil => cases h
  | cons j jobs ih =>
    simp only [worker, List.mem_append]
    rcases List.mem_cons.mp h with rfl | h
    · exact Or.inl (get_mem_workerJob env id)
    · exact Or.inr (ih h)

theorem calls_Update_never_done (env : Env) (sel : Nat → Bool) (err : GoError) (L : Int)
    (H : List Int) (hL : env.LastID = .ok L) (hH : env.IDs = .ok H)
    (hp : makeslicePanics L = false) :
    (Update env { doneFrom := none, Err := err } sel false).calls =
      [Call.LastID, Call.IDs] ++ worker env (missing L (buildHaveSet H)) := by
  unfold Update
  simp only [lockRun, if_true, hL, hH, hp, Bool.false_eq_true, if_false, feed_never_done]
  split_ifs with h
  · rw [List.length_eq_zero.mp h]
    rfl
  · rfl

theorem scenario_spanning (i : Int) (h1 : 1 ≤ i) (h2 : i ≤ 405) (h404 : i ≠ 404) :
    Call.Get i ∈ (Update spanningEnv background (fun _ => false) false).calls := by
  have hp : makeslicePanics 405 = false := makeslicePanics_eq_false 405 (by decide) (by decide)
  have hi : i ∈ missing 405 (buildHaveSet []) :=
    (mem_missing 405 [] i).mpr ⟨h1, h2, List.not_mem_nil i, h404⟩
  have hc := calls_Update_never_done spanningEnv (fun _ => false) GoError.Canceled 405 [] rfl rfl hp
  unfold background
  rw [hc]
  exact List.mem_append_right _ (get_mem_worker _ _ i hi)

/-- C13, amended: for every remote last id and every list of stored ids, an
`Update` never calls `xkcd.Get` with id 404, whatever the fetcher answers; and
when `xkcd.Get` answers every request with a comic of the requested id, it
never calls `db.Add` with a comic whose id is 404. -/
theorem Update_skips_404 (env : Env) (ctx : Ctx) (sel : Nat → Bool) (running : Bool) :
    Call.Get 404 ∉ (Update env ctx sel running).calls ∧
      ((∀ id info, env.Get id = .ok info → info.ID = id) →
        ∀ c : Comics, Call.Add c ∈ (Update env ctx sel running).calls → c.ID ≠ 404) := by
  constructor
  · intro hc
    rcases mem_calls_Update env ctx sel running _ hc with h | h | ⟨L, H, -, -, id, hid, hj⟩
    · cases h
    · cases h
    · rcases mem_workerJob env id _ hj with h | ⟨p, h⟩ | ⟨info, norm, -, h⟩
      · cases h
        exact not_mem_missing_404 L H hid
      · cases h
      · cases h
  · intro hget c hc h404
    rcases mem_calls_Update env ctx sel running _ hc with h | h | ⟨L, H, -, -, id, hid, hj⟩
    · cases h
    · cases h
    · rcases mem_workerJob env id _ hj with h | ⟨p, h⟩ | ⟨info, norm, hg, h⟩
      · cases h
      · cases h
      · cases h
        have hid' : info.ID = id := hget id info hg
        simp only at h404
        rw [hid', ] at h404
        rw [h404] at hid
        exact not_mem_missing_404 L H hid

theorem Update_skips_404_witness :
    spanningEnv.LastID = .ok 405 ∧ spanningEnv.IDs = .ok [] ∧
      Call.Get 403 ∈ (Update spanningEnv background (fun _ => false) false).calls ∧
      Call.Get 405 ∈ (Update spanningEnv background (fun _ => false) false).calls ∧
      (∀ id info, spanningEnv.Get id = .ok info → info.ID = id) ∧
      Call.Get 404 ∉ (Update spanningEnv background (fun _ => false) false).calls ∧
      (∀ c : Comics,
        Call.Add c ∈ (Update spanningEnv background (fun _ => false) false).calls →
          c.ID ≠ 404) ∧
      Call.Get 404 ∉ (Update renumberingEnv background (fun _ => false) false).calls :=
  have hget : ∀ id info, spanningEnv.Get id = .ok info → info.ID = id := by
    intro id info h
    simp only [spanningEnv, Except.ok.injEq] at h
    rw [← h]
  ⟨rfl, rfl, scenario_spanning 403 (by decide) (by decide) (by decide),
    scenario_spanning 405 (by decide) (by decide) (by decide), hget,
    (Update_skips_404 spanningEnv background (fun _ => false) false).1,
    (Update_skips_404 spanningEnv background (fun _ => false) false).2 hget,
    (Update_skips_404 renumberingEnv background (fun _ => false) false).1⟩

/-- C14 on the code: `Update` is called with a context that is already
cancelled and one missing id; the `select` of the feeding loop has both
branches ready and takes the send; `Update` then returns nil, not the
cancellation error, and the revision with the publisher publishes. -/
theorem Update_cancelled_may_return_nil :
    cancelled.doneAt 0 = true ∧ missing 1 (buildHaveSet []) = [1] ∧
      (Update oneComicEnv cancelled (fun _ => false) false).err = none ∧
      (Update oneComicEnv cancelled (fun _ => false) false).jobs = [1] ∧
      (UpdateNotify oneComicEnv cancelled (fun _ => false) false).calls.count
        Call.NotifyDBChanged = 1 := by
  decide

theorem Update_cancelled_done_branch (env : Env) (ctx : Ctx) (sel : Nat → Bool) (L : Int)
    (H : List Int) (hL : env.LastID = .ok L) (hH : env.IDs = .ok H)
    (hp : makeslicePanics L = false)
    (hm : missing L (buildHaveSet H) ≠ [])
    (hfed : (feed ctx sel 0 (missing L (buildHaveSet H))).2 = true) :
    (Update env ctx sel false).err = some ctx.Err ∧
      (Update env ctx sel false).running = false ∧
      (UpdateNotify env ctx sel false).err = some ctx.Err ∧
      (UpdateNotify env ctx sel false).calls.count Call.NotifyDBChanged = 0 := by
  have hlen : ¬ (missing L (buildHaveSet H)).length = 0 := fun h => hm (List.length_eq_zero.mp h)
  have hneg : ¬ L < 0 := fun h => hm (missing_of_neg L _ h)
  unfold Update UpdateNotify
  simp only [lockRun, if_true, hL, hH, hp, Bool.false_eq_true, hneg, if_false, hlen, hfed,
    unlockRun]
  simp [List.count_append, count_notify_worker]

end UpdateService

/-! ## Statistics and erasure -/

namespace UpdateService

/-- C15: `Stats` returns the counts of `db.Stats` unchanged, with
`comics_total = L - 1` when the remote last id `L` is at least 404 and
`comics_total = L` below; when `db.Stats` fails it returns that error and has
not called `xkcd.LastID`. -/
theorem Stats_spec (env : AdminEnv) :
    (∀ (s : DBStats) (L : Int), env.Stats = .ok s → env.LastID = .ok L →
        (Stats env).err = none ∧
          (Stats env).stats.DBStats.WordsTotal = s.WordsTotal ∧
          (Stats env).stats.DBStats.WordsUnique = s.WordsUnique ∧
          (Stats env).stats.DBStats.ComicsFetched = s.ComicsFetched ∧
          (404 ≤ L → (Stats env).stats.ComicsTotal = L - 1) ∧
          (L < 404 → (Stats env).stats.ComicsTotal = L)) ∧
      ∀ e : GoError, env.Stats = .error e →
        (Stats env).err = some e ∧ (Stats env).calls = [AdminCall.Stats] ∧
          AdminCall.LastID ∉ (Stats env).calls := by
  constructor
  · intro s L hs hL
    unfold Stats
    rw [hs, hL]
    refine ⟨rfl, rfl, rfl, rfl, ?_, ?_⟩
    · intro h
      have h' : L ≥ 404 := h
      simp only [h', if_true]
    · intro h
      have h' : ¬ L ≥ 404 := not_le.mpr h
      simp only [h', if_false, sub_zero]
  · intro e he
    unfold Stats
    rw [he]
    exact ⟨rfl, rfl, by simp⟩

theorem Stats_spec_witness :
    (Stats statsEnv).err = none ∧ (Stats statsEnv).stats.ComicsTotal = 404 ∧
      (Stats statsEnv).stats.DBStats.ComicsFetched = 50 ∧
      (Stats failingDropEnv).err = some (GoError.upstream 1) ∧
      (Stats failingDropEnv).calls = [AdminCall.Stats] :=
  have h := (Stats_spec statsEnv).1 { WordsTotal := 200, WordsUnique := 40, ComicsFetched := 50 }
    405 rfl rfl
  have g := (Stats_spec failingDropEnv).2 (GoError.upstream 1) rfl
  ⟨h.1, h.2.2.2.2.1 (by decide), h.2.2.2.1, g.1, g.2.1⟩

theorem Drop_never_publishes (env : AdminEnv) :
    (Drop env).err = env.Drop ∧ (Drop env).calls = [AdminCall.Drop] :=
  ⟨rfl, rfl⟩

/-- C16: in the revision of `Drop` with an event publisher, a failing
`db.Drop` is returned and nothing is published; after a successful `db.Drop`
the event is published exactly once, and `Drop` returns the error of the
publication, nil when it succeeds. -/
theorem DropNotify_spec (env : AdminEnv) :
    (∀ e : GoError, env.Drop = some e →
        (DropNotify env).err = some e ∧
          (DropNotify env).calls.count AdminCall.NotifyDBChanged = 0) ∧
      (env.Drop = none →
        (DropNotify env).calls.count AdminCall.NotifyDBChanged = 1 ∧
          (DropNotify env).calls = [AdminCall.Drop, AdminCall.NotifyDBChanged] ∧
          (DropNotify env).err = env.NotifyDBChanged) := by
  constructor
  · intro e he
    unfold DropNotify
    rw [he]
    exact ⟨rfl, by simp⟩
  · intro he
    unfold DropNotify
    rw [he]
    exact ⟨by simp, rfl, rfl⟩

theorem DropNotify_spec_witness :
    ((DropNotify failingDropEnv).err = some (GoError.upstream 2) ∧
        (DropNotify failingDropEnv).calls.count AdminCall.NotifyDBChanged = 0) ∧
      ((DropNotify statsEnv).calls.count AdminCall.NotifyDBChanged = 1 ∧
        (DropNotify statsEnv).calls = [AdminCall.Drop, AdminCall.NotifyDBChanged] ∧
        (DropNotify statsEnv).err = statsEnv.NotifyDBChanged) :=
  ⟨(DropNotify_spec failingDropEnv).1 (GoError.upstream 2) rfl,
    (DropNotify_spec statsEnv).2 rfl⟩

end UpdateService

/-! ## The retry of `Add` on deadlocks -/

namespace UpdateDB

theorem isRetryable_iff (e : AttemptError) : isRetryable e ["40P01"] = true ↔ e = deadlock := by
  cases e with
  | pg code => simp [isRetryable, deadlock]
  | other tag => simp [isRetryable, deadlock]

theorem retryLoop_after_deadlocks (run : Nat → Option AttemptError) :
    ∀ (n todo start : Nat) (last : Option AttemptError),
      (∀ j, start ≤ j → j < start + n → run j = some deadlock) →
      retryLoop run (n + todo) start last =
        { err := (retryLoop run todo (start + n) (if n = 0 then last else some deadlock)).err
          events := deadlockRounds n start ++
            (retryLoop run todo (start + n) (if n = 0 then last else some deadlock)).events } := by
  intro n
  induction n with
  | zero =>
    intro todo start last _
    simp [deadlockRounds]
  | succ n ih =>
    intro todo start last h
    have hs : run start = some deadlock := h start (le_refl _) (by omega)
    have hrest : ∀ j, start + 1 ≤ j → j < start + 1 + n → run j = some deadlock :=
      fun j h1 h2 => h j (by omega) (by omega)
    have e1 : n + 1 + todo = (n + todo) + 1 := by omega
    have e2 : start + 1 + n = start + (n + 1) := by omega
    rw [e1, retryLoop, hs]
    simp only [(isRetryable_iff deadlock).mpr rfl, if_true]
    rw [ih todo (start + 1) (some deadlock) hrest, e2]
    simp [deadlockRounds]

theorem attempt_mem_retryLoop (run : Nat → Option AttemptError) :
    ∀ (todo start : Nat) (last : Option AttemptError) (n : Nat),
      AddEvent.attempt n ∈ (retryLoop run todo start last).events →
        start ≤ n ∧ n < start + todo := by
  intro todo
  induction todo with
  | zero =>
    intro start last n h
    simp [retryLoop] at h
  | succ todo ih =>
    intro start last n h
    rw [retryLoop] at h
    cases hr : run start with
    | none =>
      rw [hr] at h
      simp only [List.mem_singleton, AddEvent.attempt.injEq] at h
      omega
    | some err =>
      rw [hr] at h
      simp only at h
      split_ifs at h
      · simp only [List.cons_append, List.nil_append, List.mem_cons, AddEvent.attempt.injEq,
          false_or] at h
        rcases h with h | h | h
        · omega
        · cases h
        · have := ih (start + 1) (some err) n h
          omega
      · simp only [List.mem_singleton, AddEvent.attempt.injEq] at h
        omega

/-- C17: `Add` runs the attempts 1, 2, ... and stops at the first success
(returning nil), at the first error that is not the deadlock `40P01`
(returning it at once, without a sleep), or after the 5th attempt; after the
failed deadlock attempt `k` it sleeps `k × 150` ms; five deadlocks in a row end
with the last error; there is no attempt beyond the 5th. -/
theorem Add_retry (run : Nat → Option AttemptError) :
    (∀ k, 1 ≤ k → k ≤ 5 → (∀ j, 1 ≤ j → j < k → run j = some deadlock) → run k = none →
        Add run = { err := none
                    events := deadlockRounds (k - 1) 1 ++ [AddEvent.attempt k] }) ∧
      (∀ k e, 1 ≤ k → k ≤ 5 → (∀ j, 1 ≤ j → j < k → run j = some deadlock) →
        run k = some e → isRetryable e ["40P01"] = false →
        Add run = { err := some e
                    events := deadlockRounds (k - 1) 1 ++ [AddEvent.attempt k] }) ∧
      ((∀ j, 1 ≤ j → j ≤ 5 → run j = some deadlock) →
        Add run = { err := run 5, events := deadlockRounds 5 1 }) ∧
      ∀ n, AddEvent.attempt n ∈ (Add run).events → 1 ≤ n ∧ n ≤ 5 := by
  refine ⟨?_, ?_, ?_, ?_⟩
  · intro k h1 h5 hd hk
    have e : maxAttempts = (k - 1) + ((5 - k) + 1) := by
      unfold maxAttempts
      omega
    have e1 : 1 + (k - 1) = k := by omega
    unfold Add
    rw [e, retryLoop_after_deadlocks run (k - 1) ((5 - k) + 1) 1 none
      (fun j a b => hd j a (by omega)), e1, retryLoop, hk]
  · intro k e h1 h5 hd hk hne
    have e' : maxAttempts = (k - 1) + ((5 - k) + 1) := by
      unfold maxAttempts
      omega
    have e1 : 1 + (k - 1) = k := by omega
    unfold Add
    rw [e', retryLoop_after_deadlocks run (k - 1) ((5 - k) + 1) 1 none
      (fun j a b => hd j a (by omega)), e1, retryLoop, hk]
    simp only [hne, Bool.false_eq_true, if_false]
  · intro hd
    unfold Add
    rw [show maxAttempts = 5 + 0 from rfl, retryLoop_after_deadlocks run 5 0 1 none
      (fun j a b => hd j a (by omega)), hd 5 (by decide) (by decide)]
    simp [retryLoop]
  · intro n h
    have := attempt_mem_retryLoop run maxAttempts 1 none n h
    unfold maxAttempts at this
    omega

theorem Add_retry_witness :
    Add twoDeadlocks =
        { err := none
          events := [AddEvent.attempt 1, AddEvent.sleep 150, AddEvent.attempt 2,
            AddEvent.sleep 300, AddEvent.attempt 3] } ∧
      Add deadlockThenViolation =
        { err := some (AttemptError.pg "23505")
          events := [AddEvent.attempt 1, AddEvent.sleep 150, AddEvent.attempt 2] } ∧
      Add alwaysDeadlock = { err := some deadlock, events := deadlockRounds 5 1 } :=
  ⟨(Add_retry twoDeadlocks).1 3 (by decide) (by decide)
      (fun j h1 h2 => by
        have : j = 1 ∨ j = 2 := by omega
        rcases this with rfl | rfl <;> rfl) rfl,
    (Add_retry deadlockThenViolation).2.1 2 (AttemptError.pg "23505") (by decide) (by decide)
      (fun j h1 h2 => by
        have : j = 1 := by omega
        subst this
        rfl) rfl (by decide),
    (Add_retry alwaysDeadlock).2.2.1 (fun _ _ _ => rfl)⟩

end UpdateDB

/-! ## The invariant of the snapshot -/

namespace SearchService

/-- C18: when `db.Search` returns rows with pairwise distinct ids, the
snapshot that a successful `RebuildIndex` leaves satisfies: for every stem `w`
and every id of `index[w]`, `comics[id]` exists and its word list contains
`w`. -/
theorem RebuildIndex_invariant (env : Env) (s₀ : Snapshot) (comics : List Comic)
    (hd : (comics.map (fun c => c.ID)).Nodup) (hdb : env.dbSearch = .ok comics) :
    (RebuildIndex env s₀).err = none ∧
      ∀ (w : String) (id : Int),
        id ∈ (GoMap.lookup (RebuildIndex env s₀).snapshot.index w).getD [] →
          ∃ c, GoMap.lookup (RebuildIndex env s₀).snapshot.comics id = some c ∧
            w ∈ c.Words := by
  have hsnap : RebuildIndex env s₀ =
      { err := none, snapshot := buildSnapshot comics, calls := [Call.dbSearch] } := by
    unfold RebuildIndex
    rw [hdb]
  rw [hsnap]
  refine ⟨rfl, ?_⟩
  intro w id hid
  obtain ⟨c, hc, hcid, hw⟩ := (mem_index_buildSnapshot comics w id).mp hid
  exact ⟨c, (lookup_comics_buildSnapshot comics hd id c).mpr ⟨hc, hcid⟩, hw⟩

theorem RebuildIndex_invariant_witness :
    (scenarioRows.map (fun c => c.ID)).Nodup ∧ scenarioEnv.dbSearch = .ok scenarioRows ∧
      ((RebuildIndex scenarioEnv { index := [], comics := [] }).err = none ∧
        ∀ (w : String) (id : Int),
          id ∈ (GoMap.lookup
              (RebuildIndex scenarioEnv { index := [], comics := [] }).snapshot.index w).getD [] →
            ∃ c, GoMap.lookup
                (RebuildIndex scenarioEnv { index := [], comics := [] }).snapshot.comics id =
                  some c ∧ w ∈ c.Words) :=
  ⟨by decide, rfl,
    RebuildIndex_invariant scenarioEnv { index := [], comics := [] } scenarioRows (by decide) rfl⟩

end SearchService

/-! ## The normalizer -/

namespace Words

theorem mem_firstOccurrences (l : List String) (a : String) :
    a ∈ firstOccurrences l ↔ a ∈ l := by
  induction l with
  | nil => simp [firstOccurrences]
  | cons b l ih =>
    simp only [firstOccurrences, List.mem_cons, List.mem_filter, ih, decide_eq_true_eq]
    by_cases h : a = b
    · simp [h]
    · simp [h]

theorem nodup_firstOccurrences (l : List String) : (firstOccurrences l).Nodup := by
  induction l with
  | nil => simp [firstOccurrences]
  | cons b l ih =>
    simp only [firstOccurrences, List.nodup_cons, List.mem_filter, decide_eq_true_eq]
    exact ⟨fun h => h.2 rfl, ih.filter _⟩

theorem firstOccurrences_of_nodup (l : List String) (h : l.Nodup) : firstOccurrences l = l := by
  induction l with
  | nil => rfl
  | cons b l ih =>
    rw [List.nodup_cons] at h
    simp only [firstOccurrences, ih h.2]
    congr 1
    apply List.filter_eq_self.mpr
    intro a ha
    exact decide_eq_true (fun e => h.1 (e ▸ ha))

theorem normStep_eq (sb : Snowball) (st : List String × GoMap String Bool) (word : String) :
    normStep sb st word =
      match keyOf sb word with
      | none => st
      | some k =>
        if (GoMap.lookup st.2 k).getD false = false then (st.1 ++ [k], GoMap.store st.2 k true)
        else st := by
  unfold normStep keyOf
  by_cases hd : isDigits (ToLower word) = true
  · simp [hd]
  · by_cases hs : sb.IsStopWord (ToLower word) = true
    · simp [hd, hs]
    · simp [hd, hs]

theorem foldl_normStep (sb : Snowball) (raw : List String) :
    ∀ (out : List String) (seen : GoMap String Bool),
      (∀ k, (GoMap.lookup seen k).getD false = true ↔ k ∈ out) →
      (raw.foldl (normStep sb) (out, seen)).1 =
        out ++ (firstOccurrences (raw.filterMap (keyOf sb))).filter
          (fun k => decide (k ∉ out)) := by
  induction raw with
  | nil =>
    intro out seen _
    simp [firstOccurrences]
  | cons word raw ih =>
    intro out seen hinv
    rw [List.foldl_cons, normStep_eq]
    cases hk : keyOf sb word with
    | none =>
      simp only [List.filterMap_cons, hk]
      exact ih out seen hinv
    | some k =>
      simp only [List.filterMap_cons, hk, firstOccurrences]
      by_cases hmem : k ∈ out
      · have hseen : (GoMap.lookup seen k).getD false = true := (hinv k).mpr hmem
        simp only [hseen, Bool.true_eq_false, if_false]
        rw [ih out seen hinv, List.filter_cons]
        simp only [hmem, not_true_eq_false, decide_False, Bool.false_eq_true, if_false,
          List.filter_filter]
        congr 1
        apply List.filter_congr
        intro a _
        by_cases ha : a ∈ out
        · simp [ha]
        · have : a ≠ k := fun e => ha (e ▸ hmem)
          simp [ha, this]
      · have hseen : (GoMap.lookup seen k).getD false = false := by
          cases hv : (GoMap.lookup seen k).getD false with
          | false => rfl
          | true => exact absurd ((hinv k).mp hv) hmem
        simp only [hseen, if_true]
        have hinv' : ∀ k', (GoMap.lookup (GoMap.store seen k true) k').getD false = true ↔
            k' ∈ out ++ [k] := by
          intro k'
          by_cases e : k' = k
          · subst e
            simp [GoMap.lookup_store_self]
          · rw [GoMap.lookup_store_ne _ _ e, hinv k']
            simp [e]
        rw [ih (out ++ [k]) (GoMap.store seen k true) hinv', List.filter_cons]
        simp only [hmem, not_false_eq_true, decide_True, if_true, List.filter_filter,
          List.append_assoc, List.singleton_append]
        congr 2
        apply List.filter_congr
        intro a _
        by_cases e : a = k
        · simp [e]
        · simp [e]

theorem FindAllString_empty : FindAllString "" = [] := rfl

theorem Normalize_eq (sb : Snowball) (phrase : String) :
    Normalize sb phrase = firstOccurrences ((FindAllString phrase).filterMap (keyOf sb)) := by
  unfold Normalize
  by_cases h1 : phrase = ""
  · rw [h1, FindAllString_empty]
    rfl
  · simp only [h1, if_false]
    by_cases h2 : (FindAllString phrase).length = 0
    · rw [List.length_eq_zero.mp h2]
      rfl
    · simp only [h2, if_false]
      rw [foldl_normStep sb _ [] [] (fun k => by simp [GoMap.lookup])]
      simp

theorem scan_word (cs : List Char) (h : ∀ c ∈ cs, isAvailable c = true) :
    ∀ (d : List String) (cur : List Char), cs.foldl scanStep (d, cur) = (d, cur ++ cs) := by
  induction cs with
  | nil => intro d cur; simp
  | cons c cs ih =>
    intro d cur
    have hc : isAvailable c = true := h c (List.mem_cons_self _ _)
    rw [List.foldl_cons, scanStep, if_pos hc,
      ih (fun x hx => h x (List.mem_cons_of_mem _ hx))]
    simp

theorem scan_separators (cs : List Char) (h : ∀ c ∈ cs, isAvailable c = false) :
    ∀ d : List String, cs.foldl scanStep (d, []) = (d, []) := by
  induction cs with
  | nil => intro d; rfl
  | cons c cs ih =>
    intro d
    have hc : ¬ isAvailable c = true := by
      rw [h c (List.mem_cons_self _ _)]
      simp
    rw [List.foldl_cons, scanStep, if_neg hc]
    simp only [if_true]
    exact ih (fun x hx => h x (List.mem_cons_of_mem _ hx)) d

theorem FindAllString_of_no_available (phrase : String)
    (h : ∀ c ∈ phrase.toList, isAvailable c = false) : FindAllString phrase = [] := by
  unfold FindAllString
  rw [scan_separators _ h]
  rfl

theorem scan_Join (l : List String)
    (h : ∀ s ∈ l, s.toList ≠ [] ∧ ∀ c ∈ s.toList, isAvailable c = true) :
    ∀ d : List String, scanEnd ((Join l " ").toList.foldl scanStep (d, [])) = d ++ l := by
  induction l with
  | nil =>
    intro d
    simp [Join, scanEnd]
  | cons s t ih =>
    intro d
    obtain ⟨hne, hav⟩ := h s (List.mem_cons_self _ _)
    cases t with
    | nil =>
      simp only [Join]
      rw [scan_word _ hav]
      simp only [scanEnd, List.nil_append, hne, if_false]
      rfl
    | cons t₁ t₂ =>
      have ht := ih (fun x hx => h x (List.mem_cons_of_mem _ hx)) (d ++ [s])
      simp only [Join] at ht ⊢
      have e : (s ++ " " ++ Join (t₁ :: t₂) " ").toList =
          s.toList ++ (' ' :: (Join (t₁ :: t₂) " ").toList) := by
        simp [String.toList]
      rw [e, List.foldl_append, scan_word _ hav, List.foldl_cons]
      have hsp : scanStep (d, [] ++ s.toList) ' ' = (d ++ [s], []) := by
        simp only [scanStep, List.nil_append, hne, if_false]
        rfl
      rw [hsp, ht]
      simp

theorem FindAllString_Join (l : List String)
    (h : ∀ s ∈ l, s.toList ≠ [] ∧ ∀ c ∈ s.toList, isAvailable c = true) :
    FindAllString (Join l " ") = l := by
  unfold FindAllString
  rw [scan_Join l h []]
  rfl

theorem ToLower_of_lower (s : String) (h : ∀ c ∈ s.toList, c.toLower = c) : ToLower s = s := by
  unfold ToLower
  have : s.toList.map Char.toLower = s.toList := by
    conv_rhs => rw [← List.map_id s.toList]
    exact List.map_congr_left (fun c hc => by simpa using h c hc)
  rw [this]
  rfl

theorem keyOf_of_fixed (sb : Snowball) (s : String) (h : IsFixed sb s) : keyOf sb s = some s := by
  obtain ⟨⟨-, hw⟩, hfix⟩ := h
  have hl : ToLower s = s := ToLower_of_lower s (fun c hc => (hw c hc).2)
  unfold keyOf
  rw [hl]
  by_cases hd : isDigits s = true
  · simp [hd]
  · rcases hfix with h | ⟨h1, h2⟩
    · exact absurd h hd
    · simp [hd, h1, h2]

theorem filterMap_eq_self (f : String → Option String) (l : List String)
    (h : ∀ a ∈ l, f a = some a) : l.filterMap f = l := by
  induction l with
  | nil => rfl
  | cons a l ih =>
    rw [List.filterMap_cons, h a (List.mem_cons_self _ _)]
    simp only
    rw [ih (fun b hb => h b (List.mem_cons_of_mem _ hb))]

/-- C19, as stated, fails: with a stemmer that takes `wills` to `will` and a
stop-word list holding `will` (as the tests of the repository have it),
`Normalize` of `wills` is the stem `will`, and normalizing that stem again
drops it as a stop word. -/
theorem Normalize_not_idempotent :
    "will" ∈ Normalize sampleSnowball "wills" ∧
      "will" ∉ Normalize sampleSnowball (Join (Normalize sampleSnowball "wills") " ") := by
  decide

/-- C19, amended: for every phrase whose stems are all mapped to themselves by
the normalizer (each element of `Normalize(x)` is a non-empty word of lowercase
ASCII letters and digits that is a number, or is no stop word and is its own
stem), normalizing the space-joined output yields the same list, hence the same
set of stems. -/
theorem Normalize_idempotent_on_fixed (sb : Snowball) (phrase : String)
    (hfix : ∀ s ∈ Normalize sb phrase, IsFixed sb s) :
    Normalize sb (Join (Normalize sb phrase) " ") = Normalize sb phrase ∧
      ∀ s, s ∈ Normalize sb (Join (Normalize sb phrase) " ") ↔ s ∈ Normalize sb phrase := by
  have hnd : (Normalize sb phrase).Nodup := by
    rw [Normalize_eq]
    exact nodup_firstOccurrences _
  have htok : FindAllString (Join (Normalize sb phrase) " ") = Normalize sb phrase :=
    FindAllString_Join _
      (fun s hs => ⟨(hfix s hs).1.1, fun c hc => ((hfix s hs).1.2 c hc).1⟩)
  have hkey : (Normalize sb phrase).filterMap (keyOf sb) = Normalize sb phrase :=
    filterMap_eq_self _ _ (fun s hs => keyOf_of_fixed sb s (hfix s hs))
  have heq : Normalize sb (Join (Normalize sb phrase) " ") = Normalize sb phrase := by
    rw [Normalize_eq sb (Join (Normalize sb phrase) " "), htok, hkey,
      firstOccurrences_of_nodup _ hnd]
  exact ⟨heq, fun s => by rw [heq]⟩

theorem Normalize_idempotent_on_fixed_witness :
    (∀ s ∈ Normalize sampleSnowball "I follow followers 123", IsFixed sampleSnowball s) ∧
      (Normalize sampleSnowball (Join (Normalize sampleSnowball "I follow followers 123") " ") =
          Normalize sampleSnowball "I follow followers 123" ∧
        ∀ s, s ∈ Normalize sampleSnowball
              (Join (Normalize sampleSnowball "I follow followers 123") " ") ↔
            s ∈ Normalize sampleSnowball "I follow followers 123") :=
  have hfix : ∀ s ∈ Normalize sampleSnowball "I follow followers 123",
      IsFixed sampleSnowball s := by
    have e : Normalize sampleSnowball "I follow followers 123" = ["follow", "123"] := by decide
    rw [e]
    intro s hs
    simp only [List.mem_cons, List.mem_singleton, List.not_mem_nil, or_false] at hs
    rcases hs with rfl | rfl
    · exact ⟨by decide, Or.inr (by decide)⟩
    · exact ⟨by decide, Or.inl (by decide)⟩
  ⟨hfix, Normalize_idempotent_on_fixed sampleSnowball "I follow followers 123" hfix⟩

/-- C20: the list `Normalize` returns has no element twice; it is the list of
what the tokens of the phrase stand for (the number, or the stem of a word that
is no stop word), each kept at its first occurrence, in the order of the
tokens; and a phrase that is empty or has no ASCII letter or digit yields the
empty list. -/
theorem Normalize_first_occurrences (sb : Snowball) (phrase : String) :
    (Normalize sb phrase).Nodup ∧
      Normalize sb phrase = firstOccurrences ((FindAllString phrase).filterMap (keyOf sb)) ∧
      ((phrase = "" ∨ ∀ c ∈ phrase.toList, isAvailable c = false) →
        Normalize sb phrase = []) := by
  refine ⟨?_, Normalize_eq sb phrase, ?_⟩
  · rw [Normalize_eq]
    exact nodup_firstOccurrences _
  · intro h
    rw [Normalize_eq]
    rcases h with h | h
    · rw [h, FindAllString_empty]
      rfl
    · rw [FindAllString_of_no_available phrase h]
      rfl

/-! ### The cases of the tests of the normalizer, run on the model -/

theorem scenario_Normalize :
    Normalize sampleSnowball "I shouted: 'give me your car!!!" = ["shout", "give", "car"] ∧
      Normalize sampleSnowball "I follow followers" = ["follow"] ∧
      Normalize sampleSnowball "I and you or me or them, who will?" = [] ∧
      Normalize sampleSnowball "Moscow!123'check-it'or   123, man,that,difficult:heck" =
        ["moscow", "123", "check", "man", "difficult", "heck"] ∧
      Normalize sampleSnowball "?!  ..." = [] := by
  decide

end Words

/-! ## The gRPC operation `Norm` -/

namespace Words

theorem maxPhraseLen_eq : maxPhraseLen = 4096 := by decide

/-- C21: the operation `Norm` fails, with `ResourceExhausted`, exactly for the
phrases longer than 4096 bytes; a phrase of 4096 bytes or fewer, so one of
exactly 4096 bytes, is answered with `Normalize(phrase)`. -/
theorem Norm_limit (sb : Snowball) (phrase : String) :
    ((∃ st, Norm sb phrase = .error st) ↔ phrase.utf8ByteSize > 4096) ∧
      (phrase.utf8ByteSize > 4096 →
        ∃ msg, Norm sb phrase = .error { code := Code.ResourceExhausted, message := msg }) ∧
      (phrase.utf8ByteSize ≤ 4096 → Norm sb phrase = .ok (Normalize sb phrase)) ∧
      (phrase.utf8ByteSize = 4096 → Norm sb phrase = .ok (Normalize sb phrase)) := by
  have hle : phrase.utf8ByteSize ≤ 4096 → Norm sb phrase = .ok (Normalize sb phrase) := by
    intro h
    have h' : ¬ phrase.utf8ByteSize > maxPhraseLen := by
      rw [maxPhraseLen_eq]
      omega
    unfold Norm
    rw [if_neg h']
  have hgt : phrase.utf8ByteSize > 4096 →
      Norm sb phrase = .error { code := Code.ResourceExhausted, message := "phrase too large" } := by
    intro h
    have h' : phrase.utf8ByteSize > maxPhraseLen := by
      rw [maxPhraseLen_eq]
      exact h
    unfold Norm
    rw [if_pos h']
  refine ⟨⟨?_, fun h => ⟨_, hgt h⟩⟩, fun h => ⟨_, hgt h⟩, hle, fun h => hle (le_of_eq h)⟩
  rintro ⟨st, hst⟩
  by_contra hn
  rw [hle (not_lt.mp hn)] at hst
  cases hst

theorem Norm_limit_witness :
    "I follow followers".utf8ByteSize ≤ 4096 ∧
      Norm sampleSnowball "I follow followers" =
        .ok (Normalize sampleSnowball "I follow followers") :=
  ⟨by decide, (Norm_limit sampleSnowball "I follow followers").2.2.1 (by decide)⟩

theorem scenario_Norm :
    Norm sampleSnowball "I follow followers" = .ok ["follow"] := by
  have h : ¬ "I follow followers".utf8ByteSize > maxPhraseLen := by decide
  have e : Normalize sampleSnowball "I follow followers" = ["follow"] := by decide
  unfold Norm
  rw [if_neg h, e]

end Words

/-! ## The middleware `Auth` -/

namespace Middleware

theorem hasPrefix_iff (s p : String) :
    HasPrefix s p = true ↔ ∃ rest : String, s = p ++ rest := by
  unfold HasPrefix
  rw [decide_eq_true_iff]
  constructor
  · intro h
    refine ⟨String.mk (s.toList.drop p.length), ?_⟩
    apply String.ext
    have e := List.take_append_drop p.length s.toList
    rw [h] at e
    rw [String.data_append]
    exact e.symm
  · rintro ⟨rest, rfl⟩
    show List.take p.data.length (p ++ rest).data = p.data
    rw [String.data_append, List.take_left']
    rfl

theorem drop_scheme (p rest : String) :
    String.mk ((p ++ rest).toList.drop p.length) = rest := by
  apply String.ext
  show List.drop p.data.length (p ++ rest).data = rest.data
  rw [String.data_append, List.drop_left']
  rfl

/-- C22: the handler returned by `Auth` calls the wrapped handler exactly when
the `Authorization` header starts with `Token `, the rest of the header is not
empty after trimming, and `Verify` accepts the trimmed rest; in every other
case it answers 401 and does not call the wrapped handler. -/
theorem Auth_spec (Verify : String → Option GoError) (authHeader : String) :
    ((Auth Verify authHeader).nextCalled = true ↔
        ∃ rest : String, authHeader = tokenScheme ++ rest ∧ TrimSpace rest ≠ "" ∧
          Verify (TrimSpace rest) = none) ∧
      ((Auth Verify authHeader).nextCalled = true → (Auth Verify authHeader).status = none) ∧
      ((Auth Verify authHeader).nextCalled = false →
        (Auth Verify authHeader).status = some 401) := by
  by_cases hp : HasPrefix authHeader tokenScheme = true
  · obtain ⟨rest, rfl⟩ := (hasPrefix_iff _ _).mp hp
    have hnp : ¬ HasPrefix (tokenScheme ++ rest) tokenScheme = false := by
      rw [hp]
      simp
    have hrest : ∀ r : String, tokenScheme ++ rest = tokenScheme ++ r → r = rest := by
      intro r hr
      have := congrArg (fun s : String => String.mk (s.toList.drop tokenScheme.length)) hr
      simp only [drop_scheme] at this
      exact this.symm
    unfold Auth
    simp only [hnp, if_false, drop_scheme]
    by_cases he : TrimSpace rest = ""
    · simp only [he, if_true, unauthorized]
      refine ⟨⟨fun h => (by cases h), ?_⟩, fun h => (by cases h), fun _ => rfl⟩
      rintro ⟨r, hr, hne, -⟩
      rw [hrest r hr] at hne
      exact absurd he hne
    · simp only [he, if_false]
      cases hv : Verify (TrimSpace rest) with
      | some e =>
        simp only [unauthorized]
        refine ⟨⟨fun h => (by cases h), ?_⟩, fun h => (by cases h), fun _ => rfl⟩
        rintro ⟨r, hr, -, hacc⟩
        rw [hrest r hr, hv] at hacc
        cases hacc
      | none =>
        simp only
        exact ⟨⟨fun _ => ⟨rest, rfl, he, hv⟩, fun _ => rfl⟩, fun _ => rfl, fun h => (by cases h)⟩
  · have hf : HasPrefix authHeader tokenScheme = false := by
      cases h : HasPrefix authHeader tokenScheme with
      | false => rfl
      | true => exact absurd h hp
    have e : Auth Verify authHeader = unauthorized [] := by
      unfold Auth
      rw [if_pos hf]
    rw [e]
    refine ⟨⟨fun h => absurd h (by decide), ?_⟩, fun h => absurd h (by decide), fun _ => rfl⟩
    rintro ⟨r, hr, -, -⟩
    exact absurd ((hasPrefix_iff _ _).mpr ⟨r, hr⟩) hp

theorem scenario_Auth :
    Auth sampleVerify "Token  abc " = { status := none, nextCalled := true, verified := ["abc"] } ∧
      Auth sampleVerify "Token    " = unauthorized [] ∧
      Auth sampleVerify "Bearer abc" = unauthorized [] ∧
      Auth sampleVerify "" = unauthorized [] ∧
      Auth sampleVerify "Token xyz" = unauthorized ["xyz"] := by
  decide

end Middleware

/-! ## The worker, one id after the other -/

namespace UpdateService

theorem getIds_append (a b : List Call) : getIds (a ++ b) = getIds a ++ getIds b := by
  induction a with
  | nil => rfl
  | cons c a ih =>
    cases c <;> simp [getIds, ih]

theorem getIds_workerJob (env : Env) (id : Int) : getIds (workerJob env id) = [id] := by
  unfold workerJob
  cases env.Get id with
  | error e => rfl
  | ok info =>
    simp only
    cases env.Norm (info.Title ++ " " ++ info.Description) with
    | error e => rfl
    | ok norm => rfl

theorem getIds_worker (env : Env) (jobs : List Int) : getIds (worker env jobs) = jobs := by
  induction jobs with
  | nil => rfl
  | cons id jobs ih =>
    rw [worker, getIds_append, getIds_workerJob, ih]
    rfl

theorem norm_mem_workerJob (env : Env) (id : Int) (phrase : String)
    (h : Call.Norm phrase ∈ workerJob env id) :
    ∃ info, env.Get id = .ok info ∧ phrase = info.Title ++ " " ++ info.Description := by
  unfold workerJob at h
  cases hg : env.Get id with
  | error e =>
    rw [hg] at h
    simp at h
  | ok info =>
    rw [hg] at h
    simp only at h
    cases hn : env.Norm (info.Title ++ " " ++ info.Description) with
    | error e =>
      rw [hn] at h
      simp only [List.mem_cons, List.mem_singleton, List.not_mem_nil, or_false] at h
      rcases h with h | h
      · cases h
      · cases h
        exact ⟨info, rfl, rfl⟩
    | ok norm =>
      rw [hn] at h
      simp only [List.mem_cons, List.mem_singleton, List.not_mem_nil, or_false] at h
      rcases h with h | h | h
      · cases h
      · cases h
        exact ⟨info, rfl, rfl⟩
      · cases h

theorem add_mem_workerJob (env : Env) (id : Int) (c : Comics)
    (h : Call.Add c ∈ workerJob env id) :
    ∃ info norm, env.Get id = .ok info ∧
      env.Norm (info.Title ++ " " ++ info.Description) = .ok norm ∧
      c = { ID := info.ID, URL := info.URL, Title := info.Title,
            Description := info.Description, Words := norm } := by
  unfold workerJob at h
  cases hg : env.Get id with
  | error e =>
    rw [hg] at h
    simp at h
  | ok info =>
    rw [hg] at h
    simp only at h
    cases hn : env.Norm (info.Title ++ " " ++ info.Description) with
    | error e =>
      rw [hn] at h
      simp at h
    | ok norm =>
      rw [hn] at h
      simp only [List.mem_cons, List.mem_singleton, List.not_mem_nil, or_false] at h
      rcases h with h | h | h
      · cases h
      · cases h
      · cases h
        exact ⟨info, norm, rfl, hn, rfl⟩

/-- C23: for every sequence of ids that a worker receives and whatever
`Get`, `Norm` and `Add` answer, the worker calls `xkcd.Get` once for every id
of the sequence, in order (a failure never stops the loop); it calls
`words.Norm` only for an id whose `Get` succeeded, with the text
`title + " " + description`; and it calls `db.Add` only for an id whose `Get`
and `Norm` both succeeded, with the comic made of their answers. -/
theorem worker_calls (env : Env) (jobs : List Int) :
    getIds (worker env jobs) = jobs ∧
      (∀ phrase, Call.Norm phrase ∈ worker env jobs →
        ∃ id ∈ jobs, ∃ info, env.Get id = .ok info ∧
          phrase = info.Title ++ " " ++ info.Description) ∧
      (∀ c, Call.Add c ∈ worker env jobs →
        ∃ id ∈ jobs, ∃ info norm, env.Get id = .ok info ∧
          env.Norm (info.Title ++ " " ++ info.Description) = .ok norm ∧
          c = { ID := info.ID, URL := info.URL, Title := info.Title,
                Description := info.Description, Words := norm }) ∧
      ∀ id ∈ jobs, ∀ info norm, env.Get id = .ok info →
        env.Norm (info.Title ++ " " ++ info.Description) = .ok norm →
          Call.Add { ID := info.ID, URL := info.URL, Title := info.Title,
                     Description := info.Description, Words := norm } ∈ worker env jobs := by
  refine ⟨getIds_worker env jobs, ?_, ?_, ?_⟩
  · intro phrase h
    obtain ⟨id, hid, hj⟩ := mem_worker env jobs _ h
    exact ⟨id, hid, norm_mem_workerJob env id phrase hj⟩
  · intro c h
    obtain ⟨id, hid, hj⟩ := mem_worker env jobs _ h
    exact ⟨id, hid, add_mem_workerJob env id c hj⟩
  · intro id hid info norm hg hn
    induction jobs with
    | nil => cases hid
    | cons j jobs ih =>
      rw [worker, List.mem_append]
      rcases List.mem_cons.mp hid with rfl | hid
      · left
        unfold workerJob
        rw [hg]
        simp only
        rw [hn]
        simp
      · exact Or.inr (ih hid)

theorem worker_calls_witness :
    getIds (worker flakyEnv [1, 2, 3, 4]) = [1, 2, 3, 4] ∧
      ∀ c, Call.Add c ∈ worker flakyEnv [1, 2, 3, 4] →
        ∃ id ∈ ([1, 2, 3, 4] : List Int), ∃ info norm, flakyEnv.Get id = .ok info ∧
          flakyEnv.Norm (info.Title ++ " " ++ info.Description) = .ok norm ∧
          c = { ID := info.ID, URL := info.URL, Title := info.Title,
                Description := info.Description, Words := norm } :=
  ⟨(worker_calls flakyEnv [1, 2, 3, 4]).1, (worker_calls flakyEnv [1, 2, 3, 4]).2.2.1⟩

theorem scenario_worker :
    worker flakyEnv [1, 2, 3, 4] =
      [Call.Get 1, Call.Norm "t d",
        Call.Add { ID := 1, URL := "u", Title := "t", Description := "d", Words := ["w"] },
        Call.Get 2,
        Call.Get 3, Call.Norm "bad text",
        Call.Get 4, Call.Norm "t d",
        Call.Add { ID := 4, URL := "u", Title := "t", Description := "d", Words := ["w"] }] := by
  decide

/-- C30: an `Update` that is rejected with `ErrAlreadyExists` leaves the flag
`running` set (it returns before `unlockRun` is deferred), so an `Update` that
follows the rejection is rejected as well. -/
theorem Update_rejected_keeps_flag (env : Env) (ctx : Ctx) (sel : Nat → Bool) :
    (Update env ctx sel true).err = some GoError.ErrAlreadyExists ∧
      (Update env ctx sel true).running = true ∧
      ∀ (env' : Env) (ctx' : Ctx) (sel' : Nat → Bool),
        (Update env' ctx' sel' (Update env ctx sel true).running).err =
            some GoError.ErrAlreadyExists ∧
          (Update env' ctx' sel' (Update env ctx sel true).running).running = true := by
  have h : ∀ (e : Env) (c : Ctx) (s : Nat → Bool),
      (Update e c s true).err = some GoError.ErrAlreadyExists ∧
        (Update e c s true).running = true := by
    intro e c s
    unfold Update
    simp [lockRun]
  refine ⟨(h env ctx sel).1, (h env ctx sel).2, ?_⟩
  intro env' ctx' sel'
  rw [(h env ctx sel).2]
  exact h env' ctx' sel'

end UpdateService

/-! ## The words that `Add` writes -/

namespace UpdateDB

theorem foldl_dedupStep (words : List String) :
    ∀ (seen : GoMap String Bool) (uniq : List String),
      (∀ k, (GoMap.lookup seen k).getD false = true ↔ k ∈ uniq) → uniq.Nodup →
      (words.foldl dedupStep (seen, uniq)).2.Nodup ∧
        ∀ w, w ∈ (words.foldl dedupStep (seen, uniq)).2 ↔ w ∈ uniq ∨ w ∈ words := by
  induction words with
  | nil =>
    intro seen uniq _ hnd
    simp [hnd]
  | cons a words ih =>
    intro seen uniq hinv hnd
    rw [List.foldl_cons]
    by_cases ha : a ∈ uniq
    · have hs : (GoMap.lookup seen a).getD false = true := (hinv a).mpr ha
      have e : dedupStep (seen, uniq) a = (seen, uniq) := by
        unfold dedupStep
        simp only [hs, if_true]
      rw [e]
      obtain ⟨h1, h2⟩ := ih seen uniq hinv hnd
      refine ⟨h1, fun w => ?_⟩
      rw [h2 w, List.mem_cons]
      constructor
      · rintro (h | h)
        · exact Or.inl h
        · exact Or.inr (Or.inr h)
      · rintro (h | rfl | h)
        · exact Or.inl h
        · exact Or.inl ha
        · exact Or.inr h
    · have hs : ¬ (GoMap.lookup seen a).getD false = true := fun h => ha ((hinv a).mp h)
      have e : dedupStep (seen, uniq) a = (GoMap.store seen a true, uniq ++ [a]) := by
        unfold dedupStep
        rw [if_neg hs]
      have hinv' : ∀ k, (GoMap.lookup (GoMap.store seen a true) k).getD false = true ↔
          k ∈ uniq ++ [a] := by
        intro k
        by_cases hk : k = a
        · subst hk
          simp [GoMap.lookup_store_self]
        · rw [GoMap.lookup_store_ne _ _ hk, hinv k]
          simp [hk]
      have hnd' : (uniq ++ [a]).Nodup :=
        List.Nodup.append hnd (List.nodup_singleton a) (by simpa using ha)
      rw [e]
      obtain ⟨h1, h2⟩ := ih _ _ hinv' hnd'
      refine ⟨h1, fun w => ?_⟩
      rw [h2 w, List.mem_append, List.mem_singleton, List.mem_cons]
      tauto

theorem sorted_SortStrings (l : List String) : (SortStrings l).Sorted (fun a b => a ≤ b) := by
  have h : (SortStrings l).Sorted (fun a b => a.toList ≤ b.toList) :=
    pairwise_insertionSort_on (fun a b : String => a.toList ≤ b.toList) (fun _ => True)
      (fun a b _ _ => le_total a.toList b.toList)
      (fun a b c _ _ _ hab hbc => le_trans hab hbc) l (fun _ _ => trivial)
  exact h.imp (fun hab => String.le_iff_toList_le.mpr hab)

theorem mem_SortStrings (l : List String) (w : String) : w ∈ SortStrings l ↔ w ∈ l :=
  (List.perm_insertionSort _ l).mem_iff

theorem nodup_SortStrings (l : List String) (h : l.Nodup) : (SortStrings l).Nodup :=
  (List.perm_insertionSort _ l).nodup_iff.mpr h

/-- C24: for every word list handed to `Add`, the word list the attempts write
is sorted in ascending order (strictly, so without a duplicate) and holds
exactly the words of the input list. -/
theorem prepareWords_sorted (words : List String) :
    (prepareWords words).Sorted (fun a b => a ≤ b) ∧
      (prepareWords words).Sorted (fun a b => a < b) ∧
      (prepareWords words).Nodup ∧
      ∀ w, w ∈ prepareWords words ↔ w ∈ words := by
  have key : (prepareWords words).Sorted (fun a b => a ≤ b) ∧ (prepareWords words).Nodup ∧
      ∀ w, w ∈ prepareWords words ↔ w ∈ words := by
    unfold prepareWords
    by_cases h : words.length > 1
    · rw [if_pos h]
      obtain ⟨h1, h2⟩ := foldl_dedupStep words [] []
        (fun k => by simp [GoMap.lookup]) List.nodup_nil
      refine ⟨sorted_SortStrings _, nodup_SortStrings _ h1, fun w => ?_⟩
      rw [mem_SortStrings, h2 w]
      simp
    · rw [if_neg h]
      match words, h with
      | [], _ => simp
      | [a], _ => simp
      | a :: b :: t, h => simp at h
  obtain ⟨hs, hn, hm⟩ := key
  refine ⟨hs, ?_, hn, hm⟩
  have hp : (prepareWords words).Pairwise (fun a b => a ≤ b ∧ a ≠ b) :=
    List.Pairwise.and hs hn
  exact hp.imp (fun h => lt_of_le_of_ne h.1 h.2)

theorem scenario_prepareWords :
    prepareWords ["give", "car", "give", "shout", "car"] = ["car", "give", "shout"] ∧
      prepareWords ["b"] = ["b"] ∧ prepareWords [] = [] := by
  decide

end UpdateDB

/-! ## The snapshot: replacement, stale entries, duplicates -/

namespace SearchService

theorem lookup_comics_buildSnapshot_mem (cs : List Comic) (id : Int) (x : Comic)
    (h : GoMap.lookup (buildSnapshot cs).comics id = some x) : x ∈ cs ∧ x.ID = id := by
  induction cs using List.reverseRecOn with
  | nil => simp [buildSnapshot, GoMap.lookup] at h
  | append_singleton l a ih =>
    rw [buildSnapshot_append] at h
    simp only [rebuildStep] at h
    by_cases hid : id = a.ID
    · subst hid
      rw [GoMap.lookup_store_self] at h
      cases h
      exact ⟨by simp, rfl⟩
    · rw [GoMap.lookup_store_ne _ _ hid] at h
      exact ⟨List.mem_append_left _ (ih h).1, (ih h).2⟩

theorem mem_keys_comics_buildSnapshot (cs : List Comic) (id : Int) :
    id ∈ GoMap.keys (buildSnapshot cs).comics ↔ ∃ c ∈ cs, c.ID = id := by
  induction cs using List.reverseRecOn with
  | nil => simp [buildSnapshot, GoMap.keys]
  | append_singleton l a ih =>
    rw [buildSnapshot_append]
    simp only [rebuildStep, GoMap.mem_keys_store, ih, List.mem_append, List.mem_singleton]
    constructor
    · rintro (rfl | ⟨c, hc, h⟩)
      · exact ⟨a, Or.inr rfl, rfl⟩
      · exact ⟨c, Or.inl hc, h⟩
    · rintro ⟨c, hc | rfl, h⟩
      · exact Or.inr ⟨c, hc, h⟩
      · exact Or.inl h.symm

/-- C25: when `db.Search` fails, `RebuildIndex` returns that error and leaves
both maps of the snapshot as they were; when it succeeds, both maps are
replaced by the maps built from the returned rows alone, whatever the
snapshot was before: `index[w]` lists the ids of the rows that hold `w`, and
`comics` has an entry, taken from the rows, exactly for the ids of the rows. -/
theorem RebuildIndex_all_or_nothing (env : Env) (s : Snapshot) :
    (∀ e, env.dbSearch = .error e →
        (RebuildIndex env s).err = some e ∧ (RebuildIndex env s).snapshot.index = s.index ∧
          (RebuildIndex env s).snapshot.comics = s.comics) ∧
      ∀ comics, env.dbSearch = .ok comics →
        (RebuildIndex env s).err = none ∧
          (RebuildIndex env s).snapshot = buildSnapshot comics ∧
          (∀ s' : Snapshot, (RebuildIndex env s').snapshot = (RebuildIndex env s).snapshot) ∧
          (∀ w id, id ∈ (GoMap.lookup (RebuildIndex env s).snapshot.index w).getD [] ↔
            ∃ c ∈ comics, c.ID = id ∧ w ∈ c.Words) ∧
          (∀ id, id ∈ GoMap.keys (RebuildIndex env s).snapshot.comics ↔
            ∃ c ∈ comics, c.ID = id) ∧
          ∀ id c, GoMap.lookup (RebuildIndex env s).snapshot.comics id = some c →
            c ∈ comics ∧ c.ID = id := by
  constructor
  · intro e he
    unfold RebuildIndex
    rw [he]
    exact ⟨rfl, rfl, rfl⟩
  · intro comics hc
    have h : ∀ s' : Snapshot, (RebuildIndex env s').snapshot = buildSnapshot comics := by
      intro s'
      unfold RebuildIndex
      rw [hc]
    refine ⟨?_, h s, fun s' => (h s').trans (h s).symm, ?_, ?_, ?_⟩
    · unfold RebuildIndex
      rw [hc]
    · rw [h s]
      exact mem_index_buildSnapshot comics
    · rw [h s]
      exact mem_keys_comics_buildSnapshot comics
    · rw [h s]
      exact lookup_comics_buildSnapshot_mem comics

theorem RebuildIndex_all_or_nothing_witness :
    failingDbEnv.dbSearch = .error (GoError.upstream 3) ∧
      ((RebuildIndex failingDbEnv staleSnapshot).err = some (GoError.upstream 3) ∧
        (RebuildIndex failingDbEnv staleSnapshot).snapshot.index = staleSnapshot.index ∧
        (RebuildIndex failingDbEnv staleSnapshot).snapshot.comics = staleSnapshot.comics) ∧
      scenarioEnv.dbSearch = .ok scenarioRows ∧
      (RebuildIndex scenarioEnv staleSnapshot).err = none ∧
      (RebuildIndex scenarioEnv staleSnapshot).snapshot = buildSnapshot scenarioRows :=
  ⟨rfl, (RebuildIndex_all_or_nothing failingDbEnv staleSnapshot).1 (GoError.upstream 3) rfl, rfl,
    ((RebuildIndex_all_or_nothing scenarioEnv staleSnapshot).2 scenarioRows rfl).1,
    ((RebuildIndex_all_or_nothing scenarioEnv staleSnapshot).2 scenarioRows rfl).2.1⟩

theorem mem_truncate (limit : Int) (l : List scored) (c : Comic) (h : c ∈ truncate limit l) :
    ∃ x ∈ l, x.comic = c := by
  unfold truncate at h
  simp only [List.mem_map] at h
  obtain ⟨x, hx, rfl⟩ := h
  exact ⟨x, List.mem_of_mem_take hx, rfl⟩

theorem mem_IndexSearch_imp (env : Env) (s : Snapshot) (phrase : String) (limit : Int)
    (c : Comic) (h : c ∈ (IndexSearch env s phrase limit).comics) :
    ∃ Q, env.Norm phrase = .ok Q ∧ ∃ e ∈ accumulate s Q, e.2.comic = c ∧ c.Words ≠ [] := by
  unfold IndexSearch at h
  by_cases h1 : phrase = "" ∨ limit ≤ 0
  · rw [if_pos h1] at h
    simp [Return.comics] at h
  · rw [if_neg h1] at h
    cases hN : env.Norm phrase with
    | error e =>
      rw [hN] at h
      simp [Return.comics] at h
    | ok Q =>
      rw [hN] at h
      simp only at h
      refine ⟨Q, rfl, ?_⟩
      rw [← mem_collect]
      split_ifs at h
      · simp [Return.comics] at h
      · simp [Return.comics] at h
      · simp [Return.comics] at h
      · simp [Return.comics] at h
      · simp only [Return.comics, Option.getD_some] at h
        obtain ⟨x, hx, hxc⟩ := mem_truncate _ _ c h
        exact ⟨x, (mem_SortFunc _ _ x).mp hx, hxc⟩

theorem IndexSearch_no_error (env : Env) (s : Snapshot) (phrase : String) (limit : Int)
    (Q : List String) (hp : phrase ≠ "") (hl : 0 < limit) (hQ : env.Norm phrase = .ok Q) :
    (IndexSearch env s phrase limit).err = none := by
  have hl' : ¬ limit ≤ 0 := not_le.mpr hl
  unfold IndexSearch
  simp only [hp, hl', or_self, if_false, hQ]
  split_ifs <;> rfl

/-- C26: for every snapshot, also one whose index lists ids that `comics` does
not hold, every comic that `IndexSearch` returns is a value stored in `comics`
and has a non-empty word list; and with valid arguments and a normalizer that
succeeds `IndexSearch` returns no error, so the stale ids and the comics
without words are passed over silently. -/
theorem IndexSearch_returns_stored (env : Env) (s : Snapshot) (phrase : String) (limit : Int) :
    (∀ c ∈ (IndexSearch env s phrase limit).comics,
        (∃ id, GoMap.lookup s.comics id = some c) ∧ c.Words ≠ []) ∧
      ∀ Q, phrase ≠ "" → 0 < limit → env.Norm phrase = .ok Q →
        (IndexSearch env s phrase limit).err = none := by
  constructor
  · intro c hc
    obtain ⟨Q, -, ⟨id, sc⟩, he, hcomic, hw⟩ := mem_IndexSearch_imp env s phrase limit c hc
    have hok := accumulate_ok s Q
    have hlk := (GoMap.mem_iff_lookup _ hok.1 id sc).mp he
    have := hok.2 id sc hlk
    simp only at hcomic
    rw [hcomic] at this
    exact ⟨⟨id, this⟩, hw⟩
  · intro Q hp hl hQ
    exact IndexSearch_no_error env s phrase limit Q hp hl hQ

theorem IndexSearch_returns_stored_witness :
    "foo" ≠ "" ∧ (0 : Int) < 10 ∧ scenarioEnv.Norm "foo" = .ok ["foo", "bar"] ∧
      (∀ c ∈ (IndexSearch scenarioEnv staleSnapshot "foo" 10).comics,
        (∃ id, GoMap.lookup staleSnapshot.comics id = some c) ∧ c.Words ≠ []) ∧
      (IndexSearch scenarioEnv staleSnapshot "foo" 10).err = none :=
  ⟨by decide, by decide, rfl, (IndexSearch_returns_stored scenarioEnv staleSnapshot "foo" 10).1,
    (IndexSearch_returns_stored scenarioEnv staleSnapshot "foo" 10).2 ["foo", "bar"] (by decide)
      (by decide) rfl⟩

theorem scenario_stale_index :
    (IndexSearch scenarioEnv staleSnapshot "foo" 10).comics = [⟨2, "u2", ["foo"]⟩] ∧
      (IndexSearch scenarioEnv staleSnapshot "foo" 10).err = none := by
  decide

theorem getD_index_foldl (id : Int) (ws : List String) (ix : GoMap String (List Int))
    (w : String) :
    (GoMap.lookup (ws.foldl (indexStep id) ix) w).getD [] =
      (GoMap.lookup ix w).getD [] ++ List.replicate (ws.count w) id := by
  induction ws generalizing ix with
  | nil => simp
  | cons w₀ ws ih =>
    rw [List.foldl_cons, ih, lookup_indexStep]
    by_cases h : w = w₀
    · subst h
      simp [List.replicate_succ]
    · have h' : ¬ w₀ = w := fun e => h e.symm
      simp [h, h', List.count_cons]

theorem getD_index_buildSnapshot_append (cs : List Comic) (c : Comic) (w : String) :
    (GoMap.lookup (buildSnapshot (cs ++ [c])).index w).getD [] =
      (GoMap.lookup (buildSnapshot cs).index w).getD [] ++
        List.replicate (c.Words.count w) c.ID := by
  rw [buildSnapshot_append]
  simp only [rebuildStep]
  exact getD_index_foldl c.ID c.Words _ w

theorem nodup_index_buildSnapshot (cs : List Comic) (hd : (cs.map (fun c => c.ID)).Nodup)
    (hw : ∀ c ∈ cs, c.Words.Nodup) (w : String) :
    ((GoMap.lookup (buildSnapshot cs).index w).getD []).Nodup := by
  induction cs using List.reverseRecOn with
  | nil => simp [buildSnapshot, GoMap.lookup]
  | append_singleton l a ih =>
    rw [List.map_append, List.nodup_append] at hd
    obtain ⟨hdl, -, hdisj⟩ := hd
    rw [getD_index_buildSnapshot_append]
    refine List.Nodup.append (ih hdl (fun c hc => hw c (List.mem_append_left _ hc))) ?_ ?_
    · rw [List.nodup_replicate]
      exact List.nodup_iff_count_le_one.mp (hw a (by simp)) w
    · intro i hi hi'
      obtain ⟨c, hc, hcid, -⟩ := (mem_index_buildSnapshot l w i).mp hi
      have : i = a.ID := List.eq_of_mem_replicate hi'
      subst this
      exact hdisj (List.mem_map.mpr ⟨c, hc, hcid⟩) (by simp)

/-- C27, as stated, fails: the rows have distinct ids, but comic 1 holds the
word `foo` twice, and `RebuildIndex` appends its id to `index["foo"]` once per
occurrence. -/
theorem RebuildIndex_duplicates :
    (repeatedWordRows.map (fun c => c.ID)).Nodup ∧
      repeatedWordEnv.dbSearch = .ok repeatedWordRows ∧
      (GoMap.lookup (RebuildIndex repeatedWordEnv { index := [], comics := [] }).snapshot.index
          "foo").getD [] = [1, 1, 2] ∧
      ¬ ((GoMap.lookup (RebuildIndex repeatedWordEnv { index := [], comics := [] }).snapshot.index
          "foo").getD []).Nodup :=
  ⟨by decide, rfl, by decide, by decide⟩

/-- C27, amended: when `db.Search` returns rows with pairwise distinct ids and
no row holds a word twice, no list `index[w]` of the index built by
`RebuildIndex` holds the same comic id twice. -/
theorem RebuildIndex_index_nodup (env : Env) (s₀ : Snapshot) (comics : List Comic)
    (hd : (comics.map (fun c => c.ID)).Nodup) (hw : ∀ c ∈ comics, c.Words.Nodup)
    (hdb : env.dbSearch = .ok comics) (w : String) :
    ((GoMap.lookup (RebuildIndex env s₀).snapshot.index w).getD []).Nodup := by
  have hsnap : (RebuildIndex env s₀).snapshot = buildSnapshot comics := by
    unfold RebuildIndex
    rw [hdb]
  rw [hsnap]
  exact nodup_index_buildSnapshot comics hd hw w

theorem RebuildIndex_index_nodup_witness :
    (scenarioRows.map (fun c => c.ID)).Nodup ∧ (∀ c ∈ scenarioRows, c.Words.Nodup) ∧
      scenarioEnv.dbSearch = .ok scenarioRows ∧
      ((GoMap.lookup (RebuildIndex scenarioEnv { index := [], comics := [] }).snapshot.index
        "foo").getD []).Nodup :=
  ⟨by decide, by decide, rfl,
    RebuildIndex_index_nodup scenarioEnv { index := [], comics := [] } scenarioRows (by decide)
      (by decide) rfl "foo"⟩

end SearchService

/-! ## The order of the results does not depend on the order of the rows -/

theorem eq_of_perm_of_pairwise_on {α : Type} (r : α → α → Prop) :
    ∀ (l₁ l₂ : List α), l₁.Perm l₂ → l₁.Pairwise r → l₂.Pairwise r →
      (∀ a ∈ l₁, ∀ b ∈ l₁, r a b → r b a → a = b) → l₁ = l₂ := by
  intro l₁
  induction l₁ with
  | nil =>
    intro l₂ hp _ _ _
    exact hp.nil_eq
  | cons a t₁ ih =>
    intro l₂ hp h₁ h₂ hanti
    cases l₂ with
    | nil => exact absurd hp.symm.nil_eq (by simp)
    | cons b t₂ =>
      rw [List.pairwise_cons] at h₁ h₂
      have hab : a = b := by
        have ha : a ∈ b :: t₂ := hp.mem_iff.mp (List.mem_cons_self _ _)
        have hb : b ∈ a :: t₁ := hp.mem_iff.mpr (List.mem_cons_self _ _)
        rcases List.mem_cons.mp ha with h | h
        · exact h
        · rcases List.mem_cons.mp hb with h' | h'
          · exact h'.symm
          · exact hanti a (List.mem_cons_self _ _) b hb (h₁.1 b h') (h₂.1 a h)
      subst hab
      have hp' : t₁.Perm t₂ := hp.cons_inv
      rw [ih t₂ hp' h₁.2 h₂.2
        (fun x hx y hy => hanti x (List.mem_cons_of_mem _ hx) y (List.mem_cons_of_mem _ hy))]

namespace SearchService

theorem mkScored_antisymm (Q : List String) (cs : List Comic)
    (hd : (cs.map (fun c => c.ID)).Nodup) (ca cb : Comic) (ha : ca ∈ cs) (hb : cb ∈ cs)
    (hab : cmpScored (mkScored Q ca) (mkScored Q cb) ≤ 0)
    (hba : cmpScored (mkScored Q cb) (mkScored Q ca) ≤ 0) : mkScored Q ca = mkScored Q cb := by
  rw [cmpScored_le_iff] at hab hba
  simp only [mkScored] at hab hba
  have hid : ca.ID = cb.ID := by omega
  rw [eq_of_mem_of_ID_eq hd ha hb hid]

theorem SortFunc_eq_of_perm (Q : List String) (cs : List Comic)
    (hd : (cs.map (fun c => c.ID)).Nodup) (A B : List scored)
    (hA : ∀ x ∈ A, ∃ c ∈ cs, IsHit Q c ∧ x = mkScored Q c) (hperm : A.Perm B) :
    SortFunc cmpScored A = SortFunc cmpScored B := by
  have hB : ∀ x ∈ B, ∃ c ∈ cs, IsHit Q c ∧ x = mkScored Q c :=
    fun x hx => hA x (hperm.mem_iff.mpr hx)
  have hdenA : ∀ x ∈ A, 0 < x.ratio.den := by
    intro x hx
    obtain ⟨c, -, hh, rfl⟩ := hA x hx
    exact isHit_length_pos hh
  have hdenB : ∀ x ∈ B, 0 < x.ratio.den := fun x hx => hdenA x (hperm.mem_iff.mpr hx)
  have hpA : (SortFunc cmpScored A).Perm A := List.perm_insertionSort _ A
  have hpB : (SortFunc cmpScored B).Perm B := List.perm_insertionSort _ B
  refine eq_of_perm_of_pairwise_on (fun a b => cmpScored a b ≤ 0) _ _
    (hpA.trans (hperm.trans hpB.symm)) (pairwise_SortFunc_cmpScored A hdenA)
    (pairwise_SortFunc_cmpScored B hdenB) ?_
  intro a ha b hb hab hba
  obtain ⟨ca, hca, -, rfl⟩ := hA a (hpA.mem_iff.mp ha)
  obtain ⟨cb, hcb, -, rfl⟩ := hA b (hpA.mem_iff.mp hb)
  exact mkScored_antisymm Q cs hd ca cb hca hcb hab hba

theorem mem_scoreComics (Q : List String) (comics : List Comic) (x : scored) :
    x ∈ scoreComics (buildQset Q) comics ↔ ∃ c, c ∈ comics ∧ IsHit Q c ∧ x = mkScored Q c := by
  rw [← mem_ranked, mem_SortFunc]

/-- C28: when the rows have pairwise distinct ids, `Search` returns the same
for every order in which `db.Search` returns them: the same list of comics,
for every query and every limit. -/
theorem Search_order_independent (Norm : String → Except GoError (List String))
    (l₁ l₂ : List Comic) (phrase : String) (limit : Int)
    (hd : (l₁.map (fun c => c.ID)).Nodup) (hperm : l₁.Perm l₂) :
    Search { Norm := Norm, dbSearch := .ok l₁ } phrase limit =
      Search { Norm := Norm, dbSearch := .ok l₂ } phrase limit := by
  unfold Search
  by_cases h1 : phrase = "" ∨ limit ≤ 0
  · rw [if_pos h1, if_pos h1]
  · rw [if_neg h1, if_neg h1]
    simp only
    cases Norm phrase with
    | error e => rfl
    | ok Q =>
      simp only
      by_cases h2 : Q.length = 0
      · rw [if_pos h2, if_pos h2]
      · rw [if_neg h2, if_neg h2]
        have hA : ∀ x ∈ scoreComics (buildQset Q) l₁,
            ∃ c ∈ l₁, IsHit Q c ∧ x = mkScored Q c :=
          fun x hx => (mem_scoreComics Q l₁ x).mp hx
        have hp : (scoreComics (buildQset Q) l₁).Perm (scoreComics (buildQset Q) l₂) := by
          rw [scoreComics_buildQset, scoreComics_buildQset]
          exact (hperm.filter _).map _
        rw [SortFunc_eq_of_perm Q l₁ hd _ _ hA hp]

theorem Search_order_independent_witness :
    (scenarioRows.map (fun c => c.ID)).Nodup ∧ scenarioRows.Perm scenarioRows.reverse ∧
      Search { Norm := scenarioEnv.Norm, dbSearch := .ok scenarioRows } "foo bar" 3 =
        Search { Norm := scenarioEnv.Norm, dbSearch := .ok scenarioRows.reverse } "foo bar" 3 :=
  ⟨by decide, (List.reverse_perm scenarioRows).symm,
    Search_order_independent scenarioEnv.Norm scenarioRows scenarioRows.reverse "foo bar" 3
      (by decide) (List.reverse_perm scenarioRows).symm⟩

/-! ## The two searchers return the same list -/

theorem hitsOf_bump (comics : GoMap Int Comic) (byId : GoMap Int scored) (j id : Int)
    (hc : GoMap.lookup comics id ≠ none) :
    hitsOf (bump comics byId j) id = hitsOf byId id + if j = id then 1 else 0 := by
  unfold bump
  cases h1 : GoMap.lookup byId j with
  | some sc =>
    simp only
    by_cases hj : j = id
    · subst hj
      simp [hitsOf, GoMap.lookup_store_self, h1]
    · have hj' : id ≠ j := fun e => hj e.symm
      simp [hitsOf, GoMap.lookup_store_ne _ _ hj', hj]
  | none =>
    simp only
    cases h2 : GoMap.lookup comics j with
    | none =>
      have hj : ¬ j = id := fun e => hc (e ▸ h2)
      simp [hj]
    | some c =>
      simp only
      by_cases hj : j = id
      · subst hj
        simp [hitsOf, GoMap.lookup_store_self, h1]
      · have hj' : id ≠ j := fun e => hj e.symm
        simp [hitsOf, GoMap.lookup_store_ne _ _ hj', hj]

theorem hitsOf_foldl_bump (comics : GoMap Int Comic) (ids : List Int) (id : Int)
    (hc : GoMap.lookup comics id ≠ none) :
    ∀ byId : GoMap Int scored,
      hitsOf (ids.foldl (bump comics) byId) id = hitsOf byId id + ids.count id := by
  induction ids with
  | nil => intro byId; simp
  | cons j ids ih =>
    intro byId
    rw [List.foldl_cons, ih, hitsOf_bump comics byId j id hc, List.count_cons]
    by_cases hj : j = id
    · simp [hj]
      omega
    · simp [hj]

theorem hitsOf_foldl_accumulate (s : Snapshot) (Q : List String) (id : Int)
    (hc : GoMap.lookup s.comics id ≠ none) :
    ∀ byId : GoMap Int scored,
      hitsOf (Q.foldl (fun byId qword =>
          ((GoMap.lookup s.index qword).getD []).foldl (bump s.comics) byId) byId) id =
        hitsOf byId id +
          (Q.map (fun q => ((GoMap.lookup s.index q).getD []).count id)).sum := by
  induction Q with
  | nil => intro byId; simp
  | cons q Q ih =>
    intro byId
    rw [List.foldl_cons, ih, hitsOf_foldl_bump s.comics _ id hc]
    simp only [List.map_cons, List.sum_cons]
    omega

theorem hitsOf_accumulate (s : Snapshot) (Q : List String) (id : Int)
    (hc : GoMap.lookup s.comics id ≠ none) :
    hitsOf (accumulate s Q) id =
      (Q.map (fun q => ((GoMap.lookup s.index q).getD []).count id)).sum := by
  unfold accumulate
  rw [hitsOf_foldl_accumulate s Q id hc]
  simp [hitsOf, GoMap.lookup]

theorem count_index_buildSnapshot (cs : List Comic) (hd : (cs.map (fun c => c.ID)).Nodup)
    (q : String) (c : Comic) (hc : c ∈ cs) :
    ((GoMap.lookup (buildSnapshot cs).index q).getD []).count c.ID = c.Words.count q := by
  induction cs using List.reverseRecOn with
  | nil => cases hc
  | append_singleton l a ih =>
    rw [List.map_append, List.nodup_append] at hd
    obtain ⟨hdl, -, hdisj⟩ := hd
    rw [getD_index_buildSnapshot_append, List.count_append, List.count_replicate]
    rcases List.mem_append.mp hc with hcl | hca
    · have hne : ¬ a.ID = c.ID := by
        intro e
        exact hdisj (List.mem_map.mpr ⟨c, hcl, rfl⟩) (by simp [e])
      simp [hne, ih hdl hcl]
    · rw [List.mem_singleton.mp hca]
      have hnot : a.ID ∉ (GoMap.lookup (buildSnapshot l).index q).getD [] := by
        intro hi
        obtain ⟨c', hc', hid, -⟩ := (mem_index_buildSnapshot l q a.ID).mp hi
        exact hdisj (List.mem_map.mpr ⟨c', hc', hid⟩) (by simp)
      simp [List.count_eq_zero_of_not_mem hnot]

theorem countP_mem_cons (q : String) (Q : List String) (hq : q ∉ Q) (ws : List String) :
    ws.countP (fun w => decide (w ∈ q :: Q)) =
      ws.count q + ws.countP (fun w => decide (w ∈ Q)) := by
  induction ws with
  | nil => simp
  | cons w ws ih =>
    rw [List.countP_cons, List.countP_cons, List.count_cons, ih]
    by_cases hw : w = q
    · subst hw
      simp [hq]
      omega
    · by_cases hwQ : w ∈ Q
      · simp [hw, hwQ]
        omega
      · simp [hw, hwQ]

theorem sum_count_eq_countP (Q : List String) (hQ : Q.Nodup) (ws : List String) :
    (Q.map (fun q => ws.count q)).sum = ws.countP (fun w => decide (w ∈ Q)) := by
  induction Q with
  | nil => simp
  | cons q Q ih =>
    rw [List.nodup_cons] at hQ
    rw [List.map_cons, List.sum_cons, ih hQ.2, countP_mem_cons q Q hQ.1 ws]

theorem entry_accumulate_buildSnapshot (cs : List Comic)
    (hd : (cs.map (fun c => c.ID)).Nodup) (Q : List String) (hQ : Q.Nodup)
    (e : Int × scored) (he : e ∈ accumulate (buildSnapshot cs) Q) :
    e.2.comic ∈ cs ∧ e.2.comic.ID = e.1 ∧ e.2.nmatches = matchesOf Q e.2.comic := by
  obtain ⟨id, sc⟩ := e
  have hok := accumulate_ok (buildSnapshot cs) Q
  have hlk : GoMap.lookup (accumulate (buildSnapshot cs) Q) id = some sc :=
    (GoMap.mem_iff_lookup _ hok.1 id sc).mp he
  have hcm : GoMap.lookup (buildSnapshot cs).comics id = some sc.comic := hok.2 id sc hlk
  obtain ⟨hmem, hid⟩ := (lookup_comics_buildSnapshot cs hd id sc.comic).mp hcm
  refine ⟨hmem, hid, ?_⟩
  have hne : GoMap.lookup (buildSnapshot cs).comics id ≠ none := by
    rw [hcm]
    simp
  have hh := hitsOf_accumulate (buildSnapshot cs) Q id hne
  have hleft : hitsOf (accumulate (buildSnapshot cs) Q) id = sc.nmatches := by
    simp [hitsOf, hlk]
  rw [hleft] at hh
  simp only
  rw [hh, ← hid]
  have : (fun q => ((GoMap.lookup (buildSnapshot cs).index q).getD []).count sc.comic.ID) =
      fun q => sc.comic.Words.count q := by
    funext q
    exact count_index_buildSnapshot cs hd q sc.comic hmem
  rw [this, sum_count_eq_countP Q hQ]
  rfl

theorem mem_collect_buildSnapshot (cs : List Comic) (hd : (cs.map (fun c => c.ID)).Nodup)
    (Q : List String) (hQ : Q.Nodup) (x : scored) :
    x ∈ (accumulate (buildSnapshot cs) Q).foldl collectStep [] ↔
      ∃ c, c ∈ cs ∧ IsHit Q c ∧ x = mkScored Q c := by
  rw [foldl_collectStep, List.nil_append, List.mem_map]
  constructor
  · rintro ⟨e, he, rfl⟩
    rw [List.mem_filter] at he
    obtain ⟨hmem, -, hnm⟩ := entry_accumulate_buildSnapshot cs hd Q hQ e he.1
    have hw : e.2.comic.Words ≠ [] := by
      have := of_decide_eq_true he.2
      intro h0
      exact this (List.length_eq_zero.mpr h0)
    have hhit := (mem_accumulate_buildSnapshot cs hd Q e.2.comic).mp ⟨e, he.1, rfl, hw⟩
    refine ⟨e.2.comic, hmem, ⟨hhit.2.1, hhit.2.2⟩, ?_⟩
    simp only [mkScored, hnm]
  · rintro ⟨c, hc, hhit, rfl⟩
    obtain ⟨e, he, hec, hw⟩ := (mem_accumulate_buildSnapshot cs hd Q c).mpr ⟨hc, hhit.1, hhit.2⟩
    obtain ⟨-, -, hnm⟩ := entry_accumulate_buildSnapshot cs hd Q hQ e he
    refine ⟨e, List.mem_filter.mpr ⟨he, ?_⟩, ?_⟩
    · rw [hec]
      exact decide_eq_true (fun h0 => hw (List.length_eq_zero.mp h0))
    · simp only [mkScored, hnm, hec]

theorem nodup_collect_buildSnapshot (cs : List Comic) (hd : (cs.map (fun c => c.ID)).Nodup)
    (Q : List String) (hQ : Q.Nodup) :
    ((accumulate (buildSnapshot cs) Q).foldl collectStep []).Nodup := by
  apply List.Nodup.of_map (fun x : scored => x.comic.ID)
  rw [foldl_collectStep, List.nil_append, List.map_map]
  have hkeys := (accumulate_ok (buildSnapshot cs) Q).1
  have e : List.map ((fun x : scored => x.comic.ID) ∘
        fun e : Int × scored =>
          { e.2 with ratio := ⟨e.2.nmatches, e.2.comic.Words.length⟩ })
      ((accumulate (buildSnapshot cs) Q).filter
        (fun e => decide (e.2.comic.Words.length ≠ 0))) =
      List.map Prod.fst ((accumulate (buildSnapshot cs) Q).filter
        (fun e => decide (e.2.comic.Words.length ≠ 0))) := by
    apply List.map_congr_left
    intro e he
    exact (entry_accumulate_buildSnapshot cs hd Q hQ e (List.mem_of_mem_filter he)).2.1
  rw [e]
  exact hkeys.sublist ((List.filter_sublist _).map _)

theorem nodup_scoreComics (Q : List String) (cs : List Comic)
    (hd : (cs.map (fun c => c.ID)).Nodup) : (scoreComics (buildQset Q) cs).Nodup := by
  rw [scoreComics_buildQset]
  apply List.Nodup.of_map (fun x : scored => x.comic.ID)
  rw [List.map_map]
  exact hd.sublist ((List.filter_sublist _).map _)

theorem IndexSearch_comics_eq (env : Env) (s : Snapshot) (phrase : String) (limit : Int)
    (Q : List String) (hp : phrase ≠ "") (hl : 0 < limit) (hQ : env.Norm phrase = .ok Q)
    (hne : Q ≠ []) :
    (IndexSearch env s phrase limit).comics =
        truncate limit (SortFunc cmpScored ((accumulate s Q).foldl collectStep [])) ∧
      (IndexSearch env s phrase limit).err = none := by
  have hl' : ¬ limit ≤ 0 := not_le.mpr hl
  have hQlen : ¬ Q.length = 0 := fun h => hne (List.length_eq_zero.mp h)
  have hnil : truncate limit (SortFunc cmpScored []) = [] := by
    simp [truncate, SortFunc]
  unfold IndexSearch
  simp only [hp, hl', or_self, if_false, hQ, hQlen]
  split_ifs with h1 h2 h3
  · rw [accumulate_eq_nil s Q h1]
    exact ⟨hnil.symm, rfl⟩
  · rw [List.length_eq_zero.mp h2]
    exact ⟨hnil.symm, rfl⟩
  · rw [List.length_eq_zero.mp h3]
    exact ⟨hnil.symm, rfl⟩
  · exact ⟨rfl, rfl⟩

/-- C29: when the rows have pairwise distinct ids, the query stems are
non-empty and duplicate-free, the limit is positive and the snapshot was built
by `RebuildIndex` from the rows, `Search` and `IndexSearch` return the same
comics in the same order, and no error; rows may hold a word more than once.
(When nothing matches, `Search` returns an empty slice and `IndexSearch` the
nil slice: both are the empty list.) -/
theorem Search_IndexSearch_same_list (env : Env) (s₀ : Snapshot) (comics : List Comic)
    (phrase : String) (limit : Int) (Q : List String)
    (hd : (comics.map (fun c => c.ID)).Nodup) (hdb : env.dbSearch = .ok comics)
    (hp : phrase ≠ "") (hQ : env.Norm phrase = .ok Q) (hQnd : Q.Nodup) (hne : Q ≠ [])
    (hl : 0 < limit) :
    (Search env phrase limit).comics =
        (IndexSearch env (RebuildIndex env s₀).snapshot phrase limit).comics ∧
      (Search env phrase limit).err = none ∧
      (IndexSearch env (RebuildIndex env s₀).snapshot phrase limit).err = none := by
  have hsnap : (RebuildIndex env s₀).snapshot = buildSnapshot comics := by
    unfold RebuildIndex
    rw [hdb]
  rw [hsnap]
  obtain ⟨hI, hIe⟩ := IndexSearch_comics_eq env (buildSnapshot comics) phrase limit Q hp hl hQ hne
  have hS := Search_ok env phrase limit Q comics hp hl hQ hne hdb
  have hperm : (scoreComics (buildQset Q) comics).Perm
      ((accumulate (buildSnapshot comics) Q).foldl collectStep []) := by
    rw [List.perm_ext_iff_of_nodup (nodup_scoreComics Q comics hd)
      (nodup_collect_buildSnapshot comics hd Q hQnd)]
    intro x
    rw [mem_scoreComics, mem_collect_buildSnapshot comics hd Q hQnd]
  have hsort := SortFunc_eq_of_perm Q comics hd _ _
    (fun x hx => (mem_scoreComics Q comics x).mp hx) hperm
  refine ⟨?_, ?_, hIe⟩
  · rw [hI, hS, ← hsort]
    rfl
  · rw [hS]

theorem Search_IndexSearch_same_list_witness :
    (repeatedWordRows.map (fun c => c.ID)).Nodup ∧
      repeatedWordEnv.dbSearch = .ok repeatedWordRows ∧ "foo bar" ≠ "" ∧
      repeatedWordEnv.Norm "foo bar" = .ok ["foo", "bar"] ∧ ["foo", "bar"].Nodup ∧
      ["foo", "bar"] ≠ [] ∧ (0 : Int) < 2 ∧
      ((Search repeatedWordEnv "foo bar" 2).comics =
          (IndexSearch repeatedWordEnv
            (RebuildIndex repeatedWordEnv { index := [], comics := [] }).snapshot
            "foo bar" 2).comics ∧
        (Search repeatedWordEnv "foo bar" 2).err = none ∧
        (IndexSearch repeatedWordEnv
          (RebuildIndex repeatedWordEnv { index := [], comics := [] }).snapshot
          "foo bar" 2).err = none) :=
  ⟨by decide, rfl, by decide, rfl, by decide, by decide, by decide,
    Search_IndexSearch_same_list repeatedWordEnv { index := [], comics := [] } repeatedWordRows
      "foo bar" 2 ["foo", "bar"] (by decide) rfl (by decide) rfl (by decide) (by decide)
      (by decide)⟩

theorem scenario_repeated_words :
    (Search repeatedWordEnv "foo bar" 5).comics.map (fun c => c.ID) = [1, 2, 3] ∧
      (IndexSearch repeatedWordEnv
        (RebuildIndex repeatedWordEnv { index := [], comics := [] }).snapshot
        "foo bar" 5).comics.map (fun c => c.ID) = [1, 2, 3] := by
  decide

end SearchService
